import Mathlib

/-!
# boost::unordered::unordered_node_map

A shallow embedding of `include/boost/unordered/unordered_node_map.hpp`.

* `Heap` is the memory the wrapped element allocator hands Nodes out of.
* The functions `construct`, `construct_move`, `construct_copy` and `destroy`
  are `detail::ptr_allocator_adaptor`'s member functions.
* `Table` is the probing engine `detail::foa::table`; its source
  (`boost/unordered/detail/foa.hpp`) is not part of the sources at hand, so its
  operations are modelled from the specification.
* `unordered_node_map` is the public container; its member functions are
  translated line by line from the header.
-/

namespace NodeMap

/-- A Node address (a non-null `value_type*`). A slot is an `Option Addr`;
`none` is the null pointer. -/
abbrev Addr := Nat

/-- The element type `std::pair<Key const, T>`, one heap-allocated Node. -/
structure Node (K V : Type) where
  first : K
  second : V
deriving DecidableEq

/-- Memory of the wrapped allocator: the live allocations (an allocation
holds `none` until an object is constructed in it) and the number of
`allocate` and `deallocate` calls made so far. -/
structure Heap (K V : Type) where
  cells : List (Addr × Option (Node K V))
  allocs : Nat
  frees : Nat
deriving DecidableEq

/-- An address above every live allocation (and never the null pointer). -/
def freshAddr {K V : Type} : List (Addr × Option (Node K V)) → Addr
  | [] => 1
  | c :: cs => max (c.1 + 1) (freshAddr cs)

/-- Content of the allocation at address `p`, if any object lives there. -/
def cellAt {K V : Type} : List (Addr × Option (Node K V)) → Addr → Option (Node K V)
  | [], _ => none
  | c :: cs, p => if c.1 = p then c.2 else cellAt cs p

namespace Heap

variable {K V : Type}

/-- The heap before any allocation. -/
def empty : Heap K V := ⟨[], 0, 0⟩

/-- Dereference a Node pointer. -/
def get (h : Heap K V) (p : Addr) : Option (Node K V) := cellAt h.cells p

/-- The addresses of the live allocations. -/
def live (h : Heap K V) : List Addr := h.cells.map Prod.fst

/-- Wrapped allocator, `alloc_traits::allocate(al, 1)`: raw memory for one Node. -/
def allocate (h : Heap K V) : Addr × Heap K V :=
  (freshAddr h.cells,
    { cells := (freshAddr h.cells, none) :: h.cells, allocs := h.allocs + 1, frees := h.frees })

/-- Wrapped allocator, `alloc_traits::construct(al, p, args...)` once the
arguments have produced the Node `n`. -/
def construct_at (h : Heap K V) (p : Addr) (n : Node K V) : Heap K V :=
  { h with cells := h.cells.map (fun c => if c.1 = p then (c.1, some n) else c) }

/-- Wrapped allocator, `alloc_traits::destroy(al, p)`. -/
def destroy_at (h : Heap K V) (p : Addr) : Heap K V :=
  { h with cells := h.cells.map (fun c => if c.1 = p then (c.1, none) else c) }

/-- Wrapped allocator, `alloc_traits::deallocate(al, p, 1)`. -/
def deallocate (h : Heap K V) (p : Addr) : Heap K V :=
  { cells := h.cells.filter (fun c => decide (c.1 ≠ p)), allocs := h.allocs, frees := h.frees + 1 }

/-- The assignment `p->second = v` through a Node pointer. -/
def assign_second (h : Heap K V) (p : Addr) (v : V) : Heap K V :=
  { cells := h.cells.map
      (fun c => if c.1 = p then (c.1, c.2.map (fun n => Node.mk n.first v)) else c),
    allocs := h.allocs, frees := h.frees }

/-- The key of the Node at `p` (`kv->first`). -/
def keyOf (h : Heap K V) (p : Addr) : Option K := (h.get p).map Node.first

end Heap

/-! ## `detail::ptr_allocator_adaptor` (lines 37-140) -/

section Adaptor

variable {K V : Type}

/-- Lines 112-116, `construct(value_type* p, value_type&& x)`:
`*p = x; x = nullptr;`. Returns the new `*p` and the new `x`. -/
def construct_move (x : Option Addr) : Option Addr × Option Addr :=
  (x, none)

/-- Lines 118-131, `construct(value_type* p, Args&&... args)`. The argument
`args` is the outcome of running the Node's constructor on the arguments: the
Node, or the exception it throws. Returns the allocator memory, the new `*p`
and whether the call returned normally or rethrew. -/
def construct {ε : Type} (al : Heap K V) (args : Except ε (Node K V)) :
    Heap K V × Option Addr × Except ε Unit :=
  -- *p = boost::to_address(alloc_traits::allocate(al, 1));
  let r := al.allocate
  match args with
  | Except.ok n =>
    -- alloc_traits::construct(al, *p, std::forward<Args>(args)...);
    (r.2.construct_at r.1 n, some r.1, Except.ok ())
  | Except.error e =>
    -- catch (...) { alloc_traits::deallocate(al, pointer_to(**p), 1); throw; }
    (r.2.deallocate r.1, some r.1, Except.error e)

/-- Lines 107-110, `construct(value_type* p, const value_type& x)`:
`this->construct(p, *x)`, the variadic `construct` of lines 118-131 with the
Node `*x` as its argument, so `alloc_traits::construct(al, *p, *x)` builds the
new Node with the Node's copy constructor inside the `try`. `copy` is that
copy constructor: the Node it builds from `*x`, or the exception it throws.
Dereferencing a null or dangling `x` is undefined; the model then leaves
everything as is. -/
def construct_copy {ε : Type} (copy : Node K V → Except ε (Node K V)) (al : Heap K V)
    (p : Option Addr) (x : Option Addr) : Heap K V × Option Addr × Except ε Unit :=
  match x with
  | some a =>
    match al.get a with
    | some n => construct al (copy n)
    | none => (al, p, Except.ok ())
  | none => (al, p, Except.ok ())

/-- Lines 133-139, `destroy(value_type* p)`. -/
def destroy (al : Heap K V) (p : Option Addr) : Heap K V :=
  match p with
  | some a => (al.destroy_at a).deallocate a
  | none => al

/-- The call `construct(p, std::move(x))` of lines 112-116 together with the
allocator memory it runs in: the body `*p = x; x = nullptr;` uses neither the
wrapped allocator nor the old content `p` of the destination. Returns the
allocator memory, the new `*p` and the new `x`. -/
def construct_move_call (al : Heap K V) (_p x : Option Addr) :
    Heap K V × Option Addr × Option Addr :=
  (al, (construct_move x).1, (construct_move x).2)

/-- Lines 37-46, `ptr_allocator_adaptor<Allocator>`: its only data member is
the wrapped allocator `Allocator al`. -/
structure ptr_allocator_adaptor (Allocator : Type) where
  al : Allocator

/-- Lines 81-86, `operator==(ptr_allocator_adaptor<Allocator2> const& x)`:
`return al == x.al;`, where `aeq` is the wrapped allocators' `operator==`. -/
def ptr_allocator_adaptor.operator_eq {Allocator Allocator2 : Type}
    (aeq : Allocator → Allocator2 → Bool) (a : ptr_allocator_adaptor Allocator)
    (x : ptr_allocator_adaptor Allocator2) : Bool :=
  aeq a.al x.al

/-- Lines 88-93, `operator!=(ptr_allocator_adaptor<Allocator2> const& x)`:
`return al != x.al;`, where `ane` is the wrapped allocators' `operator!=`. -/
def ptr_allocator_adaptor.operator_ne {Allocator Allocator2 : Type}
    (ane : Allocator → Allocator2 → Bool) (a : ptr_allocator_adaptor Allocator)
    (x : ptr_allocator_adaptor Allocator2) : Bool :=
  ane a.al x.al

end Adaptor

/-! ## `map_types` (lines 146-172) -/

namespace map_types

variable {K V : Type}

/-- Lines 159-163, `extract(std::pair<K, V> const& kv)`. -/
def extract (kv : Node K V) : K := kv.first

/-- Lines 165-169, `extract(std::pair<K, V> const* kv)`. -/
def extract_ptr (h : Heap K V) (kv : Addr) : Option K := (h.get kv).map extract

/-- Line 171, `move(storage_type& x)`: `std::move(x)`, a cast. -/
def move (x : Option Addr) : Option Addr := x

end map_types

/-! ## Iterator arguments -/

/-- An argument the header passes where an iterator is built or expected: an
engine iterator (`table_type::iterator` or `table_type::const_iterator`, over
the slots), an iterator of the container (`iterator` or `const_iterator` of
lines 201-203, a `boost::indirect_iterator` over an engine iterator), or the
tag `detail::foa::const_iterator_cast_tag{}`. Both kinds of iterator carry
their position, an index into the bucket array. -/
inductive IterArg where
  | slot_iterator (pos : Nat)
  | value_iterator (pos : Nat)
  | const_iterator_cast_tag
deriving DecidableEq

/-- The construction `iterator{a, rest...}` of the container's iterator type
`boost::indirect_iterator<table_type::iterator>` (line 201) from one or more
arguments. `boost::indirect_iterator` is built from one argument: the
iterator it adapts, or another `indirect_iterator`. No constructor takes
another argument list, and the result is then `none`. -/
def indirect_iterator : IterArg → List IterArg → Option Nat
  | IterArg.slot_iterator pos, [] => some pos
  | IterArg.value_iterator pos, [] => some pos
  | _, _ => none

/-! ## The probing engine `detail::foa::table` -/

/-- Modelled from the spec: the probing engine `detail::foa::table`
(`boost/unordered/detail/foa.hpp`), of which only the calls are in the header.
The bucket array is a list of slots, each empty (`none`) or holding one Node
pointer; `size_` is the engine's element counter. A slot iterator is an index
into the bucket array and `end()` is its length. Where the engine probes is
outside the specification, so the hash function is not part of the model:
lookup examines the occupied slots in order, and a new element goes to the
first empty slot, after growth when there is none. -/
structure Table where
  slots : List (Option Addr)
  size_ : Nat
deriving DecidableEq

namespace Table

variable {K V : Type}

/-- Modelled from the spec: the engine constructed with no elements. -/
def empty : Table := ⟨[], 0⟩

/-- Modelled from the spec: the Node pointers of the occupied slots, in
iteration order. -/
def ptrs (t : Table) : List Addr := t.slots.filterMap id

/-- Modelled from the spec: the engine's `size()`. -/
def size (t : Table) : Nat := t.size_

/-- Modelled from the spec: the engine's `capacity()`. -/
def capacity (t : Table) : Nat := t.slots.length

/-- Modelled from the spec: the engine's `end()`. -/
def end_ (t : Table) : Nat := t.slots.length

/-- Modelled from the spec: dereferencing a slot iterator yields the slot,
a pointer to Node (`none` at `end()` or at an empty slot). -/
def deref (t : Table) (pos : Nat) : Option Addr := (t.slots.get? pos).join

/-- Modelled from the spec: probing compares the looked-up key with the key
extracted from an occupied slot, using the configured key equality. -/
def slotMatches (keq : K → K → Bool) (h : Heap K V) (key : K) : Option Addr → Bool
  | none => false
  | some a =>
    match map_types.extract_ptr h a with
    | some k => keq key k
    | none => false

/-- Modelled from the spec: the engine's `find(key)`, the iterator of the slot
whose key equals `key`, or `end()`. -/
def find (keq : K → K → Bool) (h : Heap K V) (t : Table) (key : K) : Nat :=
  t.slots.findIdx (slotMatches keq h key)

/-- Modelled from the spec: slot relocation during growth and rehash. Each
occupied slot is move-constructed into the new bucket array with the
adaptor's `construct(slot, moved_slot)`. -/
def relocate : List (Option Addr) → List (Option Addr)
  | [] => []
  | none :: rest => relocate rest
  | some a :: rest => (construct_move (map_types.move (some a))).1 :: relocate rest

/-- Modelled from the spec: the engine's `rehash(n)`, a bucket array of at
least `n` slots into which the occupied slots are relocated. -/
def rehash (t : Table) (n : Nat) : Table :=
  { slots := relocate t.slots ++ List.replicate (n - (relocate t.slots).length) none,
    size_ := t.size_ }

/-- Modelled from the spec: the engine's `reserve(n)`, room for `n` elements. -/
def reserve (t : Table) (n : Nat) : Table := t.rehash n

/-- Modelled from the spec: the first empty slot of the bucket array. -/
def firstEmpty (t : Table) : Nat := t.slots.findIdx Option.isNone

/-- Modelled from the spec: the bucket array grown when it has no empty slot. -/
def grown (t : Table) : Table :=
  if t.firstEmpty = t.end_ then t.rehash (2 * t.capacity + 1) else t

/-- Modelled from the spec: the engine stores a new element: it grows the
bucket array if it is full, has the allocator construct the Node in an empty
slot and counts the element. Returns the new slot's iterator. -/
def unchecked_emplace (h : Heap K V) (t : Table) (n : Node K V) : Nat × Heap K V × Table :=
  let t1 := t.grown
  let pos := t1.firstEmpty
  let r := construct h (Except.ok n : Except Unit (Node K V))
  (pos, r.1, { slots := t1.slots.set pos r.2.1, size_ := t1.size_ + 1 })

/-- Modelled from the spec: the engine's find-or-insert. If `key` is found
nothing is constructed and the existing slot is returned with `false`;
otherwise the Node `n` is constructed in a new slot, returned with `true`. -/
def emplace_impl (keq : K → K → Bool) (h : Heap K V) (t : Table) (key : K) (n : Node K V) :
    (Nat × Bool) × Heap K V × Table :=
  let pos := t.find keq h key
  if pos ≠ t.end_ then ((pos, false), h, t)
  else
    let r := unchecked_emplace h t n
    ((r.1, true), r.2.1, r.2.2)

/-- Modelled from the spec: the engine's `emplace(args...)`, where the
arguments build the pair `x`. -/
def emplace (keq : K → K → Bool) (h : Heap K V) (t : Table) (x : K × V) :
    (Nat × Bool) × Heap K V × Table :=
  emplace_impl keq h t (map_types.extract (Node.mk x.1 x.2)) (Node.mk x.1 x.2)

/-- Modelled from the spec: the engine's `insert(pair)`. -/
def insert (keq : K → K → Bool) (h : Heap K V) (t : Table) (x : K × V) :
    (Nat × Bool) × Heap K V × Table :=
  emplace_impl keq h t (map_types.extract (Node.mk x.1 x.2)) (Node.mk x.1 x.2)

/-- Modelled from the spec: the engine's `try_emplace(key, args...)`; the
mapped value is built from `args` by `mk` inside the new Node, so only when
the key is absent. -/
def try_emplace {A : Type} (keq : K → K → Bool) (h : Heap K V) (t : Table) (key : K)
    (mk : A → V) (args : A) : (Nat × Bool) × Heap K V × Table :=
  emplace_impl keq h t key (Node.mk key (mk args))

/-- Modelled from the spec: one step of the engine's `merge`. The slot
`some a` of the source is offered to `dst`: if its key is absent from `dst`
the pointer is moved into an empty slot of `dst` (the source slot becomes
null), otherwise both are left as they are. Returns `dst` and the source slot. -/
def merge_slot (keq : K → K → Bool) (h : Heap K V) (dst : Table) (a : Addr) :
    Table × Option Addr :=
  match map_types.extract_ptr h a with
  | none => (dst, some a)
  | some k =>
    if dst.find keq h k ≠ dst.end_ then (dst, some a)
    else
      let mv := construct_move (map_types.move (some a))
      let d1 := dst.grown
      ({ slots := d1.slots.set d1.firstEmpty mv.1, size_ := d1.size_ + 1 }, mv.2)

/-- Modelled from the spec: the engine's `merge`, over the source's bucket
array in iteration order. Returns `dst` and the source's bucket array. -/
def merge_slots (keq : K → K → Bool) (h : Heap K V) :
    Table → List (Option Addr) → Table × List (Option Addr)
  | dst, [] => (dst, [])
  | dst, none :: rest =>
    let r := merge_slots keq h dst rest
    (r.1, none :: r.2)
  | dst, some a :: rest =>
    let s := merge_slot keq h dst a
    let r := merge_slots keq h s.1 rest
    (r.1, s.2 :: r.2)

/-- Modelled from the spec: the engine's `merge(other)`: every element of
`src` whose key is absent from `dst` is transferred, pointer and slot
ownership, and leaves `src`, whose element counter is then the number of
slots it still occupies. The allocator memory is only read. Returns `dst` and
`src`. -/
def merge (keq : K → K → Bool) (h : Heap K V) (dst src : Table) : Table × Table :=
  let r := merge_slots keq h dst src.slots
  (r.1, { slots := r.2, size_ := (r.2.filterMap id).length })

/-- Modelled from the spec: the engine's `swap`, an exchange of engine state. -/
def swap (t u : Table) : Table × Table := (u, t)

/-- Modelled from the spec: the engine's `erase(pos)`: the Node of the slot
is destroyed and freed with the adaptor's `destroy`, the slot becomes empty
and the element counter drops by one. Erasing through an iterator that
refers to no element is undefined; the model then changes nothing. -/
def erase (h : Heap K V) (t : Table) (pos : Nat) : Heap K V × Table :=
  match t.deref pos with
  | some a => (destroy h (some a), { slots := t.slots.set pos none, size_ := t.size_ - 1 })
  | none => (h, t)

/-- Modelled from the spec: the engine's `erase_if(table, pred)` over the
bucket array in iteration order: the element of every occupied slot is given
to `pred` and, when `pred` holds, its Node is destroyed and the slot emptied.
Returns the number of elements erased, the allocator memory and the slots. -/
def erase_if_slots (pred : Node K V → Bool) :
    Heap K V → List (Option Addr) → Nat × Heap K V × List (Option Addr)
  | h, [] => (0, h, [])
  | h, none :: rest =>
    let r := erase_if_slots pred h rest
    (r.1, r.2.1, none :: r.2.2)
  | h, some a :: rest =>
    match h.get a with
    | some n =>
      if pred n then
        let r := erase_if_slots pred (destroy h (some a)) rest
        (r.1 + 1, r.2.1, none :: r.2.2)
      else
        let r := erase_if_slots pred h rest
        (r.1, r.2.1, some a :: r.2.2)
    | none =>
      let r := erase_if_slots pred h rest
      (r.1, r.2.1, some a :: r.2.2)

/-- Modelled from the spec: the engine's free function `erase_if(table, pred)`,
which returns the number of elements erased. -/
def erase_if (pred : Node K V → Bool) (h : Heap K V) (t : Table) : Nat × Heap K V × Table :=
  let r := erase_if_slots pred h t.slots
  (r.1, r.2.1, { slots := r.2.2, size_ := t.size_ - r.1 })

/-- Modelled from the spec: the engine's `max_load_factor()`, a value `mlf`
fixed by the engine, whatever the table holds. -/
def max_load_factor {F : Type} (mlf : F) (_t : Table) : F := mlf

/-- Modelled from the spec: the engine's `emplace(args...)` for any argument
pack: the element is built from the arguments (`init` is the construction of
an `init_type` from them), then found or inserted. -/
def emplace_args {A : Type} (keq : K → K → Bool) (h : Heap K V) (t : Table) (init : A → K × V)
    (args : A) : (Nat × Bool) × Heap K V × Table :=
  t.emplace keq h (init args)

/-- An argument the header passes in a call of the engine's `insert`: a key,
a mapped value, or an element (a pair of both). -/
inductive InsertArg (K V : Type) where
  | key (k : K)
  | mapped (v : V)
  | pair (x : K × V)

/-- Modelled from the spec: a call `table_.insert(args...)` with the argument
list `args`. The engine's interface is `insert(key|pair)`: one argument, which
for this map is the element, a pair. For any other argument list the engine
has no `insert` to call, and the model gives `none`. -/
def insert_call (keq : K → K → Bool) (h : Heap K V) (t : Table) :
    List (InsertArg K V) → Option ((Nat × Bool) × Heap K V × Table)
  | [InsertArg.pair x] => some (t.insert keq h x)
  | _ => none

/-- Modelled from the spec: a call `table_.erase(args...)` with the argument
list `args` of iterators. The engine's interface is `erase(key|slot-iterator)`:
the iterator form takes one iterator of the engine. For an iterator of the
container, which is not an iterator of the engine and does not convert to one,
or any other argument list, the engine has no `erase` to call, and the model
gives `none`. -/
def erase_call (h : Heap K V) (t : Table) : List IterArg → Option (Heap K V × Table)
  | [IterArg.slot_iterator pos] => some (t.erase h pos)
  | _ => none

end Table

/-! ## `unordered_node_map` (lines 143-742) -/

/-- The container: its only data member is the engine, `table_type table_`. -/
structure unordered_node_map where
  table_ : Table
deriving DecidableEq

/-- The exception `std::out_of_range` thrown by `at`. -/
inductive out_of_range where
  | key_was_not_found
deriving DecidableEq

namespace unordered_node_map

variable {K V : Type}

/-- Line 205, `unordered_node_map() : unordered_node_map(0)`. -/
def new : unordered_node_map := ⟨Table.empty⟩

/-- Line 331, `begin()`; the engine's first occupied slot. -/
def begin_ (m : unordered_node_map) : Nat := m.table_.slots.findIdx Option.isSome

/-- Line 335, `end()`. -/
def end_ (m : unordered_node_map) : Nat := m.table_.end_

/-- Increment of an iterator: the next occupied slot, or `end()`. -/
def next (m : unordered_node_map) (pos : Nat) : Nat :=
  (pos + 1) + (m.table_.slots.drop (pos + 1)).findIdx Option.isSome

/-- Dereferencing an `indirect_iterator` once gives the slot, a Node pointer. -/
def node_ptr (m : unordered_node_map) (pos : Nat) : Option Addr := m.table_.deref pos

/-- Dereferencing an `indirect_iterator` twice gives the element. -/
def node_at (h : Heap K V) (m : unordered_node_map) (pos : Nat) : Option (Node K V) :=
  (m.table_.deref pos).bind h.get

/-- The loop `for (it = begin(); it != end(); ++it)`: the Node pointers
visited, from `pos` on, in at most `fuel` increments. -/
def walk (m : unordered_node_map) : Nat → Nat → List Addr
  | 0, _ => []
  | fuel + 1, pos =>
    if pos ≠ m.end_ then (m.node_ptr pos).toList ++ walk m fuel (m.next pos) else []

/-- The elements in iteration order. -/
def elements (h : Heap K V) (m : unordered_node_map) : List (Node K V) :=
  m.table_.ptrs.filterMap h.get

/-- Line 347, `size()`. -/
def size (m : unordered_node_map) : Nat := m.table_.size

/-- Lines 356-366, `insert(value)`: `return table_.insert(value);`. -/
def insert (keq : K → K → Bool) (h : Heap K V) (m : unordered_node_map) (value : K × V) :
    (Nat × Bool) × Heap K V × unordered_node_map :=
  let r := m.table_.insert keq h value
  (r.1, r.2.1, ⟨r.2.2⟩)

/-- Lines 368-373, `insert(const_iterator, value)`:
`return table_.insert(value).first;`. -/
def insert_hint (keq : K → K → Bool) (h : Heap K V) (m : unordered_node_map) (_hint : Nat)
    (value : K × V) : Nat × Heap K V × unordered_node_map :=
  let r := m.table_.insert keq h value
  (r.1.1, r.2.1, ⟨r.2.2⟩)

/-- Lines 382-388, `insert(first, last)`:
`for (auto pos = first; pos != last; ++pos) table_.emplace(*pos);`. -/
def insert_range (keq : K → K → Bool) (h : Heap K V) (m : unordered_node_map) :
    List (K × V) → Heap K V × unordered_node_map
  | [] => (h, m)
  | x :: rest =>
    let r := m.table_.emplace keq h x
    insert_range keq r.2.1 ⟨r.2.2⟩ rest

/-- Lines 236-243, the constructor from an iterator range: an empty container,
then `this->insert(first, last);`. -/
def from_range (keq : K → K → Bool) (h : Heap K V) (xs : List (K × V)) :
    Heap K V × unordered_node_map :=
  insert_range keq h new xs

/-- Lines 395-404, `insert_or_assign(key, obj)`. -/
def insert_or_assign (keq : K → K → Bool) (h : Heap K V) (m : unordered_node_map) (key : K)
    (obj : V) : (Nat × Bool) × Heap K V × unordered_node_map :=
  -- auto iter_bool_pair = table_.try_emplace(key, std::forward<M>(obj));
  let iter_bool_pair := m.table_.try_emplace keq h key (fun (x : V) => x) obj
  if iter_bool_pair.1.2 then
    (iter_bool_pair.1, iter_bool_pair.2.1, ⟨iter_bool_pair.2.2⟩)
  else
    -- (*(iter_bool_pair.first))->second = std::forward<M>(obj);
    match iter_bool_pair.2.2.deref iter_bool_pair.1.1 with
    | some p =>
      (iter_bool_pair.1, iter_bool_pair.2.1.assign_second p obj, ⟨iter_bool_pair.2.2⟩)
    | none => (iter_bool_pair.1, iter_bool_pair.2.1, ⟨iter_bool_pair.2.2⟩)

/-- Lines 431-435, `emplace(args...)`:
`return table_.emplace(init_type(std::forward<Args>(args)...));`. -/
def emplace (keq : K → K → Bool) (h : Heap K V) (m : unordered_node_map) (k : K) (v : V) :
    (Nat × Bool) × Heap K V × unordered_node_map :=
  let r := m.table_.emplace keq h (k, v)
  (r.1, r.2.1, ⟨r.2.2⟩)

/-- Lines 437-441, `emplace_hint(const_iterator, args...)`:
`return table_.emplace(std::forward<Args>(args)...).first;`. -/
def emplace_hint (keq : K → K → Bool) (h : Heap K V) (m : unordered_node_map) (_hint : Nat)
    (k : K) (v : V) : Nat × Heap K V × unordered_node_map :=
  let r := m.table_.emplace keq h (k, v)
  (r.1.1, r.2.1, ⟨r.2.2⟩)

/-- Lines 443-448, `try_emplace(key, args...)`:
`return table_.try_emplace(key, std::forward<Args>(args)...);`. -/
def try_emplace {A : Type} (keq : K → K → Bool) (h : Heap K V) (m : unordered_node_map)
    (key : K) (mk : A → V) (args : A) : (Nat × Bool) × Heap K V × unordered_node_map :=
  let r := m.table_.try_emplace keq h key mk args
  (r.1, r.2.1, ⟨r.2.2⟩)

/-- Lines 499-503, `swap(rhs)`: `table_.swap(rhs.table_);`. -/
def swap (m rhs : unordered_node_map) : unordered_node_map × unordered_node_map :=
  let r := m.table_.swap rhs.table_
  (⟨r.1⟩, ⟨r.2⟩)

/-- Lines 505-511, `merge(source)`: `table_.merge(source.table_);`. Returns
the container and the source. -/
def merge (keq : K → K → Bool) (h : Heap K V) (m source : unordered_node_map) :
    unordered_node_map × unordered_node_map :=
  let r := m.table_.merge keq h source.table_
  (⟨r.1⟩, ⟨r.2⟩)

/-- Lines 572-575, `find(key)`: `return table_.find(key);`. -/
def find (keq : K → K → Bool) (h : Heap K V) (m : unordered_node_map) (key : K) : Nat :=
  m.table_.find keq h key

/-- The operand of a member access `e->second` in the header: the engine's
iterator that `table_.find` returns, or a slot, which is a pointer to a Node
(`*it` for an engine iterator `it`). -/
inductive ArrowOperand where
  | slot_iterator (pos : Nat)
  | node_pointer (p : Option Addr)

/-- The member access `e->second`. On a pointer to a Node it is the mapped
value of that Node, given as the address of the Node, as in
`(*(it))->second` of lines 402, 414, 549 and 554. On an engine iterator,
`operator->` gives the address of the slot the iterator refers to (line 201
wraps the engine's iterator in `boost::indirect_iterator` for the dereference
to the Node), and a slot is a pointer, which has no member `second`: the
expression is ill-formed and gives `none`. -/
def arrow_second : ArrowOperand → Option (Option Addr)
  | ArrowOperand.node_pointer p => some p
  | ArrowOperand.slot_iterator _ => none

/-- Lines 524-535, `at(key)` (and lines 537-545, its `const` form):
`auto pos = table_.find(key); if (pos != table_.end()) return pos->second;`
and `throw_exception(out_of_range(..))` otherwise. `pos` is the engine's
iterator, so the operand of `->second` is `ArrowOperand.slot_iterator pos`.
An ill-formed expression makes the member function impossible to instantiate,
whichever branch a call would take, so the expression is resolved first and
the result is `none` when it has no meaning; otherwise the result is the
reference returned, given as the address of its Node, or the exception
thrown, with the container and the allocator memory as the call leaves
them. -/
def at_ (keq : K → K → Bool) (h : Heap K V) (m : unordered_node_map) (key : K) :
    Option (Except out_of_range (Option Addr) × Heap K V × unordered_node_map) :=
  let pos := m.table_.find keq h key
  (arrow_second (ArrowOperand.slot_iterator pos)).bind (fun r =>
    if pos ≠ m.table_.end_ then
      some (Except.ok r, h, m)
    else
      some (Except.error out_of_range.key_was_not_found, h, m))

/-- Lines 547-550, `operator[](key)`:
`return (*(table_.try_emplace(key).first))->second;`. The result is the
reference, given as the address of its Node. -/
def index [Inhabited V] (keq : K → K → Bool) (h : Heap K V) (m : unordered_node_map) (key : K) :
    Option Addr × Heap K V × unordered_node_map :=
  let r := m.table_.try_emplace keq h key (fun (_ : Unit) => (default : V)) ()
  (r.2.2.deref r.1.1, r.2.1, ⟨r.2.2⟩)

/-- Line 687, `rehash(n)`: `table_.rehash(n);`. -/
def rehash (m : unordered_node_map) (n : Nat) : unordered_node_map := ⟨m.table_.rehash n⟩

/-- Line 689, `reserve(n)`: `table_.reserve(n);`. -/
def reserve (m : unordered_node_map) (n : Nat) : unordered_node_map := ⟨m.table_.reserve n⟩

/-- The comparison `*pos != kvp` of two elements, `std::pair`'s `operator!=`:
the keys and the mapped values are compared with their own `operator==`. -/
def pair_ne [BEq K] [BEq V] (x y : Node K V) : Bool :=
  !(x.first == y.first && x.second == y.second)

/-- Lines 709-715, the body of the loop over `lhs` for one element `kvp`:
`true` when the loop goes on, `false` when the lambda returns `false`. -/
def eq_step [BEq K] [BEq V] (keq : K → K → Bool) (h : Heap K V) (rhs : unordered_node_map)
    (kvp : Node K V) : Bool :=
  let pos := rhs.find keq h kvp.first
  if pos = rhs.end_ then false
  else
    match rhs.node_at h pos with
    | some x => !(pair_ne x kvp)
    | none => false

/-- Lines 699-717, `operator==(lhs, rhs)`; `lhs_this` and `rhs_this` are the
addresses of the two container objects, compared by `&lhs == &rhs`. -/
def operator_eq [BEq K] [BEq V] (keq : K → K → Bool) (h : Heap K V) (lhs_this rhs_this : Nat)
    (lhs rhs : unordered_node_map) : Bool :=
  if lhs_this = rhs_this then true
  else decide (lhs.size = rhs.size) && (lhs.elements h).all (eq_step keq h rhs)

/-- Lines 600-603, `contains(key)`: `return this->find(key) != this->end();`. -/
def contains (keq : K → K → Bool) (h : Heap K V) (m : unordered_node_map) (key : K) : Bool :=
  decide (m.find keq h key ≠ m.end_)

/-- Lines 557-561, `count(key)`: `pos != table_.end() ? 1 : 0`. -/
def count (keq : K → K → Bool) (h : Heap K V) (m : unordered_node_map) (key : K) : Nat :=
  if m.table_.find keq h key ≠ m.table_.end_ then 1 else 0

/-- Lines 472-476, `erase(iterator pos)` and `erase(const_iterator pos)`:
`table_.erase(pos);`, the engine's `erase` called with the container's own
iterator `pos`, a `boost::indirect_iterator` (lines 201-203). The result is
`none` when the call has no meaning. -/
def erase (h : Heap K V) (m : unordered_node_map) (pos : Nat) :
    Option (Heap K V × unordered_node_map) :=
  (m.table_.erase_call h [IterArg.value_iterator pos]).map (fun r => (r.1, ⟨r.2⟩))

/-- Lines 477-483, `erase(first, last)`:
`while (first != last) { this->erase(first++); }` and then
`return iterator{detail::foa::const_iterator_cast_tag{}, last};`, where
`iterator` is `boost::indirect_iterator<table_type::iterator>` (line 201) and
`last` a `const_iterator` of the container (line 202).
In `this->erase(first++)` the iterator is copied and advanced before the copy
is erased. Advancing an iterator that refers to no element is undefined and
gives `none`, as do a loop still running after `fuel` iterations and a call
or a construction that has no meaning. -/
def erase_range (h : Heap K V) (m : unordered_node_map) :
    Nat → Nat → Nat → Option (Nat × Heap K V × unordered_node_map)
  | 0, first, last =>
    if first ≠ last then none
    else
      (indirect_iterator IterArg.const_iterator_cast_tag
        [IterArg.value_iterator last]).map (fun it => (it, h, m))
  | fuel + 1, first, last =>
    if first ≠ last then
      match m.node_ptr first with
      | none => none
      | some _ =>
        let old := first
        let first1 := m.next first
        match m.erase h old with
        | none => none
        | some r => erase_range r.1 r.2 fuel first1 last
    else
      (indirect_iterator IterArg.const_iterator_cast_tag
        [IterArg.value_iterator last]).map (fun it => (it, h, m))

/-- The loop `for (it = first; it != last; ++it)`: the Node pointers of the
range `[first, last)`, in at most `fuel` increments. -/
def walk_range (m : unordered_node_map) : Nat → Nat → Nat → List Addr
  | 0, _, _ => []
  | fuel + 1, pos, last =>
    if pos ≠ last then (m.node_ptr pos).toList ++ walk_range m fuel (m.next pos) last else []

/-- The range `[first, last)` is valid: `last` is reached from `first` by at
most `n` increments, each of an iterator that refers to an element. -/
def reaches (m : unordered_node_map) : Nat → Nat → Nat → Bool
  | 0, first, last => decide (first = last)
  | n + 1, first, last =>
    decide (first = last) || ((m.node_ptr first).isSome && reaches m n (m.next first) last)

/-- Lines 614-624, `equal_range(key)`. -/
def equal_range (keq : K → K → Bool) (h : Heap K V) (m : unordered_node_map) (key : K) :
    Nat × Nat :=
  let pos := m.table_.find keq h key
  if pos = m.table_.end_ then (pos, pos)
  else
    -- auto next = pos; ++next;
    (pos, m.next pos)

/-- Line 674, `bucket_count()`: `return table_.capacity();`. -/
def bucket_count (m : unordered_node_map) : Nat := m.table_.capacity

/-- Lines 678-681, `max_load_factor()`: `return table_.max_load_factor();`. -/
def max_load_factor {F : Type} (mlf : F) (m : unordered_node_map) : F :=
  m.table_.max_load_factor mlf

/-- Line 683, `void max_load_factor(float) {}`. Returns the allocator memory
and the container as the call leaves them. -/
def set_max_load_factor {F : Type} (h : Heap K V) (m : unordered_node_map) (_f : F) :
    Heap K V × unordered_node_map :=
  (h, m)

/-- Lines 735-742, the free function `erase_if(map, pred)`:
`return erase_if(map.table_, pred);`. -/
def erase_if (pred : Node K V → Bool) (h : Heap K V) (m : unordered_node_map) :
    Nat × Heap K V × unordered_node_map :=
  let r := m.table_.erase_if pred h
  (r.1, r.2.1, ⟨r.2.2⟩)

/-- Lines 375-380, `insert(const_iterator, init_type&& value)`:
`return table_.insert(std::move(value.first), std::move(value.second)).first;`.
The engine's `insert` is called with two arguments, the key and the mapped
value. -/
def insert_hint_init (keq : K → K → Bool) (h : Heap K V) (m : unordered_node_map) (_hint : Nat)
    (value : K × V) : Option (Nat × Heap K V × unordered_node_map) :=
  (m.table_.insert_call keq h [Table.InsertArg.key value.1, Table.InsertArg.mapped value.2]).map
    (fun r => (r.1.1, r.2.1, ⟨r.2.2⟩))

/-- Lines 363-366, `insert(init_type&& value)`:
`return table_.insert(std::move(value));`, the engine's `insert` called with
one argument, the pair. -/
def insert_init (keq : K → K → Bool) (h : Heap K V) (m : unordered_node_map) (value : K × V) :
    Option ((Nat × Bool) × Heap K V × unordered_node_map) :=
  (m.table_.insert_call keq h [Table.InsertArg.pair value]).map
    (fun r => (r.1, r.2.1, ⟨r.2.2⟩))

/-- Lines 390-393, `insert(std::initializer_list<value_type> ilist)`:
`this->insert(ilist.begin(), ilist.end());`. -/
def insert_ilist (keq : K → K → Bool) (h : Heap K V) (m : unordered_node_map)
    (ilist : List (K × V)) : Heap K V × unordered_node_map :=
  m.insert_range keq h ilist

/-- Lines 431-435, `emplace(args...)` for any argument pack:
`return table_.emplace(init_type(std::forward<Args>(args)...));`. The
`init_type` is built from the arguments here (`init`), and the engine gets it
as its one argument, from which it builds the element by copy. -/
def emplace_args {A : Type} (keq : K → K → Bool) (h : Heap K V) (m : unordered_node_map)
    (init : A → K × V) (args : A) : (Nat × Bool) × Heap K V × unordered_node_map :=
  let r := m.table_.emplace_args keq h (fun (x : K × V) => x) (init args)
  (r.1, r.2.1, ⟨r.2.2⟩)

/-- Lines 437-441, `emplace_hint(const_iterator, args...)` for any argument
pack: `return table_.emplace(std::forward<Args>(args)...).first;`. The engine
gets the arguments as they are and builds the element from them. -/
def emplace_hint_args {A : Type} (keq : K → K → Bool) (h : Heap K V) (m : unordered_node_map)
    (_hint : Nat) (init : A → K × V) (args : A) : Nat × Heap K V × unordered_node_map :=
  let r := m.table_.emplace_args keq h init args
  (r.1.1, r.2.1, ⟨r.2.2⟩)

end unordered_node_map

/-! ## Well-formed containers -/

section Invariants

variable {K V : Type}

/-- The configured key equality is an equivalence relation. -/
structure KeyEquiv (keq : K → K → Bool) : Prop where
  refl : ∀ a, keq a a = true
  symm : ∀ a b, keq a b = true → keq b a = true
  trans : ∀ a b c, keq a b = true → keq b c = true → keq a c = true

/-- The Nodes at `a` and `b` do not hold equal keys. -/
def keysDiffer (keq : K → K → Bool) (h : Heap K V) (a b : Addr) : Prop :=
  ∀ ka kb, h.keyOf a = some ka → h.keyOf b = some kb → keq ka kb = false

/-- The container invariant of the data model: every occupied slot points to
a constructed Node, no two occupied slots hold equal keys, and the element
counter is the number of occupied slots. -/
structure Table.WF (keq : K → K → Bool) (h : Heap K V) (t : Table) : Prop where
  live : ∀ a ∈ t.ptrs, ∃ n, h.get a = some n
  uniq : t.ptrs.Pairwise (keysDiffer keq h)
  size_eq : t.size_ = t.ptrs.length

/-- The key `k` is the key of an element of the container. -/
def Table.hasKey (keq : K → K → Bool) (h : Heap K V) (t : Table) (k : K) : Prop :=
  ∃ a ∈ t.ptrs, ∃ ka, h.keyOf a = some ka ∧ keq k ka = true

/-- The address of the Node holding key `k`: the slot `find(k)` refers to. -/
def Table.nodeAddr (keq : K → K → Bool) (h : Heap K V) (t : Table) (k : K) : Option Addr :=
  t.deref (t.find keq h k)

/-- The mapped value `find(key)->second`, if `find(key)` refers to an element. -/
def unordered_node_map.mapped (keq : K → K → Bool) (h : Heap K V) (m : unordered_node_map)
    (key : K) : Option V :=
  ((m.table_.nodeAddr keq h key).bind h.get).map Node.second

/-- The outcome `r` (iterator and flag, allocator memory, container) of a call
on `m` in memory `h` that inserted the new element `(k, v)`: the flag is
`true`, the size grew by one, `k` is mapped to `v`, the returned iterator and
`find(k)` refer to one newly allocated Node holding `(k, v)`, every key not
equal to `k` keeps its Node and mapped value, and the container invariant holds. -/
def unordered_node_map.Inserted (keq : K → K → Bool) (h : Heap K V) (m : unordered_node_map)
    (k : K) (v : V) (r : (Nat × Bool) × Heap K V × unordered_node_map) : Prop :=
  r.1.2 = true ∧
  r.2.2.size = m.size + 1 ∧
  r.2.2.mapped keq r.2.1 k = some v ∧
  (∃ p, r.2.2.node_ptr r.1.1 = some p ∧ r.2.2.table_.nodeAddr keq r.2.1 k = some p ∧
    h.get p = none ∧ r.2.1.get p = some (Node.mk k v)) ∧
  (∀ k2, keq k2 k = false →
    r.2.2.table_.nodeAddr keq r.2.1 k2 = m.table_.nodeAddr keq h k2 ∧
    r.2.2.mapped keq r.2.1 k2 = m.mapped keq h k2) ∧
  r.2.1.allocs = h.allocs + 1 ∧
  r.2.2.table_.WF keq r.2.1

/-- The key of the Node at `a` is the key of an element of the container. -/
def Table.hasKeyAt (keq : K → K → Bool) (h : Heap K V) (t : Table) (a : Addr) : Prop :=
  ∃ ka, h.keyOf a = some ka ∧ t.hasKey keq h ka

/-- Whether `erase_if` keeps the Node at `a`: `pred` does not hold for the
element there. -/
def keeps (pred : Node K V → Bool) (h : Heap K V) (a : Addr) : Bool :=
  match h.get a with
  | some n => !pred n
  | none => true

end Invariants

section HeapRelations

variable {K V : Type}

/-- Every Node of `h` is still there in `h2`, at its address and with its key. -/
def Heap.keysPreserved (h h2 : Heap K V) : Prop :=
  ∀ a k, h.keyOf a = some k → h2.keyOf a = some k

/-- Every Node of `h` is still there in `h2`, at its address and unchanged. -/
def Heap.nodesPreserved (h h2 : Heap K V) : Prop :=
  ∀ a n, h.get a = some n → h2.get a = some n

end HeapRelations

/-! ## Sequences of calls on two containers -/

section Calls

variable {K V A : Type}

/-- A call of a member function that inserts or relocates; `swap` is the
call `x.swap(y)` with `y` the other container. -/
inductive Op (K V A : Type) where
  | insert (value : K × V)
  | insert_hint (hint : Nat) (value : K × V)
  | insert_range (xs : List (K × V))
  | insert_or_assign (key : K) (obj : V)
  | emplace (k : K) (v : V)
  | emplace_hint (hint : Nat) (k : K) (v : V)
  | try_emplace (key : K) (args : A)
  | index (key : K)
  | rehash (n : Nat)
  | reserve (n : Nat)
  | swap

/-- The effect of a call other than `swap` on the allocator memory and the
container it is made on. -/
def Op.apply [Inhabited V] (keq : K → K → Bool) (mk : A → V) (h : Heap K V)
    (m : unordered_node_map) : Op K V A → Heap K V × unordered_node_map
  | Op.insert value => (m.insert keq h value).2
  | Op.insert_hint hint value => (m.insert_hint keq h hint value).2
  | Op.insert_range xs => m.insert_range keq h xs
  | Op.insert_or_assign key obj => (m.insert_or_assign keq h key obj).2
  | Op.emplace k v => (m.emplace keq h k v).2
  | Op.emplace_hint hint k v => (m.emplace_hint keq h hint k v).2
  | Op.try_emplace key args => (m.try_emplace keq h key mk args).2
  | Op.index key => (m.index keq h key).2
  | Op.rehash n => (h, m.rehash n)
  | Op.reserve n => (h, m.reserve n)
  | Op.swap => (h, m)

/-- Two containers `a` and `b` using one allocator memory. -/
structure World (K V : Type) where
  heap : Heap K V
  a : unordered_node_map
  b : unordered_node_map

/-- The container a call is made on: `b` when `side` is `true`, else `a`. -/
def World.sel (w : World K V) (side : Bool) : unordered_node_map :=
  if side then w.b else w.a

/-- Whether the call is `swap`. -/
def Op.isSwap : Op K V A → Bool
  | Op.swap => true
  | _ => false

/-- One call, made on the container `call.1` selects. -/
def World.step [Inhabited V] (keq : K → K → Bool) (mk : A → V) (w : World K V)
    (call : Bool × Op K V A) : World K V :=
  if call.2.isSwap then
    let r := (w.sel call.1).swap (w.sel (!call.1))
    if call.1 then { heap := w.heap, a := r.2, b := r.1 }
    else { heap := w.heap, a := r.1, b := r.2 }
  else
    let r := call.2.apply keq mk w.heap (w.sel call.1)
    if call.1 then { heap := r.1, a := w.a, b := r.2 }
    else { heap := r.1, a := r.2, b := w.b }

/-- A sequence of calls, in order. -/
def World.run [Inhabited V] (keq : K → K → Bool) (mk : A → V) (w : World K V)
    (calls : List (Bool × Op K V A)) : World K V :=
  calls.foldl (World.step keq mk) w

/-- Whether the sequence of calls swaps the containers an odd number of times. -/
def swapped (calls : List (Bool × Op K V A)) : Bool :=
  calls.foldl (fun s c => xor s c.2.isSwap) false

/-- Both containers satisfy the container invariant. -/
def World.WF (keq : K → K → Bool) (w : World K V) : Prop :=
  w.a.table_.WF keq w.heap ∧ w.b.table_.WF keq w.heap

/-- Two default-constructed containers and no allocation. -/
def World.init : World K V := ⟨Heap.empty, unordered_node_map.new, unordered_node_map.new⟩

end Calls

/-! ## Concrete containers -/

namespace Example

/-- The key equality `std::equal_to<int>`. -/
def keqNat : Nat → Nat → Bool := fun a b => a == b

/-- The containers `A = {1:"a", 2:"b"}` and `B = {2:"x", 3:"c"}`. -/
def world : World Nat String :=
  World.run keqNat (fun (s : String) => s) World.init
    [(false, Op.insert (1, "a")), (false, Op.insert (2, "b")),
     (true, Op.insert (2, "x")), (true, Op.insert (3, "c"))]

/-- A sequence of calls on `A` and `B`. -/
def calls : List (Bool × Op Nat String String) :=
  [(false, Op.emplace 7 "q"), (false, Op.rehash 16), (false, Op.swap),
   (true, Op.insert_or_assign 1 "z"), (true, Op.index 9), (false, Op.try_emplace 4 "w"),
   (true, Op.reserve 3), (false, Op.insert_range [(1, "u"), (8, "v")])]

end Example

section HeapLemmas

variable {K V : Type}

theorem lt_freshAddr (cells : List (Addr × Option (Node K V))) :
    ∀ c ∈ cells, c.1 < freshAddr cells := by
  induction cells with
  | nil => intro c hc; cases hc
  | cons d ds ih =>
    intro c hc
    simp only [freshAddr]
    rcases List.mem_cons.mp hc with rfl | hc
    · exact lt_max_of_lt_left (Nat.lt_succ_self _)
    · exact lt_max_of_lt_right (ih c hc)

theorem cellAt_eq_none_of_not_mem (cells : List (Addr × Option (Node K V))) (p : Addr)
    (hp : ∀ c ∈ cells, c.1 ≠ p) : cellAt cells p = none := by
  induction cells with
  | nil => rfl
  | cons d ds ih =>
    have hd : d.1 ≠ p := hp d (List.mem_cons_self _ _)
    simp only [cellAt, if_neg hd]
    exact ih (fun c hc => hp c (List.mem_cons_of_mem _ hc))

theorem cellAt_freshAddr (cells : List (Addr × Option (Node K V))) :
    cellAt cells (freshAddr cells) = none :=
  cellAt_eq_none_of_not_mem cells _ (fun c hc => Nat.ne_of_lt (lt_freshAddr cells c hc))

theorem cellAt_map_update (cells : List (Addr × Option (Node K V))) (p a : Addr)
    (g : Option (Node K V) → Option (Node K V)) (hg : g none = none) :
    cellAt (cells.map (fun c => if c.1 = p then (c.1, g c.2) else c)) a
      = if a = p then g (cellAt cells a) else cellAt cells a := by
  induction cells with
  | nil => simp [cellAt, hg]
  | cons d ds ih =>
    simp only [List.map_cons, cellAt]
    by_cases hd : d.1 = p
    · by_cases ha : a = p
      · subst ha; simp [hd]
      · have hpa : ¬ p = a := fun h => ha h.symm
        simp [hd, hpa, ha, ih]
    · by_cases hda : d.1 = a
      · have : a ≠ p := fun h => hd (hda.trans h)
        simp [hd, hda, this]
      · simp [hd, hda, ih]

theorem Heap.get_assign_second (h : Heap K V) (p a : Addr) (v : V) :
    (h.assign_second p v).get a
      = if a = p then (h.get a).map (fun n => Node.mk n.first v) else h.get a := by
  unfold Heap.assign_second Heap.get
  exact cellAt_map_update h.cells p a (Option.map fun n => Node.mk n.first v) rfl

theorem Heap.keyOf_assign_second (h : Heap K V) (p a : Addr) (v : V) :
    (h.assign_second p v).keyOf a = h.keyOf a := by
  unfold Heap.keyOf
  rw [Heap.get_assign_second]
  split
  · cases h.get a <;> rfl
  · rfl

theorem get_construct_ok (h : Heap K V) (n : Node K V) (a : Addr) :
    (construct h (Except.ok n : Except Unit (Node K V))).1.get a
      = if a = freshAddr h.cells then some n else h.get a := by
  simp only [construct, Heap.allocate, Heap.construct_at, Heap.get, List.map_cons, cellAt,
    if_true]
  by_cases ha : a = freshAddr h.cells
  · subst ha; simp
  · have h1 : ¬ freshAddr h.cells = a := fun e => ha e.symm
    simp only [if_neg h1, if_neg ha]
    have := cellAt_map_update h.cells (freshAddr h.cells) a (fun _ => some n)
    -- the update touches no cell other than the fresh one
    have hmap : h.cells.map (fun c => if c.1 = freshAddr h.cells then (c.1, some n) else c)
        = h.cells := by
      conv_rhs => rw [← List.map_id h.cells]
      apply List.map_congr_left
      intro c hc
      have := Nat.ne_of_lt (lt_freshAddr h.cells c hc)
      simp [this]
    rw [hmap]

theorem slot_construct_ok (h : Heap K V) (n : Node K V) :
    (construct h (Except.ok n : Except Unit (Node K V))).2.1 = some (freshAddr h.cells) := rfl

theorem Heap.get_freshAddr (h : Heap K V) : h.get (freshAddr h.cells) = none :=
  cellAt_freshAddr h.cells

end HeapLemmas
section TableLemmas

variable {K V : Type}

theorem findIdx_congr_mem {α : Type} (p q : α → Bool) (l : List α)
    (hpq : ∀ x ∈ l, p x = q x) : l.findIdx p = l.findIdx q := by
  induction l with
  | nil => rfl
  | cons x xs ih =>
    rw [List.findIdx_cons, List.findIdx_cons, hpq x (List.mem_cons_self _ _),
      ih (fun y hy => hpq y (List.mem_cons_of_mem _ hy))]

theorem mem_ptrs_iff (t : Table) (a : Addr) : a ∈ t.ptrs ↔ some a ∈ t.slots := by
  unfold Table.ptrs
  simp [List.mem_filterMap]

theorem slotMatches_some (keq : K → K → Bool) (h : Heap K V) (k : K) (a : Addr) :
    Table.slotMatches keq h k (some a) = true ↔ ∃ ka, h.keyOf a = some ka ∧ keq k ka = true := by
  unfold Table.slotMatches map_types.extract_ptr Heap.keyOf map_types.extract
  cases hg : h.get a <;> simp [hg]

theorem find_eq_end_iff (keq : K → K → Bool) (h : Heap K V) (t : Table) (k : K) :
    t.find keq h k = t.end_ ↔ ¬ t.hasKey keq h k := by
  unfold Table.find Table.end_ Table.hasKey
  rw [List.findIdx_eq_length]
  constructor
  · rintro hall ⟨a, ha, ka, hka, hkeq⟩
    have := hall (some a) ((mem_ptrs_iff t a).mp ha)
    rw [(slotMatches_some keq h k a).mpr ⟨ka, hka, hkeq⟩] at this
    cases this
  · intro hno s hs
    cases s with
    | none => rfl
    | some a =>
      by_contra hc
      have hm : Table.slotMatches keq h k (some a) = true := by
        cases hx : Table.slotMatches keq h k (some a)
        · exact absurd hx hc
        · rfl
      obtain ⟨ka, hka, hkeq⟩ := (slotMatches_some keq h k a).mp hm
      exact hno ⟨a, (mem_ptrs_iff t a).mpr hs, ka, hka, hkeq⟩

theorem find_le_end (keq : K → K → Bool) (h : Heap K V) (t : Table) (k : K) :
    t.find keq h k ≤ t.end_ := List.findIdx_le_length _

theorem deref_find (keq : K → K → Bool) (h : Heap K V) (t : Table) (k : K)
    (hf : t.find keq h k ≠ t.end_) :
    ∃ a, t.deref (t.find keq h k) = some a ∧ a ∈ t.ptrs ∧
      ∃ ka, h.keyOf a = some ka ∧ keq k ka = true := by
  have hlt : t.slots.findIdx (Table.slotMatches keq h k) < t.slots.length :=
    lt_of_le_of_ne (List.findIdx_le_length _) hf
  have hm := List.findIdx_getElem (w := hlt)
  have hget : t.slots[t.slots.findIdx (Table.slotMatches keq h k)]?
      = some (t.slots[t.slots.findIdx (Table.slotMatches keq h k)]) :=
    List.getElem?_eq_getElem hlt
  cases hs : t.slots[t.slots.findIdx (Table.slotMatches keq h k)] with
  | none => rw [hs] at hm; cases hm
  | some a =>
    rw [hs] at hm hget
    refine ⟨a, ?_, ?_, (slotMatches_some keq h k a).mp hm⟩
    · unfold Table.deref Table.find
      rw [List.get?_eq_getElem?, hget]; rfl
    · exact (mem_ptrs_iff t a).mpr (List.getElem?_mem hget)

theorem keysDiffer_symm (keq : K → K → Bool) (hk : KeyEquiv keq) (h : Heap K V) {a b : Addr}
    (hab : keysDiffer keq h a b) : keysDiffer keq h b a := by
  intro kb ka hb ha
  have := hab ka kb ha hb
  cases hx : keq kb ka
  · rfl
  · rw [hk.symm kb ka hx] at this; cases this

theorem nodeAddr_eq_some_iff (keq : K → K → Bool) (hk : KeyEquiv keq) (h : Heap K V) (t : Table)
    (hw : t.WF keq h) (k : K) (a : Addr) :
    t.nodeAddr keq h k = some a ↔ a ∈ t.ptrs ∧ ∃ ka, h.keyOf a = some ka ∧ keq k ka = true := by
  unfold Table.nodeAddr
  constructor
  · intro hd
    have hne : t.find keq h k ≠ t.end_ := by
      intro he
      rw [he] at hd
      unfold Table.deref Table.end_ at hd
      rw [List.get?_eq_none.mpr (le_refl _)] at hd
      cases hd
    obtain ⟨b, hb, hmem, hkey⟩ := deref_find keq h t k hne
    rw [hb] at hd
    cases hd
    exact ⟨hmem, hkey⟩
  · rintro ⟨hmem, ka, hka, hkeq⟩
    have hne : t.find keq h k ≠ t.end_ := by
      rw [Ne, find_eq_end_iff]
      exact fun hno => hno ⟨a, hmem, ka, hka, hkeq⟩
    obtain ⟨b, hb, hbmem, kb, hkb, hkeqb⟩ := deref_find keq h t k hne
    rw [hb]
    by_cases hab : b = a
    · rw [hab]
    · have hsym : Symmetric (keysDiffer keq h) := fun _ _ hxy => keysDiffer_symm keq hk h hxy
      have := hw.uniq.forall hsym hbmem hmem hab kb ka hkb hka
      rw [hk.trans kb k ka (hk.symm k kb hkeqb) hkeq] at this
      cases this

end TableLemmas
section EngineLemmas

variable {K V : Type}

theorem find_congr (keq : K → K → Bool) (h h' : Heap K V) (t : Table)
    (hh : ∀ a ∈ t.ptrs, h'.keyOf a = h.keyOf a) (k : K) :
    t.find keq h' k = t.find keq h k := by
  unfold Table.find
  apply findIdx_congr_mem
  intro s hs
  cases s with
  | none => rfl
  | some a =>
    have e : map_types.extract_ptr h' a = map_types.extract_ptr h a :=
      hh a ((mem_ptrs_iff t a).mpr hs)
    simp only [Table.slotMatches, e]

theorem hasKey_congr (keq : K → K → Bool) (h h' : Heap K V) (t : Table)
    (hh : ∀ a ∈ t.ptrs, h'.keyOf a = h.keyOf a) (k : K) :
    t.hasKey keq h' k ↔ t.hasKey keq h k := by
  unfold Table.hasKey
  constructor
  · rintro ⟨a, ha, ka, hka, hkeq⟩
    exact ⟨a, ha, ka, (hh a ha) ▸ hka, hkeq⟩
  · rintro ⟨a, ha, ka, hka, hkeq⟩
    exact ⟨a, ha, ka, (hh a ha).symm ▸ hka, hkeq⟩

theorem WF_congr (keq : K → K → Bool) (h h' : Heap K V) (t : Table) (hw : t.WF keq h)
    (hh : ∀ a ∈ t.ptrs, h'.keyOf a = h.keyOf a) : t.WF keq h' := by
  refine ⟨?_, ?_, hw.size_eq⟩
  · intro a ha
    obtain ⟨n, hn⟩ := hw.live a ha
    have := hh a ha
    unfold Heap.keyOf at this
    rw [hn] at this
    cases hg : h'.get a with
    | none => rw [hg] at this; cases this
    | some m => exact ⟨m, rfl⟩
  · refine hw.uniq.imp_of_mem ?_
    intro a b ha hb hab ka kb hka hkb
    exact hab ka kb ((hh a ha) ▸ hka) ((hh b hb) ▸ hkb)

theorem relocate_eq (slots : List (Option Addr)) :
    Table.relocate slots = (slots.filterMap id).map some := by
  induction slots with
  | nil => rfl
  | cons s rest ih =>
    cases s with
    | none => simpa [Table.relocate] using ih
    | some a => simp [Table.relocate, construct_move, map_types.move, ih]

theorem filterMap_id_map_some (l : List Addr) : (l.map some).filterMap id = l := by
  induction l with
  | nil => rfl
  | cons a l ih => simp [ih]

theorem ptrs_rehash (t : Table) (n : Nat) : (t.rehash n).ptrs = t.ptrs := by
  unfold Table.rehash Table.ptrs
  simp only [List.filterMap_append, relocate_eq, filterMap_id_map_some]
  simp

theorem size_rehash (t : Table) (n : Nat) : (t.rehash n).size_ = t.size_ := rfl

theorem ptrs_grown (t : Table) : t.grown.ptrs = t.ptrs := by
  unfold Table.grown
  split
  · exact ptrs_rehash t _
  · rfl

theorem size_grown (t : Table) : t.grown.size_ = t.size_ := by
  unfold Table.grown
  split <;> rfl

theorem length_filterMap_id_le (l : List (Option Addr)) : (l.filterMap id).length ≤ l.length :=
  List.length_filterMap_le _ _

theorem firstEmpty_grown_lt (t : Table) : t.grown.firstEmpty < t.grown.slots.length := by
  unfold Table.grown
  split
  · unfold Table.firstEmpty
    apply List.findIdx_lt_length_of_exists
    refine ⟨none, ?_, rfl⟩
    unfold Table.rehash
    have hle := length_filterMap_id_le t.slots
    have hpos : 2 * t.capacity + 1 - (Table.relocate t.slots).length ≠ 0 := by
      simp only [relocate_eq, List.length_map, Table.capacity]
      omega
    simp [List.mem_replicate, hpos]
  · rename_i hne
    exact lt_of_le_of_ne (List.findIdx_le_length _) hne

theorem perm_set_firstEmpty (slots : List (Option Addr)) (a : Addr)
    (hlt : slots.findIdx Option.isNone < slots.length) :
    ((slots.set (slots.findIdx Option.isNone) (some a)).filterMap id).Perm
      (a :: slots.filterMap id) := by
  induction slots with
  | nil => simp at hlt
  | cons s rest ih =>
    cases s with
    | none => simp [List.findIdx_cons]
    | some b =>
      have hlt' : rest.findIdx Option.isNone < rest.length := by
        simpa [List.findIdx_cons] using hlt
      simp only [List.findIdx_cons, Option.isNone_some, cond_false, List.set_cons_succ,
        List.filterMap_cons_some (rfl : id (some b) = some b)]
      exact ((ih hlt').cons b).trans (List.Perm.swap a b _)

theorem deref_set_self (slots : List (Option Addr)) (i : Nat) (x : Option Addr)
    (hi : i < slots.length) : Table.deref ⟨slots.set i x, 0⟩ i = x := by
  unfold Table.deref
  simp [List.getElem?_set, hi]

end EngineLemmas
section EmplaceLemmas

variable {K V : Type}

theorem keysPreserved_refl (h : Heap K V) : h.keysPreserved h := fun _ _ hk => hk

theorem keysPreserved_trans {h1 h2 h3 : Heap K V} (h12 : h1.keysPreserved h2)
    (h23 : h2.keysPreserved h3) : h1.keysPreserved h3 :=
  fun a k hk => h23 a k (h12 a k hk)

theorem keysPreserved_of_nodesPreserved {h h2 : Heap K V} (hp : h.nodesPreserved h2) :
    h.keysPreserved h2 := by
  intro a k hk
  unfold Heap.keyOf at hk ⊢
  cases hg : h.get a with
  | none => rw [hg] at hk; cases hk
  | some n => rw [hg] at hk; rw [hp a n hg]; exact hk

theorem keyOf_eq_of_live {h h2 : Heap K V} (hp : h.keysPreserved h2) {a : Addr} {n : Node K V}
    (hn : h.get a = some n) : h2.keyOf a = h.keyOf a := by
  have : h.keyOf a = some n.first := by unfold Heap.keyOf; rw [hn]; rfl
  rw [this]
  exact hp a _ this

theorem WF_of_keysPreserved (keq : K → K → Bool) {h h2 : Heap K V} (t : Table)
    (hw : t.WF keq h) (hp : h.keysPreserved h2) : t.WF keq h2 := by
  apply WF_congr keq h h2 t hw
  intro a ha
  obtain ⟨n, hn⟩ := hw.live a ha
  exact keyOf_eq_of_live hp hn

theorem keysPreserved_assign_second (h : Heap K V) (p : Addr) (v : V) :
    h.keysPreserved (h.assign_second p v) := by
  intro a k hk
  rw [Heap.keyOf_assign_second]
  exact hk

theorem nodesPreserved_construct_ok (h : Heap K V) (n : Node K V) :
    h.nodesPreserved (construct h (Except.ok n : Except Unit (Node K V))).1 := by
  intro a x hx
  rw [get_construct_ok]
  have hne : a ≠ freshAddr h.cells := by
    intro e
    rw [e, Heap.get_freshAddr] at hx
    cases hx
  rw [if_neg hne]
  exact hx

theorem unchecked_emplace_get (h : Heap K V) (t : Table) (n : Node K V) (a : Addr) :
    (Table.unchecked_emplace h t n).2.1.get a
      = if a = freshAddr h.cells then some n else h.get a :=
  get_construct_ok h n a

theorem unchecked_emplace_perm (h : Heap K V) (t : Table) (n : Node K V) :
    (Table.unchecked_emplace h t n).2.2.ptrs.Perm (freshAddr h.cells :: t.ptrs) := by
  have := perm_set_firstEmpty t.grown.slots (freshAddr h.cells) (firstEmpty_grown_lt t)
  have hg : t.grown.slots.filterMap id = t.ptrs := ptrs_grown t
  rw [hg] at this
  exact this

theorem unchecked_emplace_deref (h : Heap K V) (t : Table) (n : Node K V) :
    (Table.unchecked_emplace h t n).2.2.deref (Table.unchecked_emplace h t n).1
      = some (freshAddr h.cells) :=
  deref_set_self t.grown.slots _ _ (firstEmpty_grown_lt t)

theorem unchecked_emplace_size (h : Heap K V) (t : Table) (n : Node K V) :
    (Table.unchecked_emplace h t n).2.2.size_ = t.size_ + 1 := by
  show t.grown.size_ + 1 = t.size_ + 1
  rw [size_grown]

theorem emplace_impl_present (keq : K → K → Bool) (h : Heap K V) (t : Table) (key : K)
    (n : Node K V) (hp : t.hasKey keq h key) :
    Table.emplace_impl keq h t key n = ((t.find keq h key, false), h, t) := by
  have : t.find keq h key ≠ t.end_ := by
    rw [Ne, find_eq_end_iff]; exact fun hno => hno hp
  unfold Table.emplace_impl
  simp only [if_pos this]

theorem emplace_impl_absent (keq : K → K → Bool) (h : Heap K V) (t : Table) (key : K)
    (n : Node K V) (hp : ¬ t.hasKey keq h key) :
    Table.emplace_impl keq h t key n
      = (((Table.unchecked_emplace h t n).1, true), (Table.unchecked_emplace h t n).2.1,
          (Table.unchecked_emplace h t n).2.2) := by
  have : ¬ t.find keq h key ≠ t.end_ := by
    rw [Ne, not_not, find_eq_end_iff]; exact hp
  unfold Table.emplace_impl
  simp only [if_neg this]

theorem emplace_impl_nodesPreserved (keq : K → K → Bool) (h : Heap K V) (t : Table) (key : K)
    (n : Node K V) : h.nodesPreserved (Table.emplace_impl keq h t key n).2.1 := by
  by_cases hp : t.hasKey keq h key
  · rw [emplace_impl_present keq h t key n hp]
    exact fun _ _ hx => hx
  · rw [emplace_impl_absent keq h t key n hp]
    exact nodesPreserved_construct_ok h n

theorem emplace_impl_subset (keq : K → K → Bool) (h : Heap K V) (t : Table) (key : K)
    (n : Node K V) : ∀ a ∈ t.ptrs, a ∈ (Table.emplace_impl keq h t key n).2.2.ptrs := by
  intro a ha
  by_cases hp : t.hasKey keq h key
  · rw [emplace_impl_present keq h t key n hp]; exact ha
  · rw [emplace_impl_absent keq h t key n hp]
    exact (unchecked_emplace_perm h t n).mem_iff.mpr (List.mem_cons_of_mem _ ha)

theorem unchecked_emplace_WF (keq : K → K → Bool) (hk : KeyEquiv keq) (h : Heap K V) (t : Table)
    (n : Node K V) (hw : t.WF keq h) (hp : ¬ t.hasKey keq h n.first) :
    (Table.unchecked_emplace h t n).2.2.WF keq (Table.unchecked_emplace h t n).2.1 := by
  have hperm := unchecked_emplace_perm h t n
  have hpres : h.keysPreserved (Table.unchecked_emplace h t n).2.1 :=
    keysPreserved_of_nodesPreserved (nodesPreserved_construct_ok h n)
  have hw2 := WF_of_keysPreserved keq t hw hpres
  have hfresh : (Table.unchecked_emplace h t n).2.1.keyOf (freshAddr h.cells) = some n.first := by
    unfold Heap.keyOf
    rw [unchecked_emplace_get, if_pos rfl]; rfl
  refine ⟨?_, ?_, ?_⟩
  · intro a ha
    rcases List.mem_cons.mp (hperm.mem_iff.mp ha) with rfl | ha
    · exact ⟨n, by rw [unchecked_emplace_get, if_pos rfl]⟩
    · exact hw2.live a ha
  · have hsym : ∀ {x y : Addr}, keysDiffer keq (Table.unchecked_emplace h t n).2.1 x y →
        keysDiffer keq (Table.unchecked_emplace h t n).2.1 y x :=
      fun hxy => keysDiffer_symm keq hk _ hxy
    rw [hperm.pairwise_iff hsym, List.pairwise_cons]
    refine ⟨?_, hw2.uniq⟩
    intro b hb ka kb hka hkb
    rw [hfresh] at hka
    cases hka
    obtain ⟨m, hm⟩ := hw.live b hb
    rw [keyOf_eq_of_live hpres hm] at hkb
    cases hx : keq n.first kb
    · rfl
    · exact absurd ⟨b, hb, kb, hkb, hx⟩ hp
  · rw [unchecked_emplace_size, hperm.length_eq, List.length_cons, hw.size_eq]

theorem emplace_impl_WF (keq : K → K → Bool) (hk : KeyEquiv keq) (h : Heap K V) (t : Table)
    (key : K) (n : Node K V) (hkey : n.first = key) (hw : t.WF keq h) :
    (Table.emplace_impl keq h t key n).2.2.WF keq (Table.emplace_impl keq h t key n).2.1 := by
  by_cases hp : t.hasKey keq h key
  · rw [emplace_impl_present keq h t key n hp]; exact hw
  · rw [emplace_impl_absent keq h t key n hp]
    exact unchecked_emplace_WF keq hk h t n hw (hkey ▸ hp)

end EmplaceLemmas
section CallLemmas

variable {K V A : Type}

theorem insert_range_spec (keq : K → K → Bool) (hk : KeyEquiv keq) (xs : List (K × V)) :
    ∀ (h : Heap K V) (m : unordered_node_map),
      h.nodesPreserved (m.insert_range keq h xs).1 ∧
      (∀ a ∈ m.table_.ptrs, a ∈ (m.insert_range keq h xs).2.table_.ptrs) ∧
      (m.table_.WF keq h → (m.insert_range keq h xs).2.table_.WF keq (m.insert_range keq h xs).1) := by
  induction xs with
  | nil => intro h m; exact ⟨fun _ _ hx => hx, fun _ ha => ha, fun hw => hw⟩
  | cons x rest ih =>
    intro h m
    obtain ⟨i1, i2, i3⟩ := ih (m.table_.emplace keq h x).2.1 ⟨(m.table_.emplace keq h x).2.2⟩
    refine ⟨?_, ?_, ?_⟩
    · intro a n hn
      exact i1 a n (emplace_impl_nodesPreserved keq h m.table_ _ _ a n hn)
    · intro a ha
      exact i2 a (emplace_impl_subset keq h m.table_ _ _ a ha)
    · intro hw
      exact i3 (emplace_impl_WF keq hk h m.table_ _ _ rfl hw)

theorem insert_or_assign_eq (keq : K → K → Bool) (h : Heap K V) (m : unordered_node_map)
    (key : K) (obj : V) :
    (m.insert_or_assign keq h key obj).2.2.table_
        = (Table.emplace_impl keq h m.table_ key (Node.mk key obj)).2.2 ∧
      (Table.emplace_impl keq h m.table_ key (Node.mk key obj)).2.1.keysPreserved
        (m.insert_or_assign keq h key obj).2.1 := by
  unfold unordered_node_map.insert_or_assign Table.try_emplace
  simp only []
  split
  · exact ⟨rfl, keysPreserved_refl _⟩
  · split
    · exact ⟨rfl, keysPreserved_assign_second _ _ _⟩
    · exact ⟨rfl, keysPreserved_refl _⟩

theorem apply_spec [Inhabited V] (keq : K → K → Bool) (hk : KeyEquiv keq) (mk : A → V)
    (h : Heap K V) (m : unordered_node_map) (op : Op K V A) :
    h.keysPreserved (op.apply keq mk h m).1 ∧
    (∀ a ∈ m.table_.ptrs, a ∈ (op.apply keq mk h m).2.table_.ptrs) ∧
    (m.table_.WF keq h → (op.apply keq mk h m).2.table_.WF keq (op.apply keq mk h m).1) := by
  have E : ∀ (key : K) (n : Node K V), n.first = key →
      h.keysPreserved (Table.emplace_impl keq h m.table_ key n).2.1 ∧
      (∀ a ∈ m.table_.ptrs, a ∈ (Table.emplace_impl keq h m.table_ key n).2.2.ptrs) ∧
      (m.table_.WF keq h → (Table.emplace_impl keq h m.table_ key n).2.2.WF keq
        (Table.emplace_impl keq h m.table_ key n).2.1) :=
    fun key n hn =>
      ⟨keysPreserved_of_nodesPreserved (emplace_impl_nodesPreserved keq h m.table_ key n),
        emplace_impl_subset keq h m.table_ key n,
        emplace_impl_WF keq hk h m.table_ key n hn⟩
  cases op with
  | insert value => exact E _ _ rfl
  | insert_hint hint value => exact E _ _ rfl
  | insert_range xs =>
    obtain ⟨i1, i2, i3⟩ := insert_range_spec keq hk xs h m
    exact ⟨keysPreserved_of_nodesPreserved i1, i2, i3⟩
  | insert_or_assign key obj =>
    obtain ⟨e1, e2, e3⟩ := E key (Node.mk key obj) rfl
    obtain ⟨q1, q2⟩ := insert_or_assign_eq keq h m key obj
    refine ⟨keysPreserved_trans e1 q2, ?_, ?_⟩
    · intro a ha
      show a ∈ (m.insert_or_assign keq h key obj).2.2.table_.ptrs
      rw [q1]; exact e2 a ha
    · intro hw
      show (m.insert_or_assign keq h key obj).2.2.table_.WF keq
        (m.insert_or_assign keq h key obj).2.1
      rw [q1]
      exact WF_of_keysPreserved keq _ (e3 hw) q2
  | emplace k v => exact E _ _ rfl
  | emplace_hint hint k v => exact E _ _ rfl
  | try_emplace key args => exact E _ _ rfl
  | index key => exact E _ _ rfl
  | rehash n =>
    refine ⟨keysPreserved_refl h, ?_, ?_⟩
    · intro a ha
      show a ∈ (m.table_.rehash n).ptrs
      rw [ptrs_rehash]; exact ha
    · intro hw
      show (m.table_.rehash n).WF keq h
      exact ⟨by rw [ptrs_rehash]; exact hw.live, by rw [ptrs_rehash]; exact hw.uniq,
        by rw [ptrs_rehash]; exact hw.size_eq⟩
  | reserve n =>
    refine ⟨keysPreserved_refl h, ?_, ?_⟩
    · intro a ha
      show a ∈ (m.table_.rehash n).ptrs
      rw [ptrs_rehash]; exact ha
    · intro hw
      show (m.table_.rehash n).WF keq h
      exact ⟨by rw [ptrs_rehash]; exact hw.live, by rw [ptrs_rehash]; exact hw.uniq,
        by rw [ptrs_rehash]; exact hw.size_eq⟩
  | swap => exact ⟨keysPreserved_refl h, fun _ ha => ha, fun hw => hw⟩

theorem step_spec [Inhabited V] (keq : K → K → Bool) (hk : KeyEquiv keq) (mk : A → V)
    (w : World K V) (call : Bool × Op K V A) :
    w.heap.keysPreserved (w.step keq mk call).heap ∧
    (∀ side a, a ∈ (w.sel side).table_.ptrs →
      a ∈ ((w.step keq mk call).sel (xor side call.2.isSwap)).table_.ptrs) ∧
    (w.WF keq → (w.step keq mk call).WF keq) := by
  obtain ⟨tgt, op⟩ := call
  obtain ⟨s1, s2, s3⟩ := apply_spec keq hk mk w.heap (w.sel tgt) op
  unfold World.step
  cases hs : op.isSwap
  · simp only [hs, Bool.false_eq_true, if_false, Bool.xor_false]
    cases tgt
    · simp only [Bool.false_eq_true, if_false, World.sel] at s1 s2 s3 ⊢
      refine ⟨s1, ?_, ?_⟩
      · intro side a ha
        cases side
        · exact s2 a ha
        · exact ha
      · rintro ⟨wa, wb⟩
        exact ⟨s3 wa, WF_of_keysPreserved keq _ wb s1⟩
    · simp only [if_true, World.sel] at s1 s2 s3 ⊢
      refine ⟨s1, ?_, ?_⟩
      · intro side a ha
        cases side
        · exact ha
        · exact s2 a ha
      · rintro ⟨wa, wb⟩
        exact ⟨WF_of_keysPreserved keq _ wa s1, s3 wb⟩
  · simp only [hs, if_true, Bool.xor_true]
    cases tgt
    · simp only [Bool.false_eq_true, if_false, World.sel, unordered_node_map.swap, Table.swap,
        Bool.not_false, if_true]
      refine ⟨keysPreserved_refl _, ?_, ?_⟩
      · intro side a ha
        cases side <;> exact ha
      · rintro ⟨wa, wb⟩
        exact ⟨wb, wa⟩
    · simp only [if_true, World.sel, unordered_node_map.swap, Table.swap,
        Bool.not_true, Bool.false_eq_true, if_false]
      refine ⟨keysPreserved_refl _, ?_, ?_⟩
      · intro side a ha
        cases side <;> exact ha
      · rintro ⟨wa, wb⟩
        exact ⟨wb, wa⟩

theorem swapped_foldl (calls : List (Bool × Op K V A)) (s : Bool) :
    calls.foldl (fun s c => xor s c.2.isSwap) s = xor s (swapped calls) := by
  unfold swapped
  induction calls generalizing s with
  | nil => simp
  | cons c cs ih =>
    simp only [List.foldl_cons]
    rw [ih (xor s c.2.isSwap), ih (xor false c.2.isSwap)]
    simp [Bool.xor_assoc]

theorem run_spec [Inhabited V] (keq : K → K → Bool) (hk : KeyEquiv keq) (mk : A → V)
    (calls : List (Bool × Op K V A)) :
    ∀ (w : World K V), w.heap.keysPreserved (w.run keq mk calls).heap ∧
    (∀ side a, a ∈ (w.sel side).table_.ptrs →
      a ∈ ((w.run keq mk calls).sel (xor side (swapped calls))).table_.ptrs) ∧
    (w.WF keq → (w.run keq mk calls).WF keq) := by
  induction calls with
  | nil =>
    intro w
    refine ⟨keysPreserved_refl _, ?_, fun hw => hw⟩
    intro side a ha
    simpa [swapped, World.run] using ha
  | cons c cs ih =>
    intro w
    obtain ⟨s1, s2, s3⟩ := step_spec keq hk mk w c
    obtain ⟨r1, r2, r3⟩ := ih (w.step keq mk c)
    have hrun : w.run keq mk (c :: cs) = (w.step keq mk c).run keq mk cs := rfl
    have hsw : ∀ side, xor side (swapped (c :: cs)) = xor (xor side c.2.isSwap) (swapped cs) := by
      intro side
      have := swapped_foldl cs (xor false c.2.isSwap)
      simp only [swapped, List.foldl_cons] at this ⊢
      rw [this]
      simp [Bool.xor_assoc]
    rw [hrun]
    refine ⟨keysPreserved_trans s1 r1, ?_, fun hw => r3 (s3 hw)⟩
    intro side a ha
    rw [hsw]
    exact r2 _ a (s2 side a ha)

end CallLemmas
section EmplaceSpec

variable {K V : Type}

theorem keyOf_of_get {h : Heap K V} {a : Addr} {n : Node K V} (hn : h.get a = some n) :
    h.keyOf a = some n.first := by
  unfold Heap.keyOf; rw [hn]; rfl

theorem hasKey_iff_nodeAddr (keq : K → K → Bool) (hk : KeyEquiv keq) (h : Heap K V) (t : Table)
    (hw : t.WF keq h) (k : K) : t.hasKey keq h k ↔ ∃ p, t.nodeAddr keq h k = some p := by
  constructor
  · rintro ⟨a, ha, hkey⟩
    exact ⟨a, (nodeAddr_eq_some_iff keq hk h t hw k a).mpr ⟨ha, hkey⟩⟩
  · rintro ⟨p, hp⟩
    obtain ⟨hm, hkey⟩ := (nodeAddr_eq_some_iff keq hk h t hw k p).mp hp
    exact ⟨p, hm, hkey⟩

theorem nodeAddr_eq_none_iff (keq : K → K → Bool) (hk : KeyEquiv keq) (h : Heap K V) (t : Table)
    (hw : t.WF keq h) (k : K) : t.nodeAddr keq h k = none ↔ ¬ t.hasKey keq h k := by
  rw [hasKey_iff_nodeAddr keq hk h t hw k]
  cases t.nodeAddr keq h k <;> simp

theorem unchecked_emplace_nodeAddr_other (keq : K → K → Bool) (hk : KeyEquiv keq) (h : Heap K V)
    (t : Table) (n : Node K V) (hw : t.WF keq h) (hp : ¬ t.hasKey keq h n.first) (k2 : K)
    (hne : keq k2 n.first = false) :
    (Table.unchecked_emplace h t n).2.2.nodeAddr keq (Table.unchecked_emplace h t n).2.1 k2
      = t.nodeAddr keq h k2 := by
  have hw2 := unchecked_emplace_WF keq hk h t n hw hp
  have hpres : h.keysPreserved (Table.unchecked_emplace h t n).2.1 :=
    keysPreserved_of_nodesPreserved (nodesPreserved_construct_ok h n)
  have hperm := unchecked_emplace_perm h t n
  apply Option.ext
  intro q
  rw [Option.mem_def, Option.mem_def, nodeAddr_eq_some_iff keq hk _ _ hw2,
    nodeAddr_eq_some_iff keq hk _ _ hw]
  constructor
  · rintro ⟨hq, kq, hkq, hkeq⟩
    rcases List.mem_cons.mp (hperm.mem_iff.mp hq) with rfl | hq
    · have : (Table.unchecked_emplace h t n).2.1.keyOf (freshAddr h.cells) = some n.first :=
        keyOf_of_get (by rw [unchecked_emplace_get, if_pos rfl])
      rw [this] at hkq
      cases hkq
      rw [hne] at hkeq
      cases hkeq
    · obtain ⟨m, hm⟩ := hw.live q hq
      rw [keyOf_eq_of_live hpres hm] at hkq
      exact ⟨hq, kq, hkq, hkeq⟩
  · rintro ⟨hq, kq, hkq, hkeq⟩
    exact ⟨hperm.mem_iff.mpr (List.mem_cons_of_mem _ hq), kq, hpres q kq hkq, hkeq⟩

theorem unchecked_emplace_nodeAddr_self (keq : K → K → Bool) (hk : KeyEquiv keq) (h : Heap K V)
    (t : Table) (n : Node K V) (hw : t.WF keq h) (hp : ¬ t.hasKey keq h n.first) :
    (Table.unchecked_emplace h t n).2.2.nodeAddr keq (Table.unchecked_emplace h t n).2.1 n.first
      = some (freshAddr h.cells) := by
  have hw2 := unchecked_emplace_WF keq hk h t n hw hp
  rw [nodeAddr_eq_some_iff keq hk _ _ hw2]
  refine ⟨(unchecked_emplace_perm h t n).mem_iff.mpr (List.mem_cons_self _ _), n.first, ?_,
    hk.refl _⟩
  exact keyOf_of_get (by rw [unchecked_emplace_get, if_pos rfl])

theorem emplace_impl_nodeAddr_other (keq : K → K → Bool) (hk : KeyEquiv keq) (h : Heap K V)
    (t : Table) (key : K) (n : Node K V) (hkey : n.first = key) (hw : t.WF keq h) (k2 : K)
    (hne : keq k2 key = false) :
    (Table.emplace_impl keq h t key n).2.2.nodeAddr keq (Table.emplace_impl keq h t key n).2.1 k2
      = t.nodeAddr keq h k2 := by
  subst hkey
  by_cases hp : t.hasKey keq h n.first
  · rw [emplace_impl_present keq h t _ n hp]
  · rw [emplace_impl_absent keq h t _ n hp]
    exact unchecked_emplace_nodeAddr_other keq hk h t n hw hp k2 hne

theorem nodeAddr_congr_key (keq : K → K → Bool) (hk : KeyEquiv keq) (h : Heap K V) (t : Table)
    (hw : t.WF keq h) (k k2 : K) (hkk : keq k k2 = true) :
    t.nodeAddr keq h k = t.nodeAddr keq h k2 := by
  apply Option.ext
  intro q
  rw [Option.mem_def, Option.mem_def, nodeAddr_eq_some_iff keq hk _ _ hw,
    nodeAddr_eq_some_iff keq hk _ _ hw]
  constructor
  · rintro ⟨hq, kq, hkq, hkeq⟩
    exact ⟨hq, kq, hkq, hk.trans _ _ _ (hk.symm _ _ hkk) hkeq⟩
  · rintro ⟨hq, kq, hkq, hkeq⟩
    exact ⟨hq, kq, hkq, hk.trans _ _ _ hkk hkeq⟩

end EmplaceSpec

section Claims

variable {K V A : Type}

/-- C1 (address stability). In a world of two well-formed containers, if the
Node holding key `k` in the container `side` is at address `p`, then after any
sequence of insert, hinted insert, range insert, insert_or_assign, emplace,
emplace_hint, try_emplace, operator[], rehash, reserve and swap calls on either
container, the Node holding `k` is still at `p` (in the other container object
after an odd number of swaps). A rehash, reserve or swap call leaves the
allocator memory as it is (nothing allocated, constructed or freed), rehash and
reserve keep the Node pointers and their order, and relocating a slot copies
the pointer and nulls the source. -/
theorem C1_address_stability [Inhabited V] (keq : K → K → Bool) (hk : KeyEquiv keq)
    (mk : A → V) (w : World K V) (hw : w.WF keq) (calls : List (Bool × Op K V A))
    (side : Bool) (k : K) (p : Addr)
    (hp : (w.sel side).table_.nodeAddr keq w.heap k = some p) :
    ((w.run keq mk calls).sel (xor side (swapped calls))).table_.nodeAddr keq
        (w.run keq mk calls).heap k = some p ∧
    (∀ (w2 : World K V) (tgt : Bool) (n : Nat),
      (w2.step keq mk (tgt, Op.rehash n)).heap = w2.heap ∧
      (w2.step keq mk (tgt, Op.reserve n)).heap = w2.heap ∧
      (w2.step keq mk (tgt, Op.swap)).heap = w2.heap) ∧
    (∀ (m : unordered_node_map) (n : Nat),
      (m.rehash n).table_.ptrs = m.table_.ptrs ∧ (m.reserve n).table_.ptrs = m.table_.ptrs) ∧
    (∀ x : Option Addr, construct_move x = (x, none)) := by
  refine ⟨?_, ?_, ?_, fun _ => rfl⟩
  · obtain ⟨r1, r2, r3⟩ := run_spec keq hk mk calls w
    have hwside : (w.sel side).table_.WF keq w.heap := by
      cases side
      · exact hw.1
      · exact hw.2
    have hw2 := r3 hw
    have hwside2 : ((w.run keq mk calls).sel (xor side (swapped calls))).table_.WF keq
        (w.run keq mk calls).heap := by
      cases (xor side (swapped calls))
      · exact hw2.1
      · exact hw2.2
    obtain ⟨hm, kp, hkp, hkeq⟩ := (nodeAddr_eq_some_iff keq hk _ _ hwside k p).mp hp
    rw [nodeAddr_eq_some_iff keq hk _ _ hwside2]
    exact ⟨r2 side p hm, kp, r1 p kp hkp, hkeq⟩
  · intro w2 tgt n
    cases tgt <;> exact ⟨rfl, rfl, rfl⟩
  · intro m n
    exact ⟨ptrs_rehash _ _, ptrs_rehash _ _⟩

end Claims
section Witnesses

theorem keqNat_equiv : KeyEquiv Example.keqNat := by
  refine ⟨?_, ?_, ?_⟩ <;> simp [Example.keqNat]

theorem WF_init {K V : Type} (keq : K → K → Bool) : (World.init : World K V).WF keq :=
  ⟨⟨fun _ ha => (by cases ha), List.Pairwise.nil, rfl⟩,
    ⟨fun _ ha => (by cases ha), List.Pairwise.nil, rfl⟩⟩

theorem WF_example_world : Example.world.WF Example.keqNat :=
  (run_spec Example.keqNat keqNat_equiv _ _ World.init).2.2 (WF_init _)

/-- Witness of C1: key 1 of `A` stays at address 1 through the example calls. -/
theorem C1_address_stability_witness :
    Example.world.WF Example.keqNat ∧
    (Example.world.sel false).table_.nodeAddr Example.keqNat Example.world.heap 1 = some 1 ∧
    ((Example.world.run Example.keqNat (fun (s : String) => s) Example.calls).sel
        (xor false (swapped Example.calls))).table_.nodeAddr Example.keqNat
      (Example.world.run Example.keqNat (fun (s : String) => s) Example.calls).heap 1 = some 1 :=
  ⟨WF_example_world, by decide,
    (C1_address_stability Example.keqNat keqNat_equiv (fun (s : String) => s) Example.world
      WF_example_world Example.calls false 1 1 (by decide)).1⟩


end Witnesses
section FacadeLemmas

variable {K V A : Type}

theorem contains_eq_true_iff (keq : K → K → Bool) (h : Heap K V) (m : unordered_node_map)
    (k : K) : m.contains keq h k = true ↔ m.table_.hasKey keq h k := by
  unfold unordered_node_map.contains unordered_node_map.find unordered_node_map.end_
  rw [decide_eq_true_iff, Ne, find_eq_end_iff, not_not]

theorem contains_eq_false_iff (keq : K → K → Bool) (h : Heap K V) (m : unordered_node_map)
    (k : K) : m.contains keq h k = false ↔ ¬ m.table_.hasKey keq h k := by
  rw [← contains_eq_true_iff, Bool.not_eq_true]

theorem nodeAddr_congr_heap (keq : K → K → Bool) (h h2 : Heap K V) (t : Table)
    (hh : ∀ a ∈ t.ptrs, h2.keyOf a = h.keyOf a) (k : K) :
    t.nodeAddr keq h2 k = t.nodeAddr keq h k := by
  unfold Table.nodeAddr
  rw [find_congr keq h h2 t hh]

theorem insert_or_assign_present (keq : K → K → Bool) (h : Heap K V) (m : unordered_node_map)
    (k : K) (v : V) (p : Addr) (hp : m.table_.nodeAddr keq h k = some p) :
    m.insert_or_assign keq h k v = ((m.table_.find keq h k, false), h.assign_second p v, m) := by
  have hne : m.table_.find keq h k ≠ m.table_.end_ := by
    intro he
    unfold Table.nodeAddr Table.deref at hp
    rw [he] at hp
    unfold Table.end_ at hp
    rw [List.get?_eq_none.mpr (le_refl _)] at hp
    cases hp
  have hpres : m.table_.hasKey keq h k := by
    by_contra hno
    exact hne ((find_eq_end_iff keq h m.table_ k).mpr hno)
  unfold unordered_node_map.insert_or_assign Table.try_emplace
  rw [emplace_impl_present keq h m.table_ k _ hpres]
  unfold Table.nodeAddr at hp
  simp only [Bool.false_eq_true, if_false, hp]

theorem insert_or_assign_absent (keq : K → K → Bool) (h : Heap K V) (m : unordered_node_map)
    (k : K) (v : V) (hp : ¬ m.table_.hasKey keq h k) :
    m.insert_or_assign keq h k v
      = (((Table.unchecked_emplace h m.table_ (Node.mk k v)).1, true),
          (Table.unchecked_emplace h m.table_ (Node.mk k v)).2.1,
          ⟨(Table.unchecked_emplace h m.table_ (Node.mk k v)).2.2⟩) := by
  unfold unordered_node_map.insert_or_assign Table.try_emplace
  rw [emplace_impl_absent keq h m.table_ k _ hp]
  simp only [if_true]

theorem mapped_of_nodeAddr (keq : K → K → Bool) (h : Heap K V) (m : unordered_node_map) (k : K)
    (p : Addr) (n : Node K V) (hp : m.table_.nodeAddr keq h k = some p) (hn : h.get p = some n) :
    m.mapped keq h k = some n.second := by
  unfold unordered_node_map.mapped
  rw [hp]
  simp [hn]

theorem mapped_congr (keq : K → K → Bool) (h h2 : Heap K V) (m m2 : unordered_node_map) (k : K)
    (ha : m2.table_.nodeAddr keq h2 k = m.table_.nodeAddr keq h k)
    (hg : ∀ p, m.table_.nodeAddr keq h k = some p → h2.get p = h.get p) :
    m2.mapped keq h2 k = m.mapped keq h k := by
  unfold unordered_node_map.mapped
  rw [ha]
  cases hq : m.table_.nodeAddr keq h k with
  | none => rfl
  | some p => simp [hg p hq]

theorem keq_eq_false_symm (keq : K → K → Bool) (hk : KeyEquiv keq) {a b : K}
    (hab : keq a b = false) : keq b a = false := by
  cases hx : keq b a
  · rfl
  · rw [hk.symm b a hx] at hab; cases hab

end FacadeLemmas

section ClaimC2

variable {K V A : Type}

theorem insert_or_assign_core (keq : K → K → Bool) (hk : KeyEquiv keq) (h : Heap K V)
    (m : unordered_node_map) (hw : m.table_.WF keq h) (k : K) (v : V) :
    (m.insert_or_assign keq h k v).2.2.mapped keq (m.insert_or_assign keq h k v).2.1 k = some v ∧
    (∀ k2, keq k2 k = false →
      (m.insert_or_assign keq h k v).2.2.table_.nodeAddr keq (m.insert_or_assign keq h k v).2.1 k2
        = m.table_.nodeAddr keq h k2 ∧
      (m.insert_or_assign keq h k v).2.2.mapped keq (m.insert_or_assign keq h k v).2.1 k2
        = m.mapped keq h k2) ∧
    ((m.insert_or_assign keq h k v).1.2 = true ↔ m.contains keq h k = false) ∧
    (m.contains keq h k = false →
      (m.insert_or_assign keq h k v).2.2.size = m.size + 1) ∧
    (m.contains keq h k = true →
      (m.insert_or_assign keq h k v).2.2.size = m.size ∧
      (m.insert_or_assign keq h k v).2.2.table_.nodeAddr keq (m.insert_or_assign keq h k v).2.1 k
        = m.table_.nodeAddr keq h k ∧
      (m.insert_or_assign keq h k v).2.1.live = h.live ∧
      (m.insert_or_assign keq h k v).2.1.allocs = h.allocs) ∧
    (m.insert_or_assign keq h k v).2.2.table_.WF keq (m.insert_or_assign keq h k v).2.1 := by
  by_cases hp : m.table_.hasKey keq h k
  · obtain ⟨p, hpa⟩ := (hasKey_iff_nodeAddr keq hk h m.table_ hw k).mp hp
    obtain ⟨hpm, kp, hkp, hkeq⟩ := (nodeAddr_eq_some_iff keq hk h m.table_ hw k p).mp hpa
    rw [insert_or_assign_present keq h m k v p hpa]
    have hkeys : ∀ a ∈ m.table_.ptrs, (h.assign_second p v).keyOf a = h.keyOf a :=
      fun a _ => Heap.keyOf_assign_second h p a v
    have hc : m.contains keq h k = true := (contains_eq_true_iff keq h m k).mpr hp
    obtain ⟨np, hnp⟩ := hw.live p hpm
    refine ⟨?_, ?_, ?_, ?_, ?_, ?_⟩
    · have h1 : m.table_.nodeAddr keq (h.assign_second p v) k = some p := by
        rw [nodeAddr_congr_heap keq h _ m.table_ hkeys]; exact hpa
      have h2 : (h.assign_second p v).get p = some (Node.mk np.first v) := by
        rw [Heap.get_assign_second, if_pos rfl, hnp]; rfl
      exact mapped_of_nodeAddr keq _ m k p _ h1 h2
    · intro k2 hne
      have ha := nodeAddr_congr_heap keq h (h.assign_second p v) m.table_ hkeys k2
      refine ⟨ha, mapped_congr keq h _ m m k2 ha ?_⟩
      intro q hq
      obtain ⟨_, kq, hkq, hkeq2⟩ := (nodeAddr_eq_some_iff keq hk h m.table_ hw k2 q).mp hq
      have hqp : q ≠ p := by
        rintro rfl
        rw [hkp] at hkq
        cases hkq
        rw [hk.trans k2 kp k hkeq2 (hk.symm k kp hkeq)] at hne
        cases hne
      rw [Heap.get_assign_second, if_neg hqp]
    · simp [hc]
    · intro hcf; rw [hc] at hcf; cases hcf
    · intro _
      refine ⟨rfl, nodeAddr_congr_heap keq h _ m.table_ hkeys k, ?_, rfl⟩
      unfold Heap.live Heap.assign_second
      simp only [List.map_map]
      apply List.map_congr_left
      intro c _
      simp only [Function.comp]
      split <;> rfl
    · exact WF_congr keq h _ m.table_ hw hkeys
  · rw [insert_or_assign_absent keq h m k v hp]
    have hc : m.contains keq h k = false := (contains_eq_false_iff keq h m k).mpr hp
    have hself := unchecked_emplace_nodeAddr_self keq hk h m.table_ (Node.mk k v) hw hp
    refine ⟨?_, ?_, ?_, ?_, ?_, ?_⟩
    · exact mapped_of_nodeAddr keq _ _ k _ (Node.mk k v) hself
        (by rw [unchecked_emplace_get, if_pos rfl])
    · intro k2 hne
      have ha := unchecked_emplace_nodeAddr_other keq hk h m.table_ (Node.mk k v) hw hp k2 hne
      refine ⟨ha, mapped_congr keq h _ m _ k2 ha ?_⟩
      intro q hq
      obtain ⟨hqm, _⟩ := (nodeAddr_eq_some_iff keq hk h m.table_ hw k2 q).mp hq
      obtain ⟨nq, hnq⟩ := hw.live q hqm
      rw [hnq]
      exact nodesPreserved_construct_ok h (Node.mk k v) q nq hnq
    · simp [hc]
    · intro _
      exact unchecked_emplace_size h m.table_ (Node.mk k v)
    · intro hct; rw [hc] at hct; cases hct
    · exact unchecked_emplace_WF keq hk h m.table_ (Node.mk k v) hw hp

end ClaimC2
section ClaimC2b

variable {K V A : Type}

theorem emplace_impl_hasKey_self (keq : K → K → Bool) (hk : KeyEquiv keq) (h : Heap K V)
    (t : Table) (key : K) (n : Node K V) (hkey : n.first = key) (hw : t.WF keq h) :
    (Table.emplace_impl keq h t key n).2.2.hasKey keq (Table.emplace_impl keq h t key n).2.1 key := by
  subst hkey
  by_cases hp : t.hasKey keq h n.first
  · rw [emplace_impl_present keq h t _ n hp]; exact hp
  · rw [emplace_impl_absent keq h t _ n hp]
    exact (hasKey_iff_nodeAddr keq hk _ _ (unchecked_emplace_WF keq hk h t n hw hp) _).mpr
      ⟨_, unchecked_emplace_nodeAddr_self keq hk h t n hw hp⟩

theorem index_present [Inhabited V] (keq : K → K → Bool) (h : Heap K V) (m : unordered_node_map)
    (k : K) (hp : m.table_.hasKey keq h k) :
    m.index keq h k = (m.table_.nodeAddr keq h k, h, m) := by
  unfold unordered_node_map.index Table.try_emplace
  rw [emplace_impl_present keq h m.table_ k _ hp]
  rfl

/-- C2. On a well-formed container, `insert_or_assign(k, v)` leaves `k` mapped
to `v` and every key not equal to `k` at its Node and with its mapped value (or
absent) as before; the flag is `true` exactly when `k` was absent; the size
grows by one when `k` was absent; when `k` was present the size, the Node
address of `k`, the live allocations and the allocation count are unchanged;
the container stays well-formed. In particular after `insert((k, v1))` the
call `insert_or_assign(k, v2)` keeps the size and the Node address of `k`, and
`operator[](k)` then refers to that Node, which holds `v2`, changing nothing. -/
theorem C2_insert_or_assign [Inhabited V] (keq : K → K → Bool) (hk : KeyEquiv keq)
    (h : Heap K V) (m : unordered_node_map) (hw : m.table_.WF keq h) (k : K) (v : V) :
    (m.insert_or_assign keq h k v).2.2.mapped keq (m.insert_or_assign keq h k v).2.1 k = some v ∧
    (∀ k2, keq k2 k = false →
      (m.insert_or_assign keq h k v).2.2.table_.nodeAddr keq (m.insert_or_assign keq h k v).2.1 k2
        = m.table_.nodeAddr keq h k2 ∧
      (m.insert_or_assign keq h k v).2.2.mapped keq (m.insert_or_assign keq h k v).2.1 k2
        = m.mapped keq h k2) ∧
    ((m.insert_or_assign keq h k v).1.2 = true ↔ m.contains keq h k = false) ∧
    (m.contains keq h k = false →
      (m.insert_or_assign keq h k v).2.2.size = m.size + 1) ∧
    (m.contains keq h k = true →
      (m.insert_or_assign keq h k v).2.2.size = m.size ∧
      (m.insert_or_assign keq h k v).2.2.table_.nodeAddr keq (m.insert_or_assign keq h k v).2.1 k
        = m.table_.nodeAddr keq h k ∧
      (m.insert_or_assign keq h k v).2.1.live = h.live ∧
      (m.insert_or_assign keq h k v).2.1.allocs = h.allocs) ∧
    (m.insert_or_assign keq h k v).2.2.table_.WF keq (m.insert_or_assign keq h k v).2.1 ∧
    (∀ v1 : V,
      ((m.insert keq h (k, v1)).2.2.insert_or_assign keq (m.insert keq h (k, v1)).2.1 k v).2.2.size
        = (m.insert keq h (k, v1)).2.2.size ∧
      ∃ p, (m.insert keq h (k, v1)).2.2.table_.nodeAddr keq (m.insert keq h (k, v1)).2.1 k = some p ∧
        (((m.insert keq h (k, v1)).2.2.insert_or_assign keq (m.insert keq h (k, v1)).2.1 k v).2.2.index
            keq ((m.insert keq h (k, v1)).2.2.insert_or_assign keq (m.insert keq h (k, v1)).2.1 k v).2.1 k)
          = (some p,
              ((m.insert keq h (k, v1)).2.2.insert_or_assign keq (m.insert keq h (k, v1)).2.1 k v).2.1,
              ((m.insert keq h (k, v1)).2.2.insert_or_assign keq (m.insert keq h (k, v1)).2.1 k v).2.2) ∧
        ∃ k1, ((m.insert keq h (k, v1)).2.2.insert_or_assign keq
            (m.insert keq h (k, v1)).2.1 k v).2.1.get p = some (Node.mk k1 v)) := by
  obtain ⟨c1, c2, c3, c4, c5, c6⟩ := insert_or_assign_core keq hk h m hw k v
  refine ⟨c1, c2, c3, c4, c5, c6, ?_⟩
  intro v1
  have hw1 : (m.insert keq h (k, v1)).2.2.table_.WF keq (m.insert keq h (k, v1)).2.1 :=
    emplace_impl_WF keq hk h m.table_ k (Node.mk k v1) rfl hw
  have hp1 : (m.insert keq h (k, v1)).2.2.table_.hasKey keq (m.insert keq h (k, v1)).2.1 k :=
    emplace_impl_hasKey_self keq hk h m.table_ k (Node.mk k v1) rfl hw
  have hc1 := (contains_eq_true_iff keq _ _ k).mpr hp1
  obtain ⟨d1, _, _, _, d5, d6⟩ :=
    insert_or_assign_core keq hk (m.insert keq h (k, v1)).2.1 (m.insert keq h (k, v1)).2.2 hw1 k v
  obtain ⟨e1, e2, _, _⟩ := d5 hc1
  obtain ⟨p, hpa⟩ := (hasKey_iff_nodeAddr keq hk _ _ hw1 k).mp hp1
  refine ⟨e1, p, hpa, ?_, ?_⟩
  · have hp2 := (hasKey_iff_nodeAddr keq hk _ _ d6 k).mpr ⟨p, e2.trans hpa⟩
    rw [index_present keq _ _ k hp2, e2, hpa]
  · unfold unordered_node_map.mapped at d1
    rw [e2, hpa] at d1
    simp only [Option.some_bind] at d1
    cases hg : ((m.insert keq h (k, v1)).2.2.insert_or_assign keq
        (m.insert keq h (k, v1)).2.1 k v).2.1.get p with
    | none => rw [hg] at d1; cases d1
    | some n =>
      rw [hg] at d1
      simp only [Option.map_some', Option.some.injEq] at d1
      exact ⟨n.first, by rw [← d1]⟩

/-- Witness of C2: `insert_or_assign(2, "z")` on `A = {1:"a", 2:"b"}`. -/
theorem C2_insert_or_assign_witness :
    Example.world.a.table_.WF Example.keqNat Example.world.heap ∧
    (Example.world.a.insert_or_assign Example.keqNat Example.world.heap 2 "z").2.2.mapped
      Example.keqNat
      (Example.world.a.insert_or_assign Example.keqNat Example.world.heap 2 "z").2.1 2
        = some "z" :=
  ⟨WF_example_world.1,
    (C2_insert_or_assign Example.keqNat keqNat_equiv Example.world.heap Example.world.a
      WF_example_world.1 2 "z").1⟩

end ClaimC2b
section ClaimsC3C6

variable {K V A : Type}

theorem emplace_impl_inserted (keq : K → K → Bool) (hk : KeyEquiv keq) (h : Heap K V)
    (m : unordered_node_map) (hw : m.table_.WF keq h) (k : K) (v : V)
    (hp : ¬ m.table_.hasKey keq h k) :
    unordered_node_map.Inserted keq h m k v
      ((Table.emplace_impl keq h m.table_ k (Node.mk k v)).1,
        (Table.emplace_impl keq h m.table_ k (Node.mk k v)).2.1,
        ⟨(Table.emplace_impl keq h m.table_ k (Node.mk k v)).2.2⟩) := by
  rw [emplace_impl_absent keq h m.table_ k _ hp]
  have hself := unchecked_emplace_nodeAddr_self keq hk h m.table_ (Node.mk k v) hw hp
  have hget : (Table.unchecked_emplace h m.table_ (Node.mk k v)).2.1.get (freshAddr h.cells)
      = some (Node.mk k v) := by rw [unchecked_emplace_get, if_pos rfl]
  refine ⟨rfl, unchecked_emplace_size h m.table_ _, ?_, ?_, ?_, rfl, ?_⟩
  · exact mapped_of_nodeAddr keq _ _ k _ (Node.mk k v) hself hget
  · exact ⟨freshAddr h.cells, unchecked_emplace_deref h m.table_ _, hself, Heap.get_freshAddr h,
      hget⟩
  · intro k2 hne
    have ha := unchecked_emplace_nodeAddr_other keq hk h m.table_ (Node.mk k v) hw hp k2 hne
    refine ⟨ha, mapped_congr keq h _ m _ k2 ha ?_⟩
    intro q hq
    obtain ⟨hqm, _⟩ := (nodeAddr_eq_some_iff keq hk h m.table_ hw k2 q).mp hq
    obtain ⟨nq, hnq⟩ := hw.live q hqm
    rw [hnq]
    exact nodesPreserved_construct_ok h (Node.mk k v) q nq hnq
  · exact unchecked_emplace_WF keq hk h m.table_ (Node.mk k v) hw hp

/-- C3. `at(k)` gives no result, for a present key as for an absent one: in
`return pos->second;` (lines 528 and 541) the operand of `->second` is the
engine's iterator `pos`, which refers to a slot, a pointer to a Node, and a
pointer has no member `second`. On `A = {1:"a", 2:"b"}`, which has key 1,
`A.at(1)` gives no reference to a mapped value, whereas `->second` on the slot
`*pos` is the mapped value of the Node of key 1. -/
theorem C3_at (keq : K → K → Bool) (h : Heap K V) (m : unordered_node_map) (k : K) :
    m.at_ keq h k = none ∧
    unordered_node_map.arrow_second (unordered_node_map.ArrowOperand.slot_iterator (m.table_.find keq h k)) = none ∧
    Example.world.a.contains Example.keqNat Example.world.heap 1 = true ∧
    Example.world.a.at_ Example.keqNat Example.world.heap 1 = none ∧
    (unordered_node_map.arrow_second (unordered_node_map.ArrowOperand.node_pointer (Example.world.a.table_.deref
        (Example.world.a.table_.find Example.keqNat Example.world.heap 1)))).bind
      (fun r => r.bind Example.world.heap.get) = some (Node.mk 1 "a") :=
  ⟨rfl, rfl, by decide, rfl, by decide⟩

/-- C4. On a well-formed container, `operator[](k)` with `k` missing inserts
`k` with a default-constructed mapped value in a newly allocated Node, returns
a reference to that Node and increases the size by one (every other key keeps
its Node and value); with `k` present it returns a reference to the Node of
`k` and leaves the container and the allocator memory exactly as they were. -/
theorem C4_index [Inhabited V] (keq : K → K → Bool) (hk : KeyEquiv keq) (h : Heap K V)
    (m : unordered_node_map) (hw : m.table_.WF keq h) (k : K) :
    (m.contains keq h k = false →
      (∃ p, (m.index keq h k).1 = some p ∧ h.get p = none ∧
        (m.index keq h k).2.1.get p = some (Node.mk k default)) ∧
      (m.index keq h k).2.2.size = m.size + 1 ∧
      (m.index keq h k).2.2.mapped keq (m.index keq h k).2.1 k = some default ∧
      (∀ k2, keq k2 k = false →
        (m.index keq h k).2.2.table_.nodeAddr keq (m.index keq h k).2.1 k2
          = m.table_.nodeAddr keq h k2 ∧
        (m.index keq h k).2.2.mapped keq (m.index keq h k).2.1 k2 = m.mapped keq h k2)) ∧
    (m.contains keq h k = true →
      m.index keq h k = (m.table_.nodeAddr keq h k, h, m) ∧
      ∃ p n, m.table_.nodeAddr keq h k = some p ∧ h.get p = some n ∧ keq k n.first = true ∧
        m.mapped keq h k = some n.second) := by
  constructor
  · intro hc
    have hp := (contains_eq_false_iff keq h m k).mp hc
    obtain ⟨_, i2, i3, ⟨p, i4, _, i5, i6⟩, i7, _, _⟩ :=
      emplace_impl_inserted keq hk h m hw k (default : V) hp
    exact ⟨⟨p, i4, i5, i6⟩, i2, i3, i7⟩
  · intro hc
    have hp := (contains_eq_true_iff keq h m k).mp hc
    refine ⟨index_present keq h m k hp, ?_⟩
    obtain ⟨p, hpa⟩ := (hasKey_iff_nodeAddr keq hk h m.table_ hw k).mp hp
    obtain ⟨hpm, kp, hkp, hkeq⟩ := (nodeAddr_eq_some_iff keq hk h m.table_ hw k p).mp hpa
    obtain ⟨n, hn⟩ := hw.live p hpm
    rw [keyOf_of_get hn] at hkp
    cases hkp
    exact ⟨p, n, hpa, hn, hkeq, mapped_of_nodeAddr keq h m k p n hpa hn⟩

/-- C5. On a well-formed container, `try_emplace(k, args...)` with `k` present
returns `(find(k), false)` and leaves the allocator memory (no Node allocated
or constructed) and the container exactly as they were, whatever the
arguments; the iterator refers to the Node of `k`. With `k` absent it inserts
`k` mapped to the value built from the arguments and returns flag `true`. -/
theorem C5_try_emplace (keq : K → K → Bool) (hk : KeyEquiv keq) (h : Heap K V)
    (m : unordered_node_map) (hw : m.table_.WF keq h) (k : K) (mk : A → V) (args : A) :
    (m.contains keq h k = true →
      m.try_emplace keq h k mk args = ((m.find keq h k, false), h, m) ∧
      ∃ p n, m.node_ptr (m.find keq h k) = some p ∧ h.get p = some n ∧ keq k n.first = true) ∧
    (m.contains keq h k = false →
      unordered_node_map.Inserted keq h m k (mk args) (m.try_emplace keq h k mk args)) := by
  constructor
  · intro hc
    have hp := (contains_eq_true_iff keq h m k).mp hc
    refine ⟨?_, ?_⟩
    · unfold unordered_node_map.try_emplace Table.try_emplace
      rw [emplace_impl_present keq h m.table_ k _ hp]
      rfl
    · obtain ⟨p, hpa⟩ := (hasKey_iff_nodeAddr keq hk h m.table_ hw k).mp hp
      obtain ⟨hpm, kp, hkp, hkeq⟩ := (nodeAddr_eq_some_iff keq hk h m.table_ hw k p).mp hpa
      obtain ⟨n, hn⟩ := hw.live p hpm
      rw [keyOf_of_get hn] at hkp
      cases hkp
      exact ⟨p, n, hpa, hn, hkeq⟩
  · intro hc
    exact emplace_impl_inserted keq hk h m hw k (mk args) ((contains_eq_false_iff keq h m k).mp hc)

/-- C6. On a well-formed container, `insert((k, v))` and `emplace(k, v)` with
`k` present return `(find(k), false)` and leave the allocator memory and the
container exactly as they were, the iterator referring to the Node of `k`;
with `k` absent they add `k` mapped to `v` in a new Node, increase the size by
one and return the iterator of the new element with flag `true`. -/
theorem C6_insert_emplace (keq : K → K → Bool) (hk : KeyEquiv keq) (h : Heap K V)
    (m : unordered_node_map) (hw : m.table_.WF keq h) (k : K) (v : V) :
    (m.contains keq h k = true →
      m.insert keq h (k, v) = ((m.find keq h k, false), h, m) ∧
      m.emplace keq h k v = ((m.find keq h k, false), h, m) ∧
      ∃ p n, m.node_ptr (m.find keq h k) = some p ∧ h.get p = some n ∧ keq k n.first = true) ∧
    (m.contains keq h k = false →
      unordered_node_map.Inserted keq h m k v (m.insert keq h (k, v)) ∧
      unordered_node_map.Inserted keq h m k v (m.emplace keq h k v)) := by
  constructor
  · intro hc
    have hp := (contains_eq_true_iff keq h m k).mp hc
    refine ⟨?_, ?_, ?_⟩
    · have e := emplace_impl_present keq h m.table_ k (Node.mk k v) hp
      show ((Table.emplace_impl keq h m.table_ k (Node.mk k v)).1,
        (Table.emplace_impl keq h m.table_ k (Node.mk k v)).2.1,
        (⟨(Table.emplace_impl keq h m.table_ k (Node.mk k v)).2.2⟩ : unordered_node_map)) = _
      rw [e]
      rfl
    · have e := emplace_impl_present keq h m.table_ k (Node.mk k v) hp
      show ((Table.emplace_impl keq h m.table_ k (Node.mk k v)).1,
        (Table.emplace_impl keq h m.table_ k (Node.mk k v)).2.1,
        (⟨(Table.emplace_impl keq h m.table_ k (Node.mk k v)).2.2⟩ : unordered_node_map)) = _
      rw [e]
      rfl
    · obtain ⟨p, hpa⟩ := (hasKey_iff_nodeAddr keq hk h m.table_ hw k).mp hp
      obtain ⟨hpm, kp, hkp, hkeq⟩ := (nodeAddr_eq_some_iff keq hk h m.table_ hw k p).mp hpa
      obtain ⟨n, hn⟩ := hw.live p hpm
      rw [keyOf_of_get hn] at hkp
      cases hkp
      exact ⟨p, n, hpa, hn, hkeq⟩
  · intro hc
    have hp := (contains_eq_false_iff keq h m k).mp hc
    exact ⟨emplace_impl_inserted keq hk h m hw k v hp, emplace_impl_inserted keq hk h m hw k v hp⟩

end ClaimsC3C6
section WitnessesC3C6

/-- Witness of C4: `A[9]` on `A = {1:"a", 2:"b"}` adds one element. -/
theorem C4_index_witness :
    Example.world.a.table_.WF Example.keqNat Example.world.heap ∧
    (Example.world.a.index Example.keqNat Example.world.heap 9).2.2.size
      = Example.world.a.size + 1 :=
  ⟨WF_example_world.1,
    ((C4_index Example.keqNat keqNat_equiv Example.world.heap Example.world.a
      WF_example_world.1 9).1 (by decide)).2.1⟩

/-- Witness of C5: `try_emplace(2, "q")` on `A = {1:"a", 2:"b"}` changes nothing. -/
theorem C5_try_emplace_witness :
    Example.world.a.table_.WF Example.keqNat Example.world.heap ∧
    Example.world.a.try_emplace Example.keqNat Example.world.heap 2 (fun (s : String) => s) "q"
      = ((Example.world.a.find Example.keqNat Example.world.heap 2, false),
          Example.world.heap, Example.world.a) :=
  ⟨WF_example_world.1,
    ((C5_try_emplace Example.keqNat keqNat_equiv Example.world.heap Example.world.a
      WF_example_world.1 2 (fun (s : String) => s) "q").1 (by decide)).1⟩

/-- Witness of C6: `insert((2, "q"))` on `A = {1:"a", 2:"b"}` changes nothing. -/
theorem C6_insert_emplace_witness :
    Example.world.a.table_.WF Example.keqNat Example.world.heap ∧
    Example.world.a.insert Example.keqNat Example.world.heap (2, "q")
      = ((Example.world.a.find Example.keqNat Example.world.heap 2, false),
          Example.world.heap, Example.world.a) :=
  ⟨WF_example_world.1,
    ((C6_insert_emplace Example.keqNat keqNat_equiv Example.world.heap Example.world.a
      WF_example_world.1 2 "q").1 (by decide)).1⟩

end WitnessesC3C6
section ClaimC7

variable {K V A : Type}

theorem filterMap_id_findIdx_isSome (l : List (Option Addr)) :
    (l.findIdx Option.isSome = l.length → l.filterMap id = []) ∧
    (l.findIdx Option.isSome < l.length →
      ∃ a, l.get? (l.findIdx Option.isSome) = some (some a) ∧
        l.filterMap id = a :: (l.drop (l.findIdx Option.isSome + 1)).filterMap id) := by
  induction l with
  | nil => exact ⟨fun _ => rfl, fun hlt => absurd hlt (by simp)⟩
  | cons s rest ih =>
    cases s with
    | none =>
      have e : (none :: rest).findIdx Option.isSome = rest.findIdx Option.isSome + 1 := by
        simp [List.findIdx_cons]
      rw [e]
      constructor
      · intro hl
        have : rest.findIdx Option.isSome = rest.length := by simpa using hl
        simpa using ih.1 this
      · intro hl
        have : rest.findIdx Option.isSome < rest.length := by simpa using hl
        obtain ⟨a, h1, h2⟩ := ih.2 this
        exact ⟨a, by simpa using h1, by simpa using h2⟩
    | some a =>
      have e : (some a :: rest).findIdx Option.isSome = 0 := by simp [List.findIdx_cons]
      rw [e]
      constructor
      · intro hl; simp at hl
      · intro _; exact ⟨a, rfl, by simp⟩

theorem walk_eq (m : unordered_node_map) :
    ∀ (fuel i : Nat), i ≤ m.table_.slots.length → m.table_.slots.length - i < fuel →
      m.walk fuel (i + (m.table_.slots.drop i).findIdx Option.isSome)
        = (m.table_.slots.drop i).filterMap id := by
  intro fuel
  induction fuel with
  | zero => intro i _ hf; omega
  | succ fuel ih =>
    intro i hi hf
    obtain ⟨hend, hlt⟩ := filterMap_id_findIdx_isSome (m.table_.slots.drop i)
    have hlen : (m.table_.slots.drop i).length = m.table_.slots.length - i := List.length_drop _ _
    by_cases hj : (m.table_.slots.drop i).findIdx Option.isSome = (m.table_.slots.drop i).length
    · have hpos : i + (m.table_.slots.drop i).findIdx Option.isSome = m.end_ := by
        unfold unordered_node_map.end_ Table.end_
        rw [hj, hlen]; omega
      rw [hend hj]
      unfold unordered_node_map.walk
      simp [hpos]
    · have hjl : (m.table_.slots.drop i).findIdx Option.isSome < (m.table_.slots.drop i).length :=
        lt_of_le_of_ne (List.findIdx_le_length _) hj
      obtain ⟨a, h1, h2⟩ := hlt hjl
      have hpos : i + (m.table_.slots.drop i).findIdx Option.isSome ≠ m.end_ := by
        unfold unordered_node_map.end_ Table.end_
        rw [hlen] at hjl; omega
      have hptr : m.node_ptr (i + (m.table_.slots.drop i).findIdx Option.isSome) = some a := by
        unfold unordered_node_map.node_ptr Table.deref
        rw [List.get?_eq_getElem?] at h1 ⊢
        rw [List.getElem?_drop] at h1
        rw [h1]; rfl
      have hnext : m.next (i + (m.table_.slots.drop i).findIdx Option.isSome)
          = (i + (m.table_.slots.drop i).findIdx Option.isSome + 1)
            + (m.table_.slots.drop
                (i + (m.table_.slots.drop i).findIdx Option.isSome + 1)).findIdx Option.isSome :=
        rfl
      rw [h2]
      unfold unordered_node_map.walk
      rw [if_pos hpos, hptr, hnext, ih _ (by rw [hlen] at hjl; omega) (by rw [hlen] at hjl; omega)]
      rw [List.drop_drop]
      rfl

theorem walk_begin (m : unordered_node_map) (fuel : Nat) (hf : m.end_ < fuel) :
    m.walk fuel m.begin_ = m.table_.ptrs := by
  have := walk_eq m fuel 0 (Nat.zero_le _) (by simpa [unordered_node_map.end_, Table.end_] using hf)
  simpa [unordered_node_map.begin_, Table.ptrs] using this

theorem filter_key_length_le_one (keq : K → K → Bool) (hk : KeyEquiv keq) (h : Heap K V) (k : K)
    (l : List Addr) (hl : l.Pairwise (keysDiffer keq h)) :
    ((l.filterMap h.get).filter (fun n => keq k n.first)).length ≤ 1 := by
  induction l with
  | nil => simp
  | cons a rest ih =>
    obtain ⟨ha, hrest⟩ := List.pairwise_cons.mp hl
    cases hg : h.get a with
    | none =>
      rw [List.filterMap_cons_none hg]
      exact ih hrest
    | some n =>
      rw [List.filterMap_cons_some hg]
      by_cases hkn : keq k n.first = true
      · have hnil : (rest.filterMap h.get).filter (fun n => keq k n.first) = [] := by
          rw [List.filter_eq_nil_iff]
          intro nb hnb
          obtain ⟨b, hb, hgb⟩ := List.mem_filterMap.mp hnb
          have hd := ha b hb n.first nb.first (keyOf_of_get hg) (keyOf_of_get hgb)
          intro hkb
          rw [hk.trans _ _ _ (hk.symm _ _ hkn) hkb] at hd
          cases hd
        have e : (n :: rest.filterMap h.get).filter (fun n => keq k n.first)
            = n :: (rest.filterMap h.get).filter (fun n => keq k n.first) :=
          List.filter_cons_of_pos (p := fun (n : Node K V) => keq k n.first) hkn
        rw [e, hnil]
        simp
      · have e : (n :: rest.filterMap h.get).filter (fun n => keq k n.first)
            = (rest.filterMap h.get).filter (fun n => keq k n.first) :=
          List.filter_cons_of_neg (p := fun (n : Node K V) => keq k n.first) hkn
        rw [e]
        exact ih hrest

/-- C7 (key uniqueness). Starting from empty containers, after any sequence of
insert, hinted insert, range insert, emplace, emplace_hint, try_emplace,
insert_or_assign and operator[] calls (and of rehash, reserve and swap calls),
in each container at most one element has a key equal to `k`, for every `k`,
and `size()` is the number of elements the loop from `begin()` to `end()`
visits (the loop reaches `end()` within `end() + 1` increments, so any larger
bound on the number of increments gives the same elements). -/
theorem C7_key_uniqueness [Inhabited V] (keq : K → K → Bool) (hk : KeyEquiv keq) (mk : A → V)
    (calls : List (Bool × Op K V A)) (side : Bool) :
    (∀ k : K,
      (((((World.init : World K V).run keq mk calls).sel side).elements
          ((World.init : World K V).run keq mk calls).heap).filter
        (fun n => keq k n.first)).length ≤ 1) ∧
    (∀ fuel, (((World.init : World K V).run keq mk calls).sel side).end_ < fuel →
      ((((World.init : World K V).run keq mk calls).sel side).walk fuel
          (((World.init : World K V).run keq mk calls).sel side).begin_).length
        = (((World.init : World K V).run keq mk calls).sel side).size) := by
  have hw := (run_spec keq hk mk calls (World.init : World K V)).2.2 (WF_init keq)
  have hws : (((World.init : World K V).run keq mk calls).sel side).table_.WF keq
      ((World.init : World K V).run keq mk calls).heap := by
    cases side
    · exact hw.1
    · exact hw.2
  constructor
  · intro k
    exact filter_key_length_le_one keq hk _ k _ hws.uniq
  · intro fuel hf
    rw [walk_begin _ fuel hf]
    exact hws.size_eq.symm

/-- Witness of C7: the example calls made on two empty containers. -/
theorem C7_key_uniqueness_witness :
    KeyEquiv Example.keqNat ∧
    ((((World.init : World Nat String).run Example.keqNat (fun (s : String) => s)
        Example.calls).sel true).walk 100
      (((World.init : World Nat String).run Example.keqNat (fun (s : String) => s)
        Example.calls).sel true).begin_).length
      = (((World.init : World Nat String).run Example.keqNat (fun (s : String) => s)
        Example.calls).sel true).size :=
  ⟨keqNat_equiv,
    (C7_key_uniqueness Example.keqNat keqNat_equiv (fun (s : String) => s) Example.calls true).2
      100 (by decide)⟩

end ClaimC7
section MergeLemmas

variable {K V : Type}

theorem hasKey_congr_key (keq : K → K → Bool) (hk : KeyEquiv keq) (h : Heap K V) (t : Table)
    (k k2 : K) (hkk : keq k k2 = true) : t.hasKey keq h k ↔ t.hasKey keq h k2 := by
  constructor
  · rintro ⟨a, ha, ka, hka, hkeq⟩
    exact ⟨a, ha, ka, hka, hk.trans _ _ _ (hk.symm _ _ hkk) hkeq⟩
  · rintro ⟨a, ha, ka, hka, hkeq⟩
    exact ⟨a, ha, ka, hka, hk.trans _ _ _ hkk hkeq⟩

theorem merge_slot_present (keq : K → K → Bool) (h : Heap K V) (dst : Table) (a : Addr) (ka : K)
    (hka : h.keyOf a = some ka) (hp : dst.hasKey keq h ka) :
    Table.merge_slot keq h dst a = (dst, some a) := by
  have hne : dst.find keq h ka ≠ dst.end_ := by
    rw [Ne, find_eq_end_iff]; exact fun hno => hno hp
  have e : map_types.extract_ptr h a = some ka := hka
  unfold Table.merge_slot
  rw [e]
  simp only [if_pos hne]

theorem merge_slot_absent (keq : K → K → Bool) (h : Heap K V) (dst : Table) (a : Addr) (ka : K)
    (hka : h.keyOf a = some ka) (hp : ¬ dst.hasKey keq h ka) :
    Table.merge_slot keq h dst a
      = ({ slots := dst.grown.slots.set dst.grown.firstEmpty (some a),
           size_ := dst.grown.size_ + 1 }, none) := by
  have hne : ¬ dst.find keq h ka ≠ dst.end_ := by
    rw [Ne, not_not, find_eq_end_iff]; exact hp
  have e : map_types.extract_ptr h a = some ka := hka
  unfold Table.merge_slot
  rw [e]
  simp only [if_neg hne, construct_move, map_types.move]

theorem placed_perm (dst : Table) (a : Addr) :
    (Table.ptrs { slots := dst.grown.slots.set dst.grown.firstEmpty (some a),
                  size_ := dst.grown.size_ + 1 }).Perm (a :: dst.ptrs) := by
  have := perm_set_firstEmpty dst.grown.slots a (firstEmpty_grown_lt dst)
  have hg : dst.grown.slots.filterMap id = dst.ptrs := ptrs_grown dst
  rw [hg] at this
  exact this

theorem placed_WF (keq : K → K → Bool) (hk : KeyEquiv keq) (h : Heap K V) (dst : Table)
    (a : Addr) (ka : K) (n : Node K V) (hn : h.get a = some n) (hka : h.keyOf a = some ka)
    (hw : dst.WF keq h) (hp : ¬ dst.hasKey keq h ka) :
    Table.WF keq h { slots := dst.grown.slots.set dst.grown.firstEmpty (some a),
                     size_ := dst.grown.size_ + 1 } := by
  have hperm := placed_perm dst a
  refine ⟨?_, ?_, ?_⟩
  · intro b hb
    rcases List.mem_cons.mp (hperm.mem_iff.mp hb) with rfl | hb
    · exact ⟨n, hn⟩
    · exact hw.live b hb
  · have hsym : ∀ {x y : Addr}, keysDiffer keq h x y → keysDiffer keq h y x :=
      fun hxy => keysDiffer_symm keq hk _ hxy
    rw [hperm.pairwise_iff hsym, List.pairwise_cons]
    refine ⟨?_, hw.uniq⟩
    intro b hb k1 kb hk1 hkb
    rw [hka] at hk1
    cases hk1
    cases hx : keq ka kb
    · rfl
    · exact absurd ⟨b, hb, kb, hkb, hx⟩ hp
  · have hl := hperm.length_eq
    show dst.grown.size_ + 1 = _
    rw [hl, size_grown, List.length_cons, hw.size_eq]

theorem placed_hasKey_iff (keq : K → K → Bool) (h : Heap K V) (dst : Table) (a : Addr) (ka : K)
    (hka : h.keyOf a = some ka) (k : K) :
    Table.hasKey keq h { slots := dst.grown.slots.set dst.grown.firstEmpty (some a),
                         size_ := dst.grown.size_ + 1 } k
      ↔ dst.hasKey keq h k ∨ keq k ka = true := by
  have hperm := placed_perm dst a
  constructor
  · rintro ⟨b, hb, kb, hkb, hkeq⟩
    rcases List.mem_cons.mp (hperm.mem_iff.mp hb) with rfl | hb
    · rw [hka] at hkb; cases hkb; exact Or.inr hkeq
    · exact Or.inl ⟨b, hb, kb, hkb, hkeq⟩
  · rintro (⟨b, hb, kb, hkb, hkeq⟩ | hkeq)
    · exact ⟨b, hperm.mem_iff.mpr (List.mem_cons_of_mem _ hb), kb, hkb, hkeq⟩
    · exact ⟨a, hperm.mem_iff.mpr (List.mem_cons_self _ _), ka, hka, hkeq⟩

theorem merge_slots_spec (keq : K → K → Bool) (hk : KeyEquiv keq) (h : Heap K V)
    (l : List (Option Addr)) :
    ∀ dst : Table, dst.WF keq h →
      (∀ a ∈ l.filterMap id, ∃ n, h.get a = some n) →
      (l.filterMap id).Pairwise (keysDiffer keq h) →
      (Table.merge_slots keq h dst l).1.WF keq h ∧
      (∀ a, a ∈ (Table.merge_slots keq h dst l).1.ptrs ↔
        a ∈ dst.ptrs ∨ (a ∈ l.filterMap id ∧ ¬ dst.hasKeyAt keq h a)) ∧
      (∀ a, a ∈ (Table.merge_slots keq h dst l).2.filterMap id ↔
        a ∈ l.filterMap id ∧ dst.hasKeyAt keq h a) ∧
      ((Table.merge_slots keq h dst l).2.filterMap id).Sublist (l.filterMap id) ∧
      (Table.merge_slots keq h dst l).1.size_
          + ((Table.merge_slots keq h dst l).2.filterMap id).length
        = dst.size_ + (l.filterMap id).length := by
  induction l with
  | nil =>
    intro dst hw _ _
    refine ⟨hw, ?_, ?_, List.Sublist.refl _, rfl⟩
    · intro a; simp [Table.merge_slots]
    · intro a; simp [Table.merge_slots]
  | cons s rest ih =>
    intro dst hw hlive hpw
    cases s with
    | none =>
      have e : (none :: rest).filterMap id = rest.filterMap id := rfl
      rw [e] at hlive hpw ⊢
      obtain ⟨i1, i2, i3, i4, i5⟩ := ih dst hw hlive hpw
      exact ⟨i1, i2, i3, i4, i5⟩
    | some a =>
      have e : (some a :: rest).filterMap id = a :: rest.filterMap id := rfl
      rw [e] at hlive hpw ⊢
      obtain ⟨hpa, hprest⟩ := List.pairwise_cons.mp hpw
      obtain ⟨n, hn⟩ := hlive a (List.mem_cons_self _ _)
      have hka : h.keyOf a = some n.first := keyOf_of_get hn
      have hlrest : ∀ b ∈ rest.filterMap id, ∃ n, h.get b = some n :=
        fun b hb => hlive b (List.mem_cons_of_mem _ hb)
      by_cases hp : dst.hasKey keq h n.first
      · have hs := merge_slot_present keq h dst a n.first hka hp
        have hat : dst.hasKeyAt keq h a := ⟨n.first, hka, hp⟩
        have hnotin : a ∉ rest.filterMap id := by
          intro hmem
          have := hpa a hmem n.first n.first hka hka
          rw [hk.refl] at this
          cases this
        obtain ⟨i1, i2, i3, i4, i5⟩ := ih dst hw hlrest hprest
        have er : Table.merge_slots keq h dst (some a :: rest)
            = ((Table.merge_slots keq h dst rest).1,
                some a :: (Table.merge_slots keq h dst rest).2) := by
          simp only [Table.merge_slots, hs]
        rw [er]
        have e2 : (some a :: (Table.merge_slots keq h dst rest).2).filterMap id
            = a :: (Table.merge_slots keq h dst rest).2.filterMap id := rfl
        simp only [e2]
        refine ⟨i1, ?_, ?_, i4.cons₂ a, ?_⟩
        · intro b
          rw [i2 b, List.mem_cons]
          constructor
          · rintro (hb | ⟨hb, hnb⟩)
            · exact Or.inl hb
            · exact Or.inr ⟨Or.inr hb, hnb⟩
          · rintro (hb | ⟨hb | hb, hnb⟩)
            · exact Or.inl hb
            · rw [hb] at hnb; exact absurd hat hnb
            · exact Or.inr ⟨hb, hnb⟩
        · intro b
          rw [List.mem_cons, List.mem_cons, i3 b]
          constructor
          · rintro (hb | ⟨hb, hbat⟩)
            · rw [hb]; exact ⟨Or.inl rfl, hat⟩
            · exact ⟨Or.inr hb, hbat⟩
          · rintro ⟨hb | hb, hbat⟩
            · exact Or.inl hb
            · exact Or.inr ⟨hb, hbat⟩
        · simp only [List.length_cons]
          omega
      · have hs := merge_slot_absent keq h dst a n.first hka hp
        have hat : ¬ dst.hasKeyAt keq h a := by
          rintro ⟨ka, hka2, hp2⟩
          rw [hka] at hka2
          cases hka2
          exact hp hp2
        have hw1 := placed_WF keq hk h dst a n.first n hn hka hw hp
        have hperm := placed_perm dst a
        obtain ⟨i1, i2, i3, i4, i5⟩ := ih _ hw1 hlrest hprest
        have er : Table.merge_slots keq h dst (some a :: rest)
            = ((Table.merge_slots keq h
                  { slots := dst.grown.slots.set dst.grown.firstEmpty (some a),
                    size_ := dst.grown.size_ + 1 } rest).1,
                none :: (Table.merge_slots keq h
                  { slots := dst.grown.slots.set dst.grown.firstEmpty (some a),
                    size_ := dst.grown.size_ + 1 } rest).2) := by
          simp only [Table.merge_slots, hs]
        rw [er]
        have e2 : ∀ l2 : List (Option Addr), (none :: l2).filterMap id = l2.filterMap id :=
          fun _ => rfl
        simp only [e2]
        -- for an element of the rest, having its key in the grown destination is the same
        have hat_iff : ∀ b ∈ rest.filterMap id,
            (Table.hasKeyAt keq h { slots := dst.grown.slots.set dst.grown.firstEmpty (some a),
                                    size_ := dst.grown.size_ + 1 } b ↔ dst.hasKeyAt keq h b) := by
          intro b hb
          constructor
          · rintro ⟨kb, hkb, hpb⟩
            rcases (placed_hasKey_iff keq h dst a n.first hka kb).mp hpb with hpb | hkeq
            · exact ⟨kb, hkb, hpb⟩
            · have := hpa b hb n.first kb hka hkb
              rw [hk.symm _ _ hkeq] at this
              cases this
          · rintro ⟨kb, hkb, hpb⟩
            exact ⟨kb, hkb, (placed_hasKey_iff keq h dst a n.first hka kb).mpr (Or.inl hpb)⟩
        refine ⟨i1, ?_, ?_, i4.cons a, ?_⟩
        · intro b
          rw [i2 b, hperm.mem_iff, List.mem_cons, List.mem_cons]
          constructor
          · rintro ((hb | hb) | ⟨hb, hnb⟩)
            · rw [hb]; exact Or.inr ⟨Or.inl rfl, hat⟩
            · exact Or.inl hb
            · exact Or.inr ⟨Or.inr hb, fun hc => hnb ((hat_iff b hb).mpr hc)⟩
          · rintro (hb | ⟨hb | hb, hnb⟩)
            · exact Or.inl (Or.inr hb)
            · exact Or.inl (Or.inl hb)
            · exact Or.inr ⟨hb, fun hc => hnb ((hat_iff b hb).mp hc)⟩
        · intro b
          rw [i3 b, List.mem_cons]
          constructor
          · rintro ⟨hb, hbat⟩
            exact ⟨Or.inr hb, (hat_iff b hb).mp hbat⟩
          · rintro ⟨hb | hb, hbat⟩
            · rw [hb] at hbat; exact absurd hbat hat
            · exact ⟨hb, (hat_iff b hb).mpr hbat⟩
        · have hsz : (⟨dst.grown.slots.set dst.grown.firstEmpty (some a),
              dst.grown.size_ + 1⟩ : Table).size_ = dst.size_ + 1 := by
            show dst.grown.size_ + 1 = _
            rw [size_grown]
          rw [hsz] at i5
          simp only [List.length_cons]
          omega

end MergeLemmas
section ClaimC8

variable {K V : Type}

/-- C8. For well-formed containers `A` and `B`, `A.merge(B)` reads the
allocator memory `h` without changing it (no Node is allocated, copied or
written) and moves Node pointers only: afterwards `A` holds its own Node
pointers and those of `B` whose key was absent from `A`, and `B` holds exactly
its Node pointers whose key was present in `A`. So every key of `A` keeps its
Node, every key only in `B` is found in `A` at the Node address it had in `B`
and no longer in `B`, and a key in both stays in `B` at its Node. No element
is lost, and both containers stay well-formed. -/
theorem C8_merge (keq : K → K → Bool) (hk : KeyEquiv keq) (h : Heap K V)
    (A B : unordered_node_map) (hwA : A.table_.WF keq h) (hwB : B.table_.WF keq h) :
    (∀ a, a ∈ (A.merge keq h B).1.table_.ptrs ↔
      a ∈ A.table_.ptrs ∨ (a ∈ B.table_.ptrs ∧ ¬ A.table_.hasKeyAt keq h a)) ∧
    (∀ a, a ∈ (A.merge keq h B).2.table_.ptrs ↔
      a ∈ B.table_.ptrs ∧ A.table_.hasKeyAt keq h a) ∧
    (∀ k, (A.merge keq h B).1.table_.nodeAddr keq h k
      = if A.contains keq h k then A.table_.nodeAddr keq h k else B.table_.nodeAddr keq h k) ∧
    (∀ k, (A.merge keq h B).2.table_.nodeAddr keq h k
      = if A.contains keq h k then B.table_.nodeAddr keq h k else none) ∧
    (A.merge keq h B).1.size + (A.merge keq h B).2.size = A.size + B.size ∧
    (A.merge keq h B).1.table_.WF keq h ∧ (A.merge keq h B).2.table_.WF keq h := by
  obtain ⟨i1, i2, i3, i4, i5⟩ :=
    merge_slots_spec keq hk h B.table_.slots A.table_ hwA hwB.live hwB.uniq
  have hw2 : (A.merge keq h B).2.table_.WF keq h :=
    ⟨fun a ha => hwB.live a ((i3 a).mp ha).1, hwB.uniq.sublist i4, rfl⟩
  have hw1 : (A.merge keq h B).1.table_.WF keq h := i1
  refine ⟨i2, i3, ?_, ?_, ?_, hw1, hw2⟩
  · intro k
    by_cases hc : A.contains keq h k = true
    · rw [if_pos hc]
      have hp := (contains_eq_true_iff keq h A k).mp hc
      obtain ⟨p, hpa⟩ := (hasKey_iff_nodeAddr keq hk h A.table_ hwA k).mp hp
      obtain ⟨hpm, hkey⟩ := (nodeAddr_eq_some_iff keq hk h A.table_ hwA k p).mp hpa
      rw [hpa]
      exact (nodeAddr_eq_some_iff keq hk h _ hw1 k p).mpr ⟨(i2 p).mpr (Or.inl hpm), hkey⟩
    · rw [if_neg hc]
      have hp : ¬ A.table_.hasKey keq h k := fun hp => hc ((contains_eq_true_iff keq h A k).mpr hp)
      apply Option.ext
      intro q
      rw [Option.mem_def, Option.mem_def, nodeAddr_eq_some_iff keq hk h _ hw1,
        nodeAddr_eq_some_iff keq hk h _ hwB]
      constructor
      · rintro ⟨hq, kq, hkq, hkeq⟩
        rcases (i2 q).mp hq with hq | ⟨hq, _⟩
        · exact absurd ⟨q, hq, kq, hkq, hkeq⟩ hp
        · exact ⟨hq, kq, hkq, hkeq⟩
      · rintro ⟨hq, kq, hkq, hkeq⟩
        refine ⟨(i2 q).mpr (Or.inr ⟨hq, ?_⟩), kq, hkq, hkeq⟩
        rintro ⟨kq2, hkq2, hpq⟩
        rw [hkq] at hkq2
        cases hkq2
        exact hp ((hasKey_congr_key keq hk h A.table_ k kq hkeq).mpr hpq)
  · intro k
    by_cases hc : A.contains keq h k = true
    · rw [if_pos hc]
      have hp := (contains_eq_true_iff keq h A k).mp hc
      apply Option.ext
      intro q
      rw [Option.mem_def, Option.mem_def, nodeAddr_eq_some_iff keq hk h _ hw2,
        nodeAddr_eq_some_iff keq hk h _ hwB]
      constructor
      · rintro ⟨hq, hkey⟩
        exact ⟨((i3 q).mp hq).1, hkey⟩
      · rintro ⟨hq, kq, hkq, hkeq⟩
        exact ⟨(i3 q).mpr ⟨hq, kq, hkq, (hasKey_congr_key keq hk h A.table_ k kq hkeq).mp hp⟩,
          kq, hkq, hkeq⟩
    · rw [if_neg hc]
      have hp : ¬ A.table_.hasKey keq h k := fun hp => hc ((contains_eq_true_iff keq h A k).mpr hp)
      rw [nodeAddr_eq_none_iff keq hk h _ hw2]
      rintro ⟨q, hq, kq, hkq, hkeq⟩
      obtain ⟨_, kq2, hkq2, hpq⟩ := (i3 q).mp hq
      rw [hkq] at hkq2
      cases hkq2
      exact hp ((hasKey_congr_key keq hk h A.table_ k kq hkeq).mpr hpq)
  · show (Table.merge_slots keq h A.table_ B.table_.slots).1.size_
        + ((Table.merge_slots keq h A.table_ B.table_.slots).2.filterMap id).length
      = A.table_.size_ + B.table_.size_
    rw [i5, hwB.size_eq]
    rfl

/-- Witness of C8: `A = {1:"a", 2:"b"}`, `B = {2:"x", 3:"c"}`; `A.merge(B)`
gives `A = {1:"a", 2:"b", 3:"c"}` and `B = {2:"x"}`, and key 3 is found in `A`
at the Node address it had in `B`. -/
theorem C8_merge_witness :
    Example.world.a.table_.WF Example.keqNat Example.world.heap ∧
    Example.world.b.table_.WF Example.keqNat Example.world.heap ∧
    ((Example.world.a.merge Example.keqNat Example.world.heap Example.world.b).1.elements
      Example.world.heap).map (fun n => (n.first, n.second)) = [(1, "a"), (2, "b"), (3, "c")] ∧
    ((Example.world.a.merge Example.keqNat Example.world.heap Example.world.b).2.elements
      Example.world.heap).map (fun n => (n.first, n.second)) = [(2, "x")] ∧
    Example.world.b.table_.nodeAddr Example.keqNat Example.world.heap 3 = some 4 ∧
    (Example.world.a.merge Example.keqNat Example.world.heap Example.world.b).1.table_.nodeAddr
        Example.keqNat Example.world.heap 3
      = if Example.world.a.contains Example.keqNat Example.world.heap 3
        then Example.world.a.table_.nodeAddr Example.keqNat Example.world.heap 3
        else Example.world.b.table_.nodeAddr Example.keqNat Example.world.heap 3 :=
  ⟨WF_example_world.1, WF_example_world.2, by decide, by decide, by decide,
    (C8_merge Example.keqNat keqNat_equiv Example.world.heap Example.world.a Example.world.b
      WF_example_world.1 WF_example_world.2).2.2.1 3⟩

end ClaimC8
section ClaimC9

variable {K V : Type}

theorem mem_elements_iff (h : Heap K V) (m : unordered_node_map) (n : Node K V) :
    n ∈ m.elements h ↔ ∃ a ∈ m.table_.ptrs, h.get a = some n := by
  unfold unordered_node_map.elements
  exact List.mem_filterMap

theorem eq_step_iff [BEq K] [BEq V] (keq : K → K → Bool) (hk : KeyEquiv keq) (h : Heap K V)
    (rhs : unordered_node_map) (hw : rhs.table_.WF keq h) (kvp : Node K V) :
    unordered_node_map.eq_step keq h rhs kvp = true ↔
      ∃ x ∈ rhs.elements h, keq kvp.first x.first = true ∧
        (x.first == kvp.first && x.second == kvp.second) = true := by
  unfold unordered_node_map.eq_step unordered_node_map.pair_ne unordered_node_map.find
    unordered_node_map.end_ unordered_node_map.node_at
  constructor
  · intro hs
    by_cases hpos : rhs.table_.find keq h kvp.first = rhs.table_.end_
    · simp [hpos] at hs
    · obtain ⟨a, ha, hmem, ka, hka, hkeq⟩ := deref_find keq h rhs.table_ kvp.first hpos
      obtain ⟨x, hx⟩ := hw.live a hmem
      rw [keyOf_of_get hx] at hka
      cases hka
      simp only [if_neg hpos, ha, Option.some_bind, hx, Bool.not_not] at hs
      exact ⟨x, (mem_elements_iff h rhs x).mpr ⟨a, hmem, hx⟩, hkeq, hs⟩
  · rintro ⟨x, hx, hkeq, heq⟩
    obtain ⟨a, hmem, hget⟩ := (mem_elements_iff h rhs x).mp hx
    have hna : rhs.table_.nodeAddr keq h kvp.first = some a :=
      (nodeAddr_eq_some_iff keq hk h rhs.table_ hw kvp.first a).mpr
        ⟨hmem, x.first, keyOf_of_get hget, hkeq⟩
    have hpos : rhs.table_.find keq h kvp.first ≠ rhs.table_.end_ := by
      rw [Ne, find_eq_end_iff]
      exact fun hno => hno ⟨a, hmem, x.first, keyOf_of_get hget, hkeq⟩
    unfold Table.nodeAddr at hna
    simp only [if_neg hpos, hna, Option.some_bind, hget, Bool.not_not]
    exact heq

theorem operator_eq_iff [BEq K] [BEq V] (keq : K → K → Bool) (hk : KeyEquiv keq) (h : Heap K V)
    (lhs_this rhs_this : Nat) (lhs rhs : unordered_node_map) (hne : lhs_this ≠ rhs_this)
    (hw : rhs.table_.WF keq h) :
    unordered_node_map.operator_eq keq h lhs_this rhs_this lhs rhs = true ↔
      lhs.size = rhs.size ∧
      ∀ kvp ∈ lhs.elements h, ∃ x ∈ rhs.elements h, keq kvp.first x.first = true ∧
        (x.first == kvp.first && x.second == kvp.second) = true := by
  unfold unordered_node_map.operator_eq
  rw [if_neg hne, Bool.and_eq_true, decide_eq_true_iff, List.all_eq_true]
  constructor
  · rintro ⟨hs, hall⟩
    exact ⟨hs, fun kvp hkvp => (eq_step_iff keq hk h rhs hw kvp).mp (hall kvp hkvp)⟩
  · rintro ⟨hs, hall⟩
    exact ⟨hs, fun kvp hkvp => (eq_step_iff keq hk h rhs hw kvp).mpr (hall kvp hkvp)⟩

/-- C9. For two distinct container objects `lhs` and `rhs` (`rhs` well-formed),
`lhs == rhs` is `true` exactly when `lhs.size() == rhs.size()` and for every
element `(k, v)` of `lhs` there is an element of `rhs` whose key equals `k`
under the key equality and which compares equal to `(k, v)` as a pair; hence
containers of different size never compare equal. -/
theorem C9_operator_eq [BEq K] [BEq V] (keq : K → K → Bool) (hk : KeyEquiv keq) (h : Heap K V)
    (lhs_this rhs_this : Nat) (lhs rhs : unordered_node_map) (hne : lhs_this ≠ rhs_this)
    (hw : rhs.table_.WF keq h) :
    (unordered_node_map.operator_eq keq h lhs_this rhs_this lhs rhs = true ↔
      lhs.size = rhs.size ∧
      ∀ kvp ∈ lhs.elements h, ∃ x ∈ rhs.elements h, keq kvp.first x.first = true ∧
        (x.first == kvp.first && x.second == kvp.second) = true) ∧
    (lhs.size ≠ rhs.size →
      unordered_node_map.operator_eq keq h lhs_this rhs_this lhs rhs = false) := by
  have hiff := operator_eq_iff keq hk h lhs_this rhs_this lhs rhs hne hw
  refine ⟨hiff, ?_⟩
  intro hsz
  cases hx : unordered_node_map.operator_eq keq h lhs_this rhs_this lhs rhs
  · rfl
  · exact absurd (hiff.mp hx).1 hsz

/-- Witness of C9: `A = {1:"a", 2:"b"}` compared with `B = {2:"x", 3:"c"}`. -/
theorem C9_operator_eq_witness :
    (0 : Nat) ≠ 1 ∧ KeyEquiv Example.keqNat ∧
    Example.world.b.table_.WF Example.keqNat Example.world.heap ∧
    (unordered_node_map.operator_eq Example.keqNat Example.world.heap 0 1 Example.world.a
        Example.world.b = true ↔
      Example.world.a.size = Example.world.b.size ∧
      ∀ kvp ∈ Example.world.a.elements Example.world.heap,
        ∃ x ∈ Example.world.b.elements Example.world.heap,
          Example.keqNat kvp.first x.first = true ∧
          (x.first == kvp.first && x.second == kvp.second) = true) :=
  ⟨by decide, keqNat_equiv, WF_example_world.2,
    (C9_operator_eq Example.keqNat keqNat_equiv Example.world.heap 0 1 Example.world.a
      Example.world.b (by decide) WF_example_world.2).1⟩

end ClaimC9
section ClaimC10

variable {K V : Type}

theorem hasKey_mono (keq : K → K → Bool) (h h2 : Heap K V) (t t2 : Table) (k : K)
    (hp : t.hasKey keq h k) (hsub : ∀ a ∈ t.ptrs, a ∈ t2.ptrs) (hkeys : h.keysPreserved h2) :
    t2.hasKey keq h2 k := by
  obtain ⟨a, ha, ka, hka, hkeq⟩ := hp
  exact ⟨a, hsub a ha, ka, hkeys a ka hka, hkeq⟩

theorem insert_range_hasKey (keq : K → K → Bool) (hk : KeyEquiv keq) (xs : List (K × V)) :
    ∀ (h : Heap K V) (m : unordered_node_map), m.table_.WF keq h →
      ∀ p ∈ xs, (m.insert_range keq h xs).2.table_.hasKey keq (m.insert_range keq h xs).1 p.1 := by
  induction xs with
  | nil => intro h m _ p hp; cases hp
  | cons x rest ih =>
    intro h m hw p hp
    have hw1 : (Table.emplace keq h m.table_ x).2.2.WF keq (Table.emplace keq h m.table_ x).2.1 :=
      emplace_impl_WF keq hk h m.table_ _ _ rfl hw
    rcases List.mem_cons.mp hp with rfl | hp
    · have h1 : (Table.emplace keq h m.table_ p).2.2.hasKey keq
          (Table.emplace keq h m.table_ p).2.1 p.1 :=
        emplace_impl_hasKey_self keq hk h m.table_ _ _ rfl hw
      obtain ⟨s1, s2, _⟩ := insert_range_spec keq hk rest (Table.emplace keq h m.table_ p).2.1
        ⟨(Table.emplace keq h m.table_ p).2.2⟩
      exact hasKey_mono keq _ _ _ _ p.1 h1 s2 (keysPreserved_of_nodesPreserved s1)
    · exact ih _ ⟨(Table.emplace keq h m.table_ x).2.2⟩ hw1 p hp

theorem emplace_impl_origin (keq : K → K → Bool) (h : Heap K V) (t : Table) (key : K)
    (n : Node K V) :
    ∀ a ∈ (Table.emplace_impl keq h t key n).2.2.ptrs,
      a ∈ t.ptrs ∨ (h.get a = none ∧ (Table.emplace_impl keq h t key n).2.1.get a = some n) := by
  intro a ha
  by_cases hp : t.hasKey keq h key
  · rw [emplace_impl_present keq h t key n hp] at ha
    exact Or.inl ha
  · rw [emplace_impl_absent keq h t key n hp] at ha ⊢
    rcases List.mem_cons.mp ((unchecked_emplace_perm h t n).mem_iff.mp ha) with rfl | ha
    · exact Or.inr ⟨Heap.get_freshAddr h, by rw [unchecked_emplace_get, if_pos rfl]⟩
    · exact Or.inl ha

theorem insert_range_origin (keq : K → K → Bool) (hk : KeyEquiv keq) (xs : List (K × V)) :
    ∀ (h : Heap K V) (m : unordered_node_map),
      ∀ a ∈ (m.insert_range keq h xs).2.table_.ptrs,
        a ∈ m.table_.ptrs ∨
        (h.get a = none ∧ ∃ p ∈ xs, (m.insert_range keq h xs).1.get a = some (Node.mk p.1 p.2)) := by
  induction xs with
  | nil => intro h m a ha; exact Or.inl ha
  | cons x rest ih =>
    intro h m a ha
    obtain ⟨s1, _, _⟩ := insert_range_spec keq hk rest (Table.emplace keq h m.table_ x).2.1
      ⟨(Table.emplace keq h m.table_ x).2.2⟩
    have hpres1 : h.nodesPreserved (Table.emplace keq h m.table_ x).2.1 :=
      emplace_impl_nodesPreserved keq h m.table_ _ _
    rcases ih _ ⟨(Table.emplace keq h m.table_ x).2.2⟩ a ha with h1 | ⟨h1, p, hp, hg⟩
    · rcases emplace_impl_origin keq h m.table_ _ _ a h1 with h2 | ⟨h2, h3⟩
      · exact Or.inl h2
      · exact Or.inr ⟨h2, x, List.mem_cons_self _ _, s1 a _ h3⟩
    · refine Or.inr ⟨?_, p, List.mem_cons_of_mem _ hp, hg⟩
      cases hx : h.get a with
      | none => rfl
      | some n => rw [hpres1 a n hx] at h1; cases h1

theorem WF_nodup (keq : K → K → Bool) (hk : KeyEquiv keq) (h : Heap K V) (t : Table)
    (hw : t.WF keq h) : t.ptrs.Nodup := by
  refine hw.uniq.imp_of_mem ?_
  intro a b ha _ hab hne
  obtain ⟨n, hn⟩ := hw.live a ha
  have := hab n.first n.first (keyOf_of_get hn) (hne ▸ keyOf_of_get hn)
  rw [hk.refl] at this
  cases this

theorem size_le_of_keys_subset (keq : K → K → Bool) (hk : KeyEquiv keq) (h : Heap K V)
    (t1 t2 : Table) (hw1 : t1.WF keq h) (hw2 : t2.WF keq h)
    (hsub : ∀ a ∈ t1.ptrs, t2.hasKeyAt keq h a) : t1.ptrs.length ≤ t2.ptrs.length := by
  have hex : ∀ a ∈ t1.ptrs, ∃ q ∈ t2.ptrs, ∃ ka kq, h.keyOf a = some ka ∧ h.keyOf q = some kq ∧
      keq ka kq = true := by
    intro a ha
    obtain ⟨ka, hka, q, hq, kq, hkq, hkeq⟩ := hsub a ha
    exact ⟨q, hq, ka, kq, hka, hkq, hkeq⟩
  let f : Addr → Addr := fun a =>
    match h.keyOf a with
    | some ka => (t2.nodeAddr keq h ka).getD 0
    | none => 0
  have hf : ∀ a ∈ t1.ptrs, f a ∈ t2.ptrs ∧ ∃ ka kq, h.keyOf a = some ka ∧
      h.keyOf (f a) = some kq ∧ keq ka kq = true := by
    intro a ha
    obtain ⟨q, hq, ka, kq, hka, hkq, hkeq⟩ := hex a ha
    have hna : t2.nodeAddr keq h ka = some q :=
      (nodeAddr_eq_some_iff keq hk h t2 hw2 ka q).mpr ⟨hq, kq, hkq, hkeq⟩
    have hfa : f a = q := by
      show (match h.keyOf a with
        | some ka => (t2.nodeAddr keq h ka).getD 0
        | none => 0) = q
      rw [hka]
      simp only [hna, Option.getD_some]
    rw [hfa]
    exact ⟨hq, ka, kq, hka, hkq, hkeq⟩
  have hinj : ∀ a ∈ t1.ptrs, ∀ b ∈ t1.ptrs, f a = f b → a = b := by
    intro a ha b hb hfab
    obtain ⟨_, ka, kq, hka, hkq, hkeq⟩ := hf a ha
    obtain ⟨_, kb, kq2, hkb, hkq2, hkeq2⟩ := hf b hb
    rw [← hfab, hkq] at hkq2
    cases hkq2
    by_contra hab
    have hsym : Symmetric (keysDiffer keq h) := fun _ _ hxy => keysDiffer_symm keq hk h hxy
    have := hw1.uniq.forall hsym ha hb hab ka kb hka hkb
    rw [hk.trans ka kq kb hkeq (hk.symm kb kq hkeq2)] at this
    cases this
  have hnd : (t1.ptrs.map f).Nodup := List.Nodup.map_on hinj (WF_nodup keq hk h t1 hw1)
  have hss : t1.ptrs.map f ⊆ t2.ptrs := by
    intro q hq
    obtain ⟨a, ha, rfl⟩ := List.mem_map.mp hq
    exact (hf a ha).1
  have := (List.subperm_of_subset hnd hss).length_le
  simpa using this

end ClaimC10
section ClaimC10b

variable {K V : Type}

theorem WF_new (keq : K → K → Bool) (h : Heap K V) :
    unordered_node_map.new.table_.WF keq h :=
  ⟨fun _ ha => (by cases ha), List.Pairwise.nil, rfl⟩

theorem from_range_spec (keq : K → K → Bool) (hk : KeyEquiv keq) (h : Heap K V)
    (xs : List (K × V)) :
    h.nodesPreserved (unordered_node_map.from_range keq h xs).1 ∧
    (unordered_node_map.from_range keq h xs).2.table_.WF keq
      (unordered_node_map.from_range keq h xs).1 ∧
    (∀ p ∈ xs, (unordered_node_map.from_range keq h xs).2.table_.hasKey keq
      (unordered_node_map.from_range keq h xs).1 p.1) ∧
    (∀ a ∈ (unordered_node_map.from_range keq h xs).2.table_.ptrs,
      ∃ p ∈ xs, (unordered_node_map.from_range keq h xs).1.get a = some (Node.mk p.1 p.2)) := by
  obtain ⟨s1, _, s3⟩ := insert_range_spec keq hk xs h unordered_node_map.new
  refine ⟨s1, s3 (WF_new keq h), insert_range_hasKey keq hk xs h _ (WF_new keq h), ?_⟩
  intro a ha
  rcases insert_range_origin keq hk xs h unordered_node_map.new a ha with h1 | ⟨_, p, hp, hg⟩
  · cases h1
  · exact ⟨p, hp, hg⟩

/-- C10 (amended). Two distinct containers built by range insertion from a
list of key-value pairs and from a permutation of it compare equal under
`operator==`, provided any two pairs of the list whose keys are equal under
the key equality compare equal as pairs (so no key occurs in the list with two
different values). -/
theorem C10_equality_insertion_order [BEq K] [BEq V] (keq : K → K → Bool) (hk : KeyEquiv keq)
    (h0 : Heap K V) (lhs_this rhs_this : Nat) (hne : lhs_this ≠ rhs_this)
    (xs ys : List (K × V)) (hperm : xs.Perm ys)
    (hval : ∀ p ∈ xs, ∀ q ∈ xs, keq p.1 q.1 = true → (p.1 == q.1 && p.2 == q.2) = true) :
    unordered_node_map.operator_eq keq
      (unordered_node_map.from_range keq (unordered_node_map.from_range keq h0 xs).1 ys).1
      lhs_this rhs_this
      (unordered_node_map.from_range keq h0 xs).2
      (unordered_node_map.from_range keq (unordered_node_map.from_range keq h0 xs).1 ys).2
      = true := by
  obtain ⟨_, a2, a3, a4⟩ := from_range_spec keq hk h0 xs
  obtain ⟨b1, b2, b3, b4⟩ :=
    from_range_spec keq hk (unordered_node_map.from_range keq h0 xs).1 ys
  have hkeys := keysPreserved_of_nodesPreserved b1
  have hw1 := WF_of_keysPreserved keq _ a2 hkeys
  -- every Node of the first container holds a pair of the list, also in the final memory
  have a4' : ∀ a ∈ (unordered_node_map.from_range keq h0 xs).2.table_.ptrs,
      ∃ p ∈ xs, (unordered_node_map.from_range keq
        (unordered_node_map.from_range keq h0 xs).1 ys).1.get a = some (Node.mk p.1 p.2) := by
    intro a ha
    obtain ⟨p, hp, hg⟩ := a4 a ha
    exact ⟨p, hp, b1 a _ hg⟩
  have a3' : ∀ p ∈ xs, (unordered_node_map.from_range keq h0 xs).2.table_.hasKey keq
      (unordered_node_map.from_range keq (unordered_node_map.from_range keq h0 xs).1 ys).1 p.1 :=
    fun p hp => hasKey_mono keq _ _ _ _ p.1 (a3 p hp) (fun _ ha => ha) hkeys
  rw [operator_eq_iff keq hk _ lhs_this rhs_this _ _ hne b2]
  constructor
  · have le1 := size_le_of_keys_subset keq hk _ _ _ hw1 b2 (by
      intro a ha
      obtain ⟨p, hp, hg⟩ := a4' a ha
      exact ⟨p.1, keyOf_of_get hg, b3 p (hperm.mem_iff.mp hp)⟩)
    have le2 := size_le_of_keys_subset keq hk _ _ _ b2 hw1 (by
      intro a ha
      obtain ⟨p, hp, hg⟩ := b4 a ha
      exact ⟨p.1, keyOf_of_get hg, a3' p (hperm.mem_iff.mpr hp)⟩)
    unfold unordered_node_map.size Table.size
    rw [hw1.size_eq, b2.size_eq]
    omega
  · intro kvp hkvp
    obtain ⟨a, ha, hga⟩ := (mem_elements_iff _ _ kvp).mp hkvp
    obtain ⟨p, hp, hgp⟩ := a4' a ha
    rw [hga] at hgp
    cases hgp
    obtain ⟨b, hb, kb, hkb, hkeq⟩ := b3 p (hperm.mem_iff.mp hp)
    obtain ⟨q, hq, hgq⟩ := b4 b hb
    rw [keyOf_of_get hgq] at hkb
    cases hkb
    refine ⟨Node.mk q.1 q.2, (mem_elements_iff _ _ _).mpr ⟨b, hb, hgq⟩, hkeq, ?_⟩
    exact hval q (hperm.mem_iff.mpr hq) p hp (hk.symm _ _ hkeq)

/-- Witness of C10 (amended): the lists `[(1, 10), (2, 20), (3, 30)]` and
`[(3, 30), (1, 10), (2, 20)]`. -/
theorem C10_equality_insertion_order_witness :
    KeyEquiv Example.keqNat ∧ (0 : Nat) ≠ 1 ∧
    [((1 : Nat), (10 : Nat)), (2, 20), (3, 30)].Perm [(3, 30), (1, 10), (2, 20)] ∧
    unordered_node_map.operator_eq Example.keqNat
      (unordered_node_map.from_range Example.keqNat
        (unordered_node_map.from_range Example.keqNat (Heap.empty : Heap Nat Nat)
          [(1, 10), (2, 20), (3, 30)]).1 [(3, 30), (1, 10), (2, 20)]).1
      0 1
      (unordered_node_map.from_range Example.keqNat (Heap.empty : Heap Nat Nat)
        [(1, 10), (2, 20), (3, 30)]).2
      (unordered_node_map.from_range Example.keqNat
        (unordered_node_map.from_range Example.keqNat (Heap.empty : Heap Nat Nat)
          [(1, 10), (2, 20), (3, 30)]).1 [(3, 30), (1, 10), (2, 20)]).2
      = true :=
  ⟨keqNat_equiv, by decide, by decide,
    C10_equality_insertion_order Example.keqNat keqNat_equiv (Heap.empty : Heap Nat Nat) 0 1
      (by decide) [(1, 10), (2, 20), (3, 30)] [(3, 30), (1, 10), (2, 20)] (by decide)
      (by decide)⟩

/-- Counterexample to C10 as stated: the list `[(1, 0), (1, 1)]` and its
permutation `[(1, 1), (1, 0)]` build the containers `{1:0}` and `{1:1}`, two
distinct objects of equal size that do not compare equal. -/
theorem C10_counterexample :
    [((1 : Nat), (0 : Nat)), (1, 1)].Perm [(1, 1), (1, 0)] ∧
    ((unordered_node_map.from_range Example.keqNat (Heap.empty : Heap Nat Nat)
        [(1, 0), (1, 1)]).2.elements
      (unordered_node_map.from_range Example.keqNat (Heap.empty : Heap Nat Nat)
        [(1, 0), (1, 1)]).1).map (fun n => (n.first, n.second)) = [(1, 0)] ∧
    unordered_node_map.operator_eq Example.keqNat
      (unordered_node_map.from_range Example.keqNat
        (unordered_node_map.from_range Example.keqNat (Heap.empty : Heap Nat Nat)
          [(1, 0), (1, 1)]).1 [(1, 1), (1, 0)]).1
      0 1
      (unordered_node_map.from_range Example.keqNat (Heap.empty : Heap Nat Nat)
        [(1, 0), (1, 1)]).2
      (unordered_node_map.from_range Example.keqNat
        (unordered_node_map.from_range Example.keqNat (Heap.empty : Heap Nat Nat)
          [(1, 0), (1, 1)]).1 [(1, 1), (1, 0)]).2
      = false :=
  ⟨by decide, by decide, by decide⟩

end ClaimC10b
section AdaptorClaims

variable {K V : Type}

theorem cellAt_filter_ne (cells : List (Addr × Option (Node K V))) (p a : Addr) :
    cellAt (cells.filter (fun c => decide (c.1 ≠ p))) a
      = if a = p then none else cellAt cells a := by
  induction cells with
  | nil => simp [cellAt]
  | cons d ds ih =>
    by_cases hd : d.1 = p
    · have hf : (d :: ds).filter (fun c => decide (c.1 ≠ p)) = ds.filter (fun c => decide (c.1 ≠ p)) := by
        simp [List.filter_cons, hd]
      rw [hf, ih]
      by_cases ha : a = p
      · simp [ha]
      · have : ¬ d.1 = a := fun e => ha (e ▸ hd)
        simp [ha, cellAt, this]
    · have hf : (d :: ds).filter (fun c => decide (c.1 ≠ p))
          = d :: ds.filter (fun c => decide (c.1 ≠ p)) := by
        simp [List.filter_cons, hd]
      rw [hf]
      simp only [cellAt, ih]
      by_cases hda : d.1 = a
      · have : ¬ a = p := fun e => hd (hda.trans e)
        simp [hda, this]
      · simp [hda]

theorem get_destroy (al : Heap K V) (a b : Addr) :
    (destroy al (some a)).get b = if b = a then none else al.get b := by
  unfold destroy Heap.deallocate Heap.destroy_at Heap.get
  simp only [cellAt_filter_ne]
  by_cases hb : b = a
  · simp [hb]
  · rw [if_neg hb, cellAt_map_update al.cells a b (fun _ => none) rfl, if_neg hb]

theorem live_destroy (al : Heap K V) (a : Addr) :
    (destroy al (some a)).live = al.live.filter (fun b => decide (b ≠ a)) := by
  unfold destroy Heap.deallocate Heap.destroy_at Heap.live
  simp only []
  induction al.cells with
  | nil => rfl
  | cons d ds ih =>
    by_cases hd : d.1 = a
    · simp [List.filter_cons, hd] at ih ⊢
      exact ih
    · simp [List.filter_cons, hd] at ih ⊢
      exact ih

theorem filter_ne_fresh (cells : List (Addr × Option (Node K V))) :
    cells.filter (fun c => decide (c.1 ≠ freshAddr cells)) = cells := by
  rw [List.filter_eq_self]
  intro c hc
  simpa using Nat.ne_of_lt (lt_freshAddr cells c hc)

/-- C14. When the Node's constructor fails with `e` inside
`construct(slot, args...)`, the call fails with the same `e`; the allocation
made for the Node (at an address that was not live) has been released, so the
live allocations and their contents are those before the call, with one more
`allocate` and one more `deallocate` counted. -/
theorem C14_construct_failure {ε : Type} (al : Heap K V) (e : ε) :
    (construct al (Except.error e : Except ε (Node K V))).2.2 = Except.error e ∧
    (construct al (Except.error e : Except ε (Node K V))).1.live = al.live ∧
    (construct al (Except.error e : Except ε (Node K V))).1.cells = al.cells ∧
    (construct al (Except.error e : Except ε (Node K V))).1.allocs = al.allocs + 1 ∧
    (construct al (Except.error e : Except ε (Node K V))).1.frees = al.frees + 1 ∧
    al.allocate.1 ∉ al.live ∧ al.allocate.2.live = al.allocate.1 :: al.live := by
  have hc : (construct al (Except.error e : Except ε (Node K V))).1.cells = al.cells := by
    simp only [construct, Heap.allocate, Heap.deallocate]
    have hhead : ((freshAddr al.cells, (none : Option (Node K V))) :: al.cells).filter
        (fun c => decide (c.1 ≠ freshAddr al.cells))
        = al.cells.filter (fun c => decide (c.1 ≠ freshAddr al.cells)) := by
      simp [List.filter_cons]
    rw [hhead, filter_ne_fresh]
  refine ⟨rfl, ?_, hc, rfl, rfl, ?_, rfl⟩
  · unfold Heap.live; rw [hc]
  · intro hmem
    obtain ⟨c, hc1, hc2⟩ := List.mem_map.mp hmem
    exact Nat.ne_of_lt (lt_freshAddr al.cells c hc1) hc2

/-- C15. `construct(p, std::move(x))` with the source `x` holding the pointer
`q` leaves the destination holding `q` and the source holding null, whatever
the destination held; the allocator memory is the same afterwards (nothing
allocated or deallocated, the Node at `q` and every other Node untouched), and
`map_types::move` hands the slot on unchanged. -/
theorem C15_construct_move (al : Heap K V) (p : Option Addr) (q : Addr) :
    (construct_move_call al p (map_types.move (some q))).2.1 = some q ∧
    (construct_move_call al p (map_types.move (some q))).2.2 = none ∧
    (construct_move_call al p (map_types.move (some q))).1 = al ∧
    (construct_move_call al p (map_types.move (some q))).1.get q = al.get q ∧
    (construct_move_call al p (map_types.move (some q))).1.allocs = al.allocs ∧
    (construct_move_call al p (map_types.move (some q))).1.frees = al.frees ∧
    (construct_move_call al p (map_types.move (some q))).1.live = al.live ∧
    construct_move (some q) = (some q, none) :=
  ⟨rfl, rfl, rfl, rfl, rfl, rfl, rfl, rfl⟩

theorem mem_live_of_get {al : Heap K V} {a : Addr} {n : Node K V} (hn : al.get a = some n) :
    a ∈ al.live := by
  by_contra hno
  have : al.get a = none := by
    apply cellAt_eq_none_of_not_mem
    intro c hc hca
    exact hno (List.mem_map.mpr ⟨c, hc, hca⟩)
  rw [this] at hn
  cases hn

theorem construct_error_cells {ε : Type} (al : Heap K V) (e : ε) :
    (construct al (Except.error e : Except ε (Node K V))).1.cells = al.cells := by
  simp only [construct, Heap.allocate, Heap.deallocate]
  have hhead : ((freshAddr al.cells, (none : Option (Node K V))) :: al.cells).filter
      (fun c => decide (c.1 ≠ freshAddr al.cells))
      = al.cells.filter (fun c => decide (c.1 ≠ freshAddr al.cells)) := by
    simp [List.filter_cons]
  rw [hhead, filter_ne_fresh]

/-- C16. With the source slot pointing at the Node `n` at address `a`, and
the Node's copy constructor `copy`: when copying `n` succeeds with a Node
equal to `n`, the copy form `construct(p, x)` returns normally, allocates
exactly one Node at an address `b` that was not live (so `b` differs from
`a`), constructs there a Node equal to `n` (key and mapped value), stores `b`
in the destination and leaves `n` at `a` and every other Node as it was; the
source slot is read only, and the destination and the source refer to
different Nodes. When copying `n` throws `e`, the call throws `e` and no Node
is made: the memory allocated for it is released, so the live allocations and
every Node are as before the call, `n` at `a` included. -/
theorem C16_construct_copy {ε : Type} (copy : Node K V → Except ε (Node K V)) (al : Heap K V)
    (p : Option Addr) (a : Addr) (n : Node K V) (hn : al.get a = some n) :
    (copy n = Except.ok n →
      (construct_copy copy al p (some a)).2.2 = Except.ok () ∧
      ∃ b, (construct_copy copy al p (some a)).2.1 = some b ∧ b ≠ a ∧ b ∉ al.live ∧
        (construct_copy copy al p (some a)).1.get b = some n ∧
        (construct_copy copy al p (some a)).1.get a = some n ∧
        (∀ c, c ≠ b → (construct_copy copy al p (some a)).1.get c = al.get c) ∧
        (construct_copy copy al p (some a)).1.live = b :: al.live ∧
        (construct_copy copy al p (some a)).1.allocs = al.allocs + 1 ∧
        (construct_copy copy al p (some a)).1.frees = al.frees) ∧
    (∀ e, copy n = Except.error e →
      (construct_copy copy al p (some a)).2.2 = Except.error e ∧
      (construct_copy copy al p (some a)).1.cells = al.cells ∧
      (construct_copy copy al p (some a)).1.live = al.live ∧
      (∀ c, (construct_copy copy al p (some a)).1.get c = al.get c) ∧
      (construct_copy copy al p (some a)).1.get a = some n ∧
      (construct_copy copy al p (some a)).1.allocs = al.allocs + 1 ∧
      (construct_copy copy al p (some a)).1.frees = al.frees + 1) := by
  have e0 : construct_copy copy al p (some a) = construct al (copy n) := by
    unfold construct_copy
    simp only [hn]
  have hfresh : freshAddr al.cells ∉ al.live := by
    intro hmem
    obtain ⟨c, hc1, hc2⟩ := List.mem_map.mp hmem
    exact Nat.ne_of_lt (lt_freshAddr al.cells c hc1) hc2
  have hne : freshAddr al.cells ≠ a := fun h => hfresh (h ▸ mem_live_of_get hn)
  constructor
  · intro hc
    have e1 : (construct al (Except.ok n : Except ε (Node K V))).1
        = (construct al (Except.ok n : Except Unit (Node K V))).1 := rfl
    rw [e0, hc]
    refine ⟨rfl, freshAddr al.cells, rfl, hne, hfresh, ?_, ?_, ?_, ?_, rfl, rfl⟩
    · rw [e1, get_construct_ok, if_pos rfl]
    · rw [e1, get_construct_ok, if_neg (fun h => hne h.symm)]
      exact hn
    · intro c hc
      rw [e1, get_construct_ok, if_neg hc]
    · simp only [construct, Heap.allocate, Heap.construct_at, Heap.live, List.map_cons,
        List.map_map, if_true]
      congr 1
      apply List.map_congr_left
      intro c _
      simp only [Function.comp]
      split <;> rfl
  · intro e he
    have hcells := construct_error_cells al e
    rw [e0, he]
    refine ⟨rfl, hcells, ?_, ?_, ?_, rfl, rfl⟩
    · unfold Heap.live; rw [hcells]
    · intro c; unfold Heap.get; rw [hcells]
    · unfold Heap.get; rw [hcells]; exact hn

/-- Witness of C16: copying the slot of key 1 of `A = {1:"a", 2:"b"}` with a
copy constructor that copies. -/
theorem C16_construct_copy_witness :
    Example.world.heap.get 1 = some (Node.mk 1 "a") ∧
    (construct_copy (fun n => (Except.ok n : Except Unit (Node Nat String)))
      Example.world.heap none (some 1)).2.2 = Except.ok () :=
  ⟨by decide,
    ((C16_construct_copy (fun n => (Except.ok n : Except Unit (Node Nat String)))
      Example.world.heap none 1 (Node.mk 1 "a") (by decide)).1 rfl).1⟩

/-- Counterexample to C16 read without a condition on the copy: the source
slot points at the Node of key 1 of `A = {1:"a", 2:"b"}` and the Node's copy
constructor throws. The call throws, the live allocations are those before
the call, and the address it left in the destination holds no Node. -/
theorem C16_counterexample :
    Example.world.heap.get 1 = some (Node.mk 1 "a") ∧
    (construct_copy (fun _ => (Except.error () : Except Unit (Node Nat String)))
      Example.world.heap none (some 1)).2.2 = Except.error () ∧
    (construct_copy (fun _ => (Except.error () : Except Unit (Node Nat String)))
      Example.world.heap none (some 1)).1.live = Example.world.heap.live ∧
    (construct_copy (fun _ => (Except.error () : Except Unit (Node Nat String)))
      Example.world.heap none (some 1)).1.cells = Example.world.heap.cells ∧
    ((construct_copy (fun _ => (Except.error () : Except Unit (Node Nat String)))
      Example.world.heap none (some 1)).2.1.bind
        (construct_copy (fun _ => (Except.error () : Except Unit (Node Nat String)))
          Example.world.heap none (some 1)).1.get) = none :=
  ⟨by decide, rfl, by decide, by decide, by decide⟩

/-- C18. For indirection allocators `a` and `x`, `a == x` is the result of
`operator==` on their wrapped allocators and `a != x` the result of
`operator!=` on their wrapped allocators. -/
theorem C18_adaptor_equality {Allocator Allocator2 : Type} (aeq ane : Allocator → Allocator2 → Bool)
    (a : ptr_allocator_adaptor Allocator) (x : ptr_allocator_adaptor Allocator2) :
    (ptr_allocator_adaptor.operator_eq aeq a x = true ↔ aeq a.al x.al = true) ∧
    (ptr_allocator_adaptor.operator_ne ane a x = true ↔ ane a.al x.al = true) :=
  ⟨Iff.rfl, Iff.rfl⟩

/-- C19. The setter `max_load_factor(f)` returns normally and changes nothing:
the allocator memory, the container, its elements, `size()`, `bucket_count()`
and the value of the getter `max_load_factor()` are the same after the call. -/
theorem C19_max_load_factor_setter {F : Type} (h : Heap K V) (m : unordered_node_map) (f : F)
    (mlf : F) :
    (unordered_node_map.set_max_load_factor h m f).1 = h ∧
    (unordered_node_map.set_max_load_factor h m f).2 = m ∧
    (unordered_node_map.set_max_load_factor h m f).2.elements
        (unordered_node_map.set_max_load_factor h m f).1 = m.elements h ∧
    (unordered_node_map.set_max_load_factor h m f).2.size = m.size ∧
    (unordered_node_map.set_max_load_factor h m f).2.bucket_count = m.bucket_count ∧
    (unordered_node_map.set_max_load_factor h m f).2.max_load_factor mlf
      = m.max_load_factor mlf :=
  ⟨rfl, rfl, rfl, rfl, rfl, rfl⟩

end AdaptorClaims
section ClaimC11

variable {K V : Type}

theorem lt_next (m : unordered_node_map) (pos : Nat) : pos < m.next pos := by
  unfold unordered_node_map.next
  omega

/-- C11. `equal_range(k)` is `(end(), end())`, a range without elements, when
`k` is absent. When `k` is present it is `(find(k), next(find(k)))`, and the
loop over that range visits exactly one element, the Node `find(k)` refers to,
whose key equals `k`. In both cases the range is valid and holds at most one
element. -/
theorem C11_equal_range (keq : K → K → Bool) (h : Heap K V) (m : unordered_node_map) (k : K) :
    (m.contains keq h k = false →
      m.equal_range keq h k = (m.end_, m.end_) ∧
      ∀ fuel, m.walk_range fuel (m.equal_range keq h k).1 (m.equal_range keq h k).2 = []) ∧
    (m.contains keq h k = true →
      m.equal_range keq h k = (m.find keq h k, m.next (m.find keq h k)) ∧
      ∃ p n, m.node_ptr (m.find keq h k) = some p ∧ h.get p = some n ∧
        keq k n.first = true ∧
        ∀ fuel, 0 < fuel →
          m.walk_range fuel (m.equal_range keq h k).1 (m.equal_range keq h k).2 = [p]) ∧
    m.reaches 1 (m.equal_range keq h k).1 (m.equal_range keq h k).2 = true ∧
    (∀ fuel,
      (m.walk_range fuel (m.equal_range keq h k).1 (m.equal_range keq h k).2).length ≤ 1) := by
  by_cases hpos : m.table_.find keq h k = m.table_.end_
  · have hc : m.contains keq h k = false := by
      simp [unordered_node_map.contains, unordered_node_map.find, unordered_node_map.end_, hpos]
    have he : m.equal_range keq h k = (m.end_, m.end_) := by
      unfold unordered_node_map.equal_range unordered_node_map.end_
      simp only [hpos, if_true]
    have hw : ∀ fuel, m.walk_range fuel m.end_ m.end_ = [] := by
      intro fuel
      cases fuel <;> simp [unordered_node_map.walk_range]
    rw [he]
    refine ⟨fun _ => ⟨rfl, hw⟩, fun hct => ?_, ?_, ?_⟩
    · rw [hc] at hct; cases hct
    · simp [unordered_node_map.reaches]
    · intro fuel; rw [hw]; exact Nat.zero_le _
  · have hc : m.contains keq h k = true := by
      simp [unordered_node_map.contains, unordered_node_map.find, unordered_node_map.end_, hpos]
    have he : m.equal_range keq h k = (m.find keq h k, m.next (m.find keq h k)) := by
      unfold unordered_node_map.equal_range unordered_node_map.find
      simp only [if_neg hpos]
    obtain ⟨p, hp, _, kp, hkp, hkeq⟩ := deref_find keq h m.table_ k hpos
    have hptr : m.node_ptr (m.find keq h k) = some p := hp
    have hne : m.find keq h k ≠ m.next (m.find keq h k) :=
      Nat.ne_of_lt (lt_next m _)
    have hw : ∀ fuel, 0 < fuel →
        m.walk_range fuel (m.find keq h k) (m.next (m.find keq h k)) = [p] := by
      intro fuel hf
      cases fuel with
      | zero => omega
      | succ fuel =>
        unfold unordered_node_map.walk_range
        rw [if_pos hne, hptr]
        cases fuel <;> simp [unordered_node_map.walk_range]
    rw [he]
    refine ⟨fun hcf => ?_, fun _ => ⟨rfl, ?_⟩, ?_, ?_⟩
    · rw [hc] at hcf; cases hcf
    · unfold Heap.keyOf at hkp
      cases hg : h.get p with
      | none => rw [hg] at hkp; cases hkp
      | some n =>
        rw [hg] at hkp
        simp only [Option.map_some', Option.some.injEq] at hkp
        exact ⟨p, n, hptr, hg, by rw [hkp]; exact hkeq, hw⟩
    · simp [unordered_node_map.reaches, hptr]
    · intro fuel
      cases fuel with
      | zero => simp [unordered_node_map.walk_range]
      | succ fuel => rw [hw _ (Nat.succ_pos _)]; exact Nat.le_refl _

end ClaimC11
section ClaimC13

variable {K V : Type}

theorem keeps_destroy_of_ne (pred : Node K V → Bool) (h : Heap K V) (a b : Addr) (hb : b ≠ a) :
    keeps pred (destroy h (some a)) b = keeps pred h b := by
  unfold keeps
  rw [get_destroy, if_neg hb]

theorem erase_if_slots_spec (pred : Node K V → Bool) (l : List (Option Addr)) :
    ∀ h : Heap K V, (l.filterMap id).Nodup →
      (Table.erase_if_slots pred h l).2.2.filterMap id = (l.filterMap id).filter (keeps pred h) ∧
      (∀ b, b ∈ l.filterMap id → keeps pred h b = false →
        (Table.erase_if_slots pred h l).2.1.get b = none ∧
        b ∉ (Table.erase_if_slots pred h l).2.1.live) ∧
      (∀ b, (b ∈ l.filterMap id → keeps pred h b = true) →
        (Table.erase_if_slots pred h l).2.1.get b = h.get b) ∧
      (∀ b, b ∈ (Table.erase_if_slots pred h l).2.1.live → b ∈ h.live) ∧
      (Table.erase_if_slots pred h l).1
          + ((Table.erase_if_slots pred h l).2.2.filterMap id).length
        = (l.filterMap id).length ∧
      (Table.erase_if_slots pred h l).2.1.frees = h.frees + (Table.erase_if_slots pred h l).1 ∧
      (Table.erase_if_slots pred h l).2.1.allocs = h.allocs ∧
      (Table.erase_if_slots pred h l).2.2.length = l.length := by
  induction l with
  | nil =>
    intro h _
    simp [Table.erase_if_slots]
  | cons s rest ih =>
    intro h hnd
    cases s with
    | none =>
      have e : (none :: rest).filterMap id = rest.filterMap id := rfl
      rw [e] at hnd ⊢
      obtain ⟨i1, i2, i3, i4, i5, i6, i7, i8⟩ := ih h hnd
      have er : Table.erase_if_slots pred h (none :: rest)
          = ((Table.erase_if_slots pred h rest).1, (Table.erase_if_slots pred h rest).2.1,
              none :: (Table.erase_if_slots pred h rest).2.2) := rfl
      rw [er]
      exact ⟨i1, i2, i3, i4, i5, i6, i7, by simp [i8]⟩
    | some a =>
      have e : (some a :: rest).filterMap id = a :: rest.filterMap id := rfl
      rw [e] at hnd ⊢
      obtain ⟨hna, hnd'⟩ := List.nodup_cons.mp hnd
      have hne : ∀ b ∈ rest.filterMap id, b ≠ a := fun b hb hba => hna (hba ▸ hb)
      by_cases hk : keeps pred h a = true
      · -- the element stays
        have er : Table.erase_if_slots pred h (some a :: rest)
            = ((Table.erase_if_slots pred h rest).1, (Table.erase_if_slots pred h rest).2.1,
                some a :: (Table.erase_if_slots pred h rest).2.2) := by
          unfold keeps at hk
          cases hg : h.get a with
          | none => simp only [Table.erase_if_slots, hg]
          | some n =>
            rw [hg] at hk
            have hp : pred n = false := by simpa using hk
            simp [Table.erase_if_slots, hg, hp]
        obtain ⟨i1, i2, i3, i4, i5, i6, i7, i8⟩ := ih h hnd'
        rw [er]
        have e2 : (some a :: (Table.erase_if_slots pred h rest).2.2).filterMap id
            = a :: (Table.erase_if_slots pred h rest).2.2.filterMap id := rfl
        simp only [e2]
        refine ⟨?_, ?_, ?_, i4, ?_, i6, i7, by simp [i8]⟩
        · rw [List.filter_cons_of_pos hk, i1]
        · intro b hb hkb
          rcases List.mem_cons.mp hb with rfl | hb
          · rw [hk] at hkb; cases hkb
          · exact i2 b hb hkb
        · intro b hb
          exact i3 b (fun hm => hb (List.mem_cons_of_mem _ hm))
        · simp only [List.length_cons]; omega
      · -- the element is erased
        have hkf : keeps pred h a = false := by
          cases hx : keeps pred h a
          · rfl
          · exact absurd hx hk
        obtain ⟨n, hg, hp⟩ : ∃ n, h.get a = some n ∧ pred n = true := by
          unfold keeps at hkf
          cases hg : h.get a with
          | none => rw [hg] at hkf; cases hkf
          | some n => rw [hg] at hkf; exact ⟨n, rfl, by simpa using hkf⟩
        have er : Table.erase_if_slots pred h (some a :: rest)
            = ((Table.erase_if_slots pred (destroy h (some a)) rest).1 + 1,
                (Table.erase_if_slots pred (destroy h (some a)) rest).2.1,
                none :: (Table.erase_if_slots pred (destroy h (some a)) rest).2.2) := by
          simp [Table.erase_if_slots, hg, hp]
        obtain ⟨i1, i2, i3, i4, i5, i6, i7, i8⟩ := ih (destroy h (some a)) hnd'
        rw [er]
        have e2 : ∀ l2 : List (Option Addr), (none :: l2).filterMap id = l2.filterMap id :=
          fun _ => rfl
        simp only [e2]
        have hkeq : ∀ b ∈ rest.filterMap id, keeps pred (destroy h (some a)) b = keeps pred h b :=
          fun b hb => keeps_destroy_of_ne pred h a b (hne b hb)
        have ha1 : (destroy h (some a)).get a = none := by rw [get_destroy, if_pos rfl]
        refine ⟨?_, ?_, ?_, ?_, ?_, ?_, i7, by simp [i8]⟩
        · rw [List.filter_cons_of_neg hk, i1]
          exact List.filter_congr hkeq
        · intro b hb hkb
          rcases List.mem_cons.mp hb with rfl | hb
          · constructor
            · rw [i3 b (fun hm => absurd hm hna)]
              exact ha1
            · intro hl
              have := i4 b hl
              rw [live_destroy] at this
              simp at this
          · exact i2 b hb (by rw [hkeq b hb]; exact hkb)
        · intro b hb
          have hba : b ≠ a := by
            rintro rfl
            have := hb (List.mem_cons_self _ _)
            rw [hkf] at this
            cases this
          rw [i3 b (fun hm => by rw [hkeq b hm]; exact hb (List.mem_cons_of_mem _ hm))]
          rw [get_destroy, if_neg hba]
        · intro b hb
          have := i4 b hb
          rw [live_destroy] at this
          exact (List.mem_filter.mp this).1
        · simp only [List.length_cons]; omega
        · rw [i6]
          show h.frees + 1 + _ = _
          omega

theorem filterMap_filter_keeps (pred : Node K V → Bool) (h : Heap K V) (l : List Addr) :
    (l.filter (keeps pred h)).filterMap h.get
      = (l.filterMap h.get).filter (fun n => !pred n) := by
  induction l with
  | nil => rfl
  | cons a rest ih =>
    cases hg : h.get a with
    | none =>
      have hk : keeps pred h a = true := by unfold keeps; rw [hg]
      rw [List.filter_cons_of_pos hk, List.filterMap_cons_none hg, List.filterMap_cons_none hg, ih]
    | some n =>
      rw [List.filterMap_cons_some hg]
      by_cases hp : pred n = true
      · have hk : ¬ keeps pred h a = true := by unfold keeps; rw [hg]; simp [hp]
        rw [List.filter_cons_of_neg hk, ih]
        simp [List.filter_cons, hp]
      · have hk : keeps pred h a = true := by unfold keeps; rw [hg]; simpa using hp
        rw [List.filter_cons_of_pos hk, List.filterMap_cons_some hg, ih]
        simp [List.filter_cons, hp]

theorem length_filter_add (pred : Node K V → Bool) (l : List (Node K V)) :
    (l.filter pred).length + (l.filter (fun n => !pred n)).length = l.length := by
  induction l with
  | nil => rfl
  | cons n rest ih =>
    by_cases hp : pred n = true
    · simp [List.filter_cons, hp]; omega
    · simp [List.filter_cons, hp]; omega

end ClaimC13
section ClaimC13b

variable {K V : Type}

theorem filterMap_congr_mem {α β : Type} (f g : α → Option β) (l : List α)
    (hfg : ∀ x ∈ l, f x = g x) : l.filterMap f = l.filterMap g := by
  induction l with
  | nil => rfl
  | cons x xs ih =>
    have hx := hfg x (List.mem_cons_self _ _)
    have ih' := ih (fun y hy => hfg y (List.mem_cons_of_mem _ hy))
    cases hg : g x with
    | none => rw [List.filterMap_cons_none (hx.trans hg), List.filterMap_cons_none hg, ih']
    | some b => rw [List.filterMap_cons_some (hx.trans hg), List.filterMap_cons_some hg, ih']

theorem length_filterMap_of_live {α β : Type} (f : α → Option β) (l : List α)
    (hl : ∀ x ∈ l, ∃ b, f x = some b) : (l.filterMap f).length = l.length := by
  induction l with
  | nil => rfl
  | cons x xs ih =>
    obtain ⟨b, hb⟩ := hl x (List.mem_cons_self _ _)
    rw [List.filterMap_cons_some hb, List.length_cons, List.length_cons,
      ih (fun y hy => hl y (List.mem_cons_of_mem _ hy))]

/-- C13. On a well-formed container, `erase_if(m, pred)` leaves exactly the
elements for which `pred` does not hold, in their order: each of them stays
in its Node, at its address and with its contents; the Node of every element
for which `pred` holds is destroyed and freed; the value returned is the
number of elements for which `pred` held, `size()` drops by that number, and
the container stays well-formed. -/
theorem C13_erase_if (keq : K → K → Bool) (hk : KeyEquiv keq) (pred : Node K V → Bool)
    (h : Heap K V) (m : unordered_node_map) (hw : m.table_.WF keq h) :
    (m.erase_if pred h).2.2.elements (m.erase_if pred h).2.1
      = (m.elements h).filter (fun n => !pred n) ∧
    (m.erase_if pred h).2.2.table_.ptrs = m.table_.ptrs.filter (keeps pred h) ∧
    (∀ a ∈ (m.erase_if pred h).2.2.table_.ptrs, (m.erase_if pred h).2.1.get a = h.get a) ∧
    (∀ a ∈ m.table_.ptrs, keeps pred h a = false →
      (m.erase_if pred h).2.1.get a = none ∧ a ∉ (m.erase_if pred h).2.1.live) ∧
    (m.erase_if pred h).1 = ((m.elements h).filter pred).length ∧
    (m.erase_if pred h).2.2.size + (m.erase_if pred h).1 = m.size ∧
    (m.erase_if pred h).2.1.frees = h.frees + (m.erase_if pred h).1 ∧
    (m.erase_if pred h).2.2.table_.WF keq (m.erase_if pred h).2.1 := by
  obtain ⟨s1, s2, s3, _, s5, s6, _, _⟩ :=
    erase_if_slots_spec pred m.table_.slots h (WF_nodup keq hk h m.table_ hw)
  have hptrs : (m.erase_if pred h).2.2.table_.ptrs = m.table_.ptrs.filter (keeps pred h) := s1
  have hkept : ∀ a ∈ (m.erase_if pred h).2.2.table_.ptrs,
      (m.erase_if pred h).2.1.get a = h.get a := by
    intro a ha
    rw [hptrs] at ha
    exact s3 a (fun _ => (List.mem_filter.mp ha).2)
  have hel : (m.erase_if pred h).2.2.elements (m.erase_if pred h).2.1
      = (m.elements h).filter (fun n => !pred n) := by
    unfold unordered_node_map.elements
    rw [filterMap_congr_mem _ h.get _ hkept, hptrs]
    exact filterMap_filter_keeps pred h _
  have hlen1 : (m.elements h).length = m.table_.ptrs.length :=
    length_filterMap_of_live h.get _ hw.live
  have hlen2 : ((m.elements h).filter (fun n => !pred n)).length
      = (m.table_.ptrs.filter (keeps pred h)).length := by
    have e := filterMap_filter_keeps pred h m.table_.ptrs
    unfold unordered_node_map.elements
    rw [← e]
    exact length_filterMap_of_live h.get _
      (fun a ha => hw.live a (List.mem_filter.mp ha).1)
  have hadd := length_filter_add pred (m.elements h)
  have s5' : (m.erase_if pred h).1 + (m.table_.ptrs.filter (keeps pred h)).length
      = m.table_.ptrs.length := by
    have := s5
    rw [s1] at this
    exact this
  have hcount : (m.erase_if pred h).1 = ((m.elements h).filter pred).length := by omega
  refine ⟨hel, hptrs, hkept, s2, hcount, ?_, s6, ?_⟩
  · show m.table_.size_ - (m.erase_if pred h).1 + (m.erase_if pred h).1 = m.table_.size_
    rw [hw.size_eq]
    omega
  · refine ⟨?_, ?_, ?_⟩
    · intro a ha
      rw [hkept a ha]
      rw [hptrs] at ha
      exact hw.live a (List.mem_filter.mp ha).1
    · rw [hptrs]
      have hsub : (m.table_.ptrs.filter (keeps pred h)).Pairwise (keysDiffer keq h) :=
        hw.uniq.sublist (List.filter_sublist _)
      refine hsub.imp_of_mem ?_
      intro a b ha hb hab ka kb hka hkb
      have ea : (m.erase_if pred h).2.1.keyOf a = h.keyOf a := by
        unfold Heap.keyOf; rw [hkept a (hptrs ▸ ha)]
      have eb : (m.erase_if pred h).2.1.keyOf b = h.keyOf b := by
        unfold Heap.keyOf; rw [hkept b (hptrs ▸ hb)]
      exact hab ka kb (ea ▸ hka) (eb ▸ hkb)
    · show m.table_.size_ - (m.erase_if pred h).1 = _
      rw [hptrs, hw.size_eq]
      omega

/-- Witness of C13: removing the elements with an even mapped value from
`{1:2, 2:3, 3:4}` leaves `{2:3}` and returns 2. -/
theorem C13_erase_if_witness :
    KeyEquiv Example.keqNat ∧
    (unordered_node_map.from_range Example.keqNat (Heap.empty : Heap Nat Nat)
        [(1, 2), (2, 3), (3, 4)]).2.table_.WF Example.keqNat
      (unordered_node_map.from_range Example.keqNat (Heap.empty : Heap Nat Nat)
        [(1, 2), (2, 3), (3, 4)]).1 ∧
    ((unordered_node_map.from_range Example.keqNat (Heap.empty : Heap Nat Nat)
        [(1, 2), (2, 3), (3, 4)]).2.elements
      (unordered_node_map.from_range Example.keqNat (Heap.empty : Heap Nat Nat)
        [(1, 2), (2, 3), (3, 4)]).1).filter (fun n => !(n.second % 2 == 0))
      = [Node.mk 2 3] ∧
    ((unordered_node_map.from_range Example.keqNat (Heap.empty : Heap Nat Nat)
        [(1, 2), (2, 3), (3, 4)]).2.erase_if (fun n => n.second % 2 == 0)
      (unordered_node_map.from_range Example.keqNat (Heap.empty : Heap Nat Nat)
        [(1, 2), (2, 3), (3, 4)]).1).1 = 2 ∧
    ((unordered_node_map.from_range Example.keqNat (Heap.empty : Heap Nat Nat)
        [(1, 2), (2, 3), (3, 4)]).2.erase_if (fun n => n.second % 2 == 0)
      (unordered_node_map.from_range Example.keqNat (Heap.empty : Heap Nat Nat)
        [(1, 2), (2, 3), (3, 4)]).1).2.2.elements
      ((unordered_node_map.from_range Example.keqNat (Heap.empty : Heap Nat Nat)
        [(1, 2), (2, 3), (3, 4)]).2.erase_if (fun n => n.second % 2 == 0)
      (unordered_node_map.from_range Example.keqNat (Heap.empty : Heap Nat Nat)
        [(1, 2), (2, 3), (3, 4)]).1).2.1
      = ((unordered_node_map.from_range Example.keqNat (Heap.empty : Heap Nat Nat)
        [(1, 2), (2, 3), (3, 4)]).2.elements
      (unordered_node_map.from_range Example.keqNat (Heap.empty : Heap Nat Nat)
        [(1, 2), (2, 3), (3, 4)]).1).filter (fun n => !(n.second % 2 == 0)) :=
  ⟨keqNat_equiv, (from_range_spec Example.keqNat keqNat_equiv _ _).2.1, by decide, by decide,
    (C13_erase_if Example.keqNat keqNat_equiv (fun n => n.second % 2 == 0) _ _
      (from_range_spec Example.keqNat keqNat_equiv _ _).2.1).1⟩

end ClaimC13b
section ClaimC12

variable {K V : Type}

theorem erase_slot_ptrs (l : List (Option Addr)) :
    ∀ (i : Nat) (a : Addr), l.get? i = some (some a) →
      ∃ P Q, l.filterMap id = P ++ a :: Q ∧ (l.set i none).filterMap id = P ++ Q := by
  induction l with
  | nil => intro i a hg; simp at hg
  | cons s rest ih =>
    intro i a hg
    cases i with
    | zero =>
      have hs : s = some a := by simpa using hg
      subst hs
      exact ⟨[], rest.filterMap id, rfl, rfl⟩
    | succ j =>
      have hg' : rest.get? j = some (some a) := by simpa using hg
      obtain ⟨P, Q, h1, h2⟩ := ih j a hg'
      cases s with
      | none =>
        refine ⟨P, Q, ?_, ?_⟩
        · show rest.filterMap id = _; exact h1
        · show (rest.set j none).filterMap id = _; exact h2
      | some b =>
        refine ⟨b :: P, Q, ?_, ?_⟩
        · show b :: rest.filterMap id = _; rw [h1]; rfl
        · show b :: (rest.set j none).filterMap id = _; rw [h2]; rfl

theorem deref_eq_some_iff (t : Table) (pos : Nat) (a : Addr) :
    t.deref pos = some a ↔ t.slots.get? pos = some (some a) := by
  unfold Table.deref
  cases hg : t.slots.get? pos with
  | none => simp
  | some s => cases s <;> simp

theorem erase_spec (keq : K → K → Bool) (hk : KeyEquiv keq) (h : Heap K V) (t : Table)
    (hw : t.WF keq h) (pos : Nat) (a : Addr) (ha : t.deref pos = some a) :
    t.erase h pos = (destroy h (some a), { slots := t.slots.set pos none, size_ := t.size_ - 1 }) ∧
    (∃ P Q, t.ptrs = P ++ a :: Q ∧ (t.erase h pos).2.ptrs = P ++ Q) ∧
    (t.erase h pos).2.size_ + 1 = t.size_ ∧
    (t.erase h pos).2.WF keq (t.erase h pos).1 := by
  have e : t.erase h pos
      = (destroy h (some a), { slots := t.slots.set pos none, size_ := t.size_ - 1 }) := by
    unfold Table.erase
    simp only [ha]
  obtain ⟨P, Q, hP, hQ⟩ := erase_slot_ptrs t.slots pos a ((deref_eq_some_iff t pos a).mp ha)
  have hP' : t.ptrs = P ++ a :: Q := hP
  have hnd := WF_nodup keq hk h t hw
  rw [hP'] at hnd
  have hnotin : ∀ x ∈ P ++ Q, x ≠ a := by
    intro x hx hxa
    subst hxa
    have h3 := List.nodup_append.mp hnd
    rcases List.mem_append.mp hx with hxP | hxQ
    · exact h3.2.2 hxP (List.mem_cons_self _ _)
    · exact (List.nodup_cons.mp h3.2.1).1 hxQ
  have hsubl : (P ++ Q).Sublist (P ++ a :: Q) :=
    List.Sublist.append_left (List.sublist_cons_self a Q) P
  have hmem : ∀ x ∈ P ++ Q, x ∈ t.ptrs := fun x hx => hP' ▸ hsubl.subset hx
  rw [e]
  refine ⟨rfl, ⟨P, Q, hP', hQ⟩, ?_, ?_⟩
  · show t.size_ - 1 + 1 = t.size_
    rw [hw.size_eq, hP']
    simp only [List.length_append, List.length_cons]
    omega
  · have hget : ∀ x ∈ P ++ Q, (destroy h (some a)).get x = h.get x := by
      intro x hx
      rw [get_destroy, if_neg (hnotin x hx)]
    refine ⟨?_, ?_, ?_⟩
    · intro x hx
      have hx' : x ∈ P ++ Q := hQ ▸ hx
      rw [hget x hx']
      exact hw.live x (hmem x hx')
    · show (List.filterMap id (t.slots.set pos none)).Pairwise _
      rw [hQ]
      have hpw : (P ++ Q).Pairwise (keysDiffer keq h) := by
        have := hw.uniq
        rw [hP'] at this
        exact this.sublist hsubl
      refine hpw.imp_of_mem ?_
      intro x y hx hy hxy kx ky hkx hky
      have ex : (destroy h (some a)).keyOf x = h.keyOf x := by
        unfold Heap.keyOf; rw [hget x hx]
      have ey : (destroy h (some a)).keyOf y = h.keyOf y := by
        unfold Heap.keyOf; rw [hget y hy]
      exact hxy kx ky (ex ▸ hkx) (ey ▸ hky)
    · show t.size_ - 1 = (List.filterMap id (t.slots.set pos none)).length
      rw [hQ, hw.size_eq, hP']
      simp only [List.length_append, List.length_cons]
      omega

theorem node_ptr_of_drop (m m1 : unordered_node_map) (p : Nat)
    (hd : m1.table_.slots.drop p = m.table_.slots.drop p) (pos : Nat) (hpos : p ≤ pos) :
    m1.node_ptr pos = m.node_ptr pos ∧ m1.next pos = m.next pos := by
  have hdd : ∀ q, p ≤ q → m1.table_.slots.drop q = m.table_.slots.drop q := by
    intro q hq
    have e1 : m1.table_.slots.drop q = (m1.table_.slots.drop p).drop (q - p) := by
      rw [List.drop_drop]; congr 1; omega
    have e2 : m.table_.slots.drop q = (m.table_.slots.drop p).drop (q - p) := by
      rw [List.drop_drop]; congr 1; omega
    rw [e1, e2, hd]
  constructor
  · unfold unordered_node_map.node_ptr Table.deref
    have e1 : m1.table_.slots.get? pos = (m1.table_.slots.drop pos).head? := by
      rw [List.get?_eq_getElem?, List.head?_drop]
    have e2 : m.table_.slots.get? pos = (m.table_.slots.drop pos).head? := by
      rw [List.get?_eq_getElem?, List.head?_drop]
    rw [e1, e2, hdd pos hpos]
  · unfold unordered_node_map.next
    rw [hdd (pos + 1) (by omega)]

theorem walk_range_of_drop (m m1 : unordered_node_map) (p : Nat)
    (hd : m1.table_.slots.drop p = m.table_.slots.drop p) (last : Nat) :
    ∀ (fuel pos : Nat), p ≤ pos →
      m1.walk_range fuel pos last = m.walk_range fuel pos last ∧
      m1.reaches fuel pos last = m.reaches fuel pos last := by
  intro fuel
  induction fuel with
  | zero => intro pos _; exact ⟨rfl, rfl⟩
  | succ fuel ih =>
    intro pos hpos
    obtain ⟨e1, e2⟩ := node_ptr_of_drop m m1 p hd pos hpos
    have hn : p ≤ m.next pos := le_trans hpos (Nat.le_of_lt (lt_next m pos))
    obtain ⟨i1, i2⟩ := ih (m.next pos) hn
    constructor
    · unfold unordered_node_map.walk_range
      rw [e1, e2, i1]
    · unfold unordered_node_map.reaches
      rw [e1, e2, i2]

theorem drop_set_of_lt (l : List (Option Addr)) (i p : Nat) (x : Option Addr) (hip : i < p) :
    (l.set i x).drop p = l.drop p := by
  apply List.ext_getElem?
  intro j
  rw [List.getElem?_drop, List.getElem?_drop, List.getElem?_set]
  have : ¬ i = p + j := by omega
  simp [this]

end ClaimC12
section ClaimC12b

variable {K V : Type}

theorem walk_range_self (m : unordered_node_map) (n pos : Nat) : m.walk_range n pos pos = [] := by
  cases n <;> simp [unordered_node_map.walk_range]

end ClaimC12b
section ClaimC12c

variable {K V : Type}

/-- C12. `erase(first, last)` gives no result and erases nothing, for any
container and any two iterators, a valid range or not, and neither does
`erase(pos)`: line 482 builds the result with
`iterator{detail::foa::const_iterator_cast_tag{}, last}`, and
`boost::indirect_iterator` has no constructor that takes a tag and an
iterator of the container; lines 472-476, which the loop calls, hand the
container's iterator to the engine's `erase`, which takes an iterator of the
engine. On `{1:2, 2:3, 3:4}` the range of its first two elements is valid and
`erase` on it gives no iterator. -/
theorem C12_erase_range (h : Heap K V) (m : unordered_node_map) (fuel first last pos : Nat) :
    m.erase_range h fuel first last = none ∧
    m.erase h pos = none ∧
    m.table_.erase_call h [IterArg.value_iterator pos] = none ∧
    indirect_iterator IterArg.const_iterator_cast_tag [IterArg.value_iterator last] = none ∧
    (unordered_node_map.from_range Example.keqNat (Heap.empty : Heap Nat Nat)
        [(1, 2), (2, 3), (3, 4)]).2.reaches 2 0 2 = true ∧
    (unordered_node_map.from_range Example.keqNat (Heap.empty : Heap Nat Nat)
        [(1, 2), (2, 3), (3, 4)]).2.erase_range
      (unordered_node_map.from_range Example.keqNat (Heap.empty : Heap Nat Nat)
        [(1, 2), (2, 3), (3, 4)]).1 5 0 2 = none := by
  have hall : ∀ (K1 V1 : Type) (h1 : Heap K1 V1) (m1 : unordered_node_map) (f a b : Nat),
      m1.erase_range h1 f a b = none := by
    intro K1 V1 h1 m1 f a b
    cases f with
    | zero =>
      unfold unordered_node_map.erase_range
      by_cases hab : a ≠ b
      · rw [if_pos hab]
      · rw [if_neg hab]; rfl
    | succ f =>
      unfold unordered_node_map.erase_range
      by_cases hab : a ≠ b
      · rw [if_pos hab]
        cases m1.node_ptr a with
        | none => rfl
        | some q => rfl
      · rw [if_neg hab]; rfl
  exact ⟨hall K V h m fuel first last, rfl, rfl, rfl, by decide, hall Nat Nat _ _ 5 0 2⟩

end ClaimC12c
section ClaimC20

variable {K V : Type}

theorem keys_covered_of_length_le (keq : K → K → Bool) (hk : KeyEquiv keq) (h : Heap K V)
    (t1 t2 : Table) (hw1 : t1.WF keq h) (hw2 : t2.WF keq h)
    (hsub : ∀ a ∈ t1.ptrs, t2.hasKeyAt keq h a) (hlen : t2.ptrs.length ≤ t1.ptrs.length) :
    ∀ b ∈ t2.ptrs, ∃ a ∈ t1.ptrs, ∃ ka, h.keyOf a = some ka ∧ t2.nodeAddr keq h ka = some b := by
  let f : Addr → Addr := fun a =>
    match h.keyOf a with
    | some ka => (t2.nodeAddr keq h ka).getD 0
    | none => 0
  have hf : ∀ a ∈ t1.ptrs, f a ∈ t2.ptrs ∧ ∃ ka kq, h.keyOf a = some ka ∧
      h.keyOf (f a) = some kq ∧ keq ka kq = true ∧ t2.nodeAddr keq h ka = some (f a) := by
    intro a ha
    obtain ⟨ka, hka, q, hq, kq, hkq, hkeq⟩ := hsub a ha
    have hna : t2.nodeAddr keq h ka = some q :=
      (nodeAddr_eq_some_iff keq hk h t2 hw2 ka q).mpr ⟨hq, kq, hkq, hkeq⟩
    have hfa : f a = q := by
      show (match h.keyOf a with
        | some ka => (t2.nodeAddr keq h ka).getD 0
        | none => 0) = q
      rw [hka]
      simp only [hna, Option.getD_some]
    rw [hfa]
    exact ⟨hq, ka, kq, hka, hkq, hkeq, hna⟩
  have hinj : ∀ a ∈ t1.ptrs, ∀ b ∈ t1.ptrs, f a = f b → a = b := by
    intro a ha b hb hfab
    obtain ⟨_, ka, kq, hka, hkq, hkeq, _⟩ := hf a ha
    obtain ⟨_, kb, kq2, hkb, hkq2, hkeq2, _⟩ := hf b hb
    rw [← hfab, hkq] at hkq2
    cases hkq2
    by_contra hab
    have hsym : Symmetric (keysDiffer keq h) := fun _ _ hxy => keysDiffer_symm keq hk h hxy
    have := hw1.uniq.forall hsym ha hb hab ka kb hka hkb
    rw [hk.trans ka kq kb hkeq (hk.symm kb kq hkeq2)] at this
    cases this
  have hnd : (t1.ptrs.map f).Nodup := List.Nodup.map_on hinj (WF_nodup keq hk h t1 hw1)
  have hss : t1.ptrs.map f ⊆ t2.ptrs := by
    intro q hq
    obtain ⟨a, ha, rfl⟩ := List.mem_map.mp hq
    exact (hf a ha).1
  have hperm : (t1.ptrs.map f).Perm t2.ptrs :=
    (List.subperm_of_subset hnd hss).perm_of_length_le (by simpa using hlen)
  intro b hb
  obtain ⟨a, ha, hab⟩ := List.mem_map.mp (hperm.mem_iff.mpr hb)
  obtain ⟨_, ka, _, hka, _, _, hna⟩ := hf a ha
  exact ⟨a, ha, ka, hka, hab ▸ hna⟩

theorem operator_eq_symm_imp [BEq K] [BEq V] (keq : K → K → Bool) (hk : KeyEquiv keq)
    (hsym : ∀ x y : Node K V, (x.first == y.first && x.second == y.second) = true →
      (y.first == x.first && y.second == x.second) = true)
    (h : Heap K V) (ia ib : Nat) (a b : unordered_node_map)
    (hwa : a.table_.WF keq h) (hwb : b.table_.WF keq h)
    (hab : unordered_node_map.operator_eq keq h ia ib a b = true) :
    unordered_node_map.operator_eq keq h ib ia b a = true := by
  by_cases hid : ia = ib
  · unfold unordered_node_map.operator_eq
    rw [if_pos hid.symm]
  · rw [operator_eq_iff keq hk h ia ib a b hid hwb] at hab
    rw [operator_eq_iff keq hk h ib ia b a (fun e => hid e.symm) hwa]
    obtain ⟨hsz, hall⟩ := hab
    refine ⟨hsz.symm, ?_⟩
    have hsub : ∀ p ∈ a.table_.ptrs, b.table_.hasKeyAt keq h p := by
      intro p hp
      obtain ⟨x, hx⟩ := hwa.live p hp
      obtain ⟨y, hy, hkeq, _⟩ := hall x ((mem_elements_iff h a x).mpr ⟨p, hp, hx⟩)
      obtain ⟨q, hq, hgq⟩ := (mem_elements_iff h b y).mp hy
      exact ⟨x.first, keyOf_of_get hx, q, hq, y.first, keyOf_of_get hgq, hkeq⟩
    have hlen : b.table_.ptrs.length ≤ a.table_.ptrs.length := by
      have : a.table_.size_ = b.table_.size_ := hsz
      rw [hwa.size_eq, hwb.size_eq] at this
      omega
    intro y hy
    obtain ⟨q, hq, hgq⟩ := (mem_elements_iff h b y).mp hy
    obtain ⟨p, hp, ka, hka, hna⟩ :=
      keys_covered_of_length_le keq hk h a.table_ b.table_ hwa hwb hsub hlen q hq
    obtain ⟨x, hx⟩ := hwa.live p hp
    rw [keyOf_of_get hx] at hka
    cases hka
    obtain ⟨y2, hy2, hkeq2, heq2⟩ := hall x ((mem_elements_iff h a x).mpr ⟨p, hp, hx⟩)
    obtain ⟨q2, hq2, hgq2⟩ := (mem_elements_iff h b y2).mp hy2
    have hna2 : b.table_.nodeAddr keq h x.first = some q2 :=
      (nodeAddr_eq_some_iff keq hk h b.table_ hwb x.first q2).mpr
        ⟨hq2, y2.first, keyOf_of_get hgq2, hkeq2⟩
    rw [hna] at hna2
    cases hna2
    rw [hgq] at hgq2
    cases hgq2
    exact ⟨x, (mem_elements_iff h a x).mpr ⟨p, hp, hx⟩, hk.symm _ _ hkeq2, hsym y x heq2⟩

/-- C20. `operator==` is symmetric: for two well-formed containers whose key
equality is an equivalence relation and whose element comparison (the pairs'
`operator==`) is symmetric, `a == b` and `b == a` have the same value. -/
theorem C20_operator_eq_symm [BEq K] [BEq V] (keq : K → K → Bool) (hk : KeyEquiv keq)
    (hsym : ∀ x y : Node K V, (x.first == y.first && x.second == y.second) = true →
      (y.first == x.first && y.second == x.second) = true)
    (h : Heap K V) (ia ib : Nat) (a b : unordered_node_map)
    (hwa : a.table_.WF keq h) (hwb : b.table_.WF keq h) :
    unordered_node_map.operator_eq keq h ia ib a b
      = unordered_node_map.operator_eq keq h ib ia b a := by
  cases hx : unordered_node_map.operator_eq keq h ia ib a b
  · cases hy : unordered_node_map.operator_eq keq h ib ia b a
    · rfl
    · rw [operator_eq_symm_imp keq hk hsym h ib ia b a hwb hwa hy] at hx
      cases hx
  · exact (operator_eq_symm_imp keq hk hsym h ia ib a b hwa hwb hx).symm

/-- Witness of C20: `A = {1:"a", 2:"b"}` and `B = {2:"x", 3:"c"}`. -/
theorem C20_operator_eq_symm_witness :
    KeyEquiv Example.keqNat ∧
    (∀ x y : Node Nat String, (x.first == y.first && x.second == y.second) = true →
      (y.first == x.first && y.second == x.second) = true) ∧
    Example.world.a.table_.WF Example.keqNat Example.world.heap ∧
    Example.world.b.table_.WF Example.keqNat Example.world.heap ∧
    unordered_node_map.operator_eq Example.keqNat Example.world.heap 0 1 Example.world.a
        Example.world.b
      = unordered_node_map.operator_eq Example.keqNat Example.world.heap 1 0 Example.world.b
        Example.world.a :=
  ⟨keqNat_equiv,
    fun x y hxy => by
      simp only [Bool.and_eq_true, beq_iff_eq] at hxy ⊢
      exact ⟨hxy.1.symm, hxy.2.symm⟩,
    WF_example_world.1, WF_example_world.2,
    C20_operator_eq_symm Example.keqNat keqNat_equiv
      (fun x y hxy => by
        simp only [Bool.and_eq_true, beq_iff_eq] at hxy ⊢
        exact ⟨hxy.1.symm, hxy.2.symm⟩)
      Example.world.heap 0 1 Example.world.a Example.world.b
      WF_example_world.1 WF_example_world.2⟩

end ClaimC20
section LastClaims

variable {K V A : Type}

theorem map_update_fresh (cells : List (Addr × Option (Node K V))) (x : Option (Node K V)) :
    cells.map (fun c => if c.1 = freshAddr cells then (c.1, x) else c) = cells := by
  conv_rhs => rw [← List.map_id cells]
  apply List.map_congr_left
  intro c hc
  have := Nat.ne_of_lt (lt_freshAddr cells c hc)
  simp [this]

/-- C25 (construct/destroy round trip). When the Node's constructor succeeds
with the Node `n`, `construct(slot, args...)` returns normally, allocates
exactly one Node, at an address that was not live, constructs `n` there and
stores that address in the slot; the following `destroy(slot)` destroys and
frees that Node, after which the live allocations and all cells are those
before the two calls, with one `allocate` and one `deallocate` counted. -/
theorem C25_construct_destroy_round_trip (al : Heap K V) (n : Node K V) :
    (construct al (Except.ok n : Except Unit (Node K V))).2.2 = Except.ok () ∧
    (∃ b, (construct al (Except.ok n : Except Unit (Node K V))).2.1 = some b ∧ b ∉ al.live ∧
      (construct al (Except.ok n : Except Unit (Node K V))).1.live = b :: al.live ∧
      (construct al (Except.ok n : Except Unit (Node K V))).1.get b = some n ∧
      (destroy (construct al (Except.ok n : Except Unit (Node K V))).1
        (construct al (Except.ok n : Except Unit (Node K V))).2.1).get b = none) ∧
    (construct al (Except.ok n : Except Unit (Node K V))).1.allocs = al.allocs + 1 ∧
    (destroy (construct al (Except.ok n : Except Unit (Node K V))).1
      (construct al (Except.ok n : Except Unit (Node K V))).2.1).live = al.live ∧
    (destroy (construct al (Except.ok n : Except Unit (Node K V))).1
      (construct al (Except.ok n : Except Unit (Node K V))).2.1).cells = al.cells ∧
    (destroy (construct al (Except.ok n : Except Unit (Node K V))).1
      (construct al (Except.ok n : Except Unit (Node K V))).2.1).frees = al.frees + 1 ∧
    (destroy (construct al (Except.ok n : Except Unit (Node K V))).1
      (construct al (Except.ok n : Except Unit (Node K V))).2.1).allocs = al.allocs + 1 := by
  have hfresh : freshAddr al.cells ∉ al.live := by
    intro hmem
    obtain ⟨c, hc1, hc2⟩ := List.mem_map.mp hmem
    exact Nat.ne_of_lt (lt_freshAddr al.cells c hc1) hc2
  have hcells1 : (construct al (Except.ok n : Except Unit (Node K V))).1.cells
      = (freshAddr al.cells, some n) :: al.cells := by
    simp only [construct, Heap.allocate, Heap.construct_at, List.map_cons, if_true]
    rw [map_update_fresh]
  have hcells2 : (destroy (construct al (Except.ok n : Except Unit (Node K V))).1
      (construct al (Except.ok n : Except Unit (Node K V))).2.1).cells = al.cells := by
    show (((construct al (Except.ok n : Except Unit (Node K V))).1.destroy_at
      (freshAddr al.cells)).deallocate (freshAddr al.cells)).cells = al.cells
    simp only [Heap.deallocate, Heap.destroy_at, hcells1, List.map_cons, if_true]
    rw [map_update_fresh]
    have hhead : ((freshAddr al.cells, (none : Option (Node K V))) :: al.cells).filter
        (fun c => decide (c.1 ≠ freshAddr al.cells))
        = al.cells.filter (fun c => decide (c.1 ≠ freshAddr al.cells)) := by
      simp [List.filter_cons]
    rw [hhead, filter_ne_fresh]
  refine ⟨rfl, ⟨freshAddr al.cells, rfl, hfresh, ?_, ?_, ?_⟩, rfl, ?_, hcells2, rfl, rfl⟩
  · unfold Heap.live; rw [hcells1]; rfl
  · rw [get_construct_ok, if_pos rfl]
  · show (destroy _ (some (freshAddr al.cells))).get _ = none
    rw [get_destroy, if_pos rfl]
  · unfold Heap.live; rw [hcells2]

/-- C24. `count(k)` is 0 or 1; `count(k) == 1` exactly when `contains(k)` is
true, exactly when `find(k) != end()`. The three are `const` member functions
(`find` also has a non-`const` overload with the same body): they read the
allocator memory and the container and return only their result. -/
theorem C24_count_find_contains (keq : K → K → Bool) (h : Heap K V) (m : unordered_node_map)
    (k : K) :
    (m.count keq h k = 0 ∨ m.count keq h k = 1) ∧
    (m.count keq h k = 1 ↔ m.contains keq h k = true) ∧
    (m.contains keq h k = true ↔ m.find keq h k ≠ m.end_) ∧
    (m.count keq h k = 0 ↔ m.find keq h k = m.end_) := by
  unfold unordered_node_map.count unordered_node_map.contains unordered_node_map.find
    unordered_node_map.end_
  by_cases hne : m.table_.find keq h k ≠ m.table_.end_
  · simp [hne]
  · have he : m.table_.find keq h k = m.table_.end_ := not_not.mp hne
    simp [he]

/-- C22. `emplace_hint(hint, args...)` leaves the allocator memory and the
container as `emplace(args...)` does and returns the iterator `emplace`
returns, for every hint and every argument pack: the `init_type` that
`emplace` builds from the arguments before the call is the one the engine
builds from them in `emplace_hint`. For a key and a value as arguments these
are `emplace(k, v)` and `emplace_hint(hint, k, v)`. -/
theorem C22_emplace_hint (keq : K → K → Bool) (h : Heap K V) (m : unordered_node_map)
    (hint : Nat) (init : A → K × V) (args : A) (k : K) (v : V) :
    (m.emplace_hint_args keq h hint init args).2 = (m.emplace_args keq h init args).2 ∧
    (m.emplace_hint_args keq h hint init args).1 = (m.emplace_args keq h init args).1.1 ∧
    (m.emplace_hint keq h hint k v).2 = (m.emplace keq h k v).2 ∧
    (m.emplace_hint keq h hint k v).1 = (m.emplace keq h k v).1.1 ∧
    m.emplace keq h k v = m.emplace_args keq h (fun (x : K × V) => x) (k, v) ∧
    m.emplace_hint keq h hint k v
      = m.emplace_hint_args keq h hint (fun (x : K × V) => x) (k, v) :=
  ⟨rfl, rfl, rfl, rfl, rfl, rfl⟩

/-- C21. The generic overload `insert(hint, v)` leaves the allocator memory
and the container as `insert(v)` does and returns the iterator `insert(v)`
returns, whatever the hint; so does `insert(init_type&&)` without a hint. The
`init_type&&` overload with a hint does not: it hands the engine's `insert`
two arguments, the key and the mapped value, for which the engine has no
`insert`, so the call gives no result. -/
theorem C21_hinted_insert (keq : K → K → Bool) (h : Heap K V) (m : unordered_node_map)
    (hint : Nat) (v : K × V) :
    (m.insert_hint keq h hint v).2 = (m.insert keq h v).2 ∧
    (m.insert_hint keq h hint v).1 = (m.insert keq h v).1.1 ∧
    m.insert_init keq h v = some (m.insert keq h v) ∧
    m.insert_hint_init keq h hint v = none :=
  ⟨rfl, rfl, rfl, rfl⟩

end LastClaims
section ClaimC23

variable {K V : Type}

theorem mapped_eq_none_of_absent (keq : K → K → Bool) (hk : KeyEquiv keq) (h : Heap K V)
    (m : unordered_node_map) (hw : m.table_.WF keq h) (k : K)
    (hp : ¬ m.table_.hasKey keq h k) : m.mapped keq h k = none := by
  unfold unordered_node_map.mapped
  rw [(nodeAddr_eq_none_iff keq hk h m.table_ hw k).mpr hp]
  rfl

theorem mapped_congr_key (keq : K → K → Bool) (hk : KeyEquiv keq) (h : Heap K V)
    (m : unordered_node_map) (hw : m.table_.WF keq h) (k k2 : K) (hkk : keq k k2 = true) :
    m.mapped keq h k = m.mapped keq h k2 := by
  unfold unordered_node_map.mapped
  rw [nodeAddr_congr_key keq hk h m.table_ hw k k2 hkk]

theorem emplace_step (keq : K → K → Bool) (hk : KeyEquiv keq) (h : Heap K V)
    (m : unordered_node_map) (hw : m.table_.WF keq h) (x : K × V) (k : K) :
    (Table.emplace keq h m.table_ x).2.2.WF keq (Table.emplace keq h m.table_ x).2.1 ∧
    (unordered_node_map.contains keq (Table.emplace keq h m.table_ x).2.1
        ⟨(Table.emplace keq h m.table_ x).2.2⟩ k
      = (m.contains keq h k || keq k x.1)) ∧
    (unordered_node_map.mapped keq (Table.emplace keq h m.table_ x).2.1
        ⟨(Table.emplace keq h m.table_ x).2.2⟩ k
      = if m.contains keq h k = true then m.mapped keq h k
        else if keq k x.1 = true then some x.2 else none) ∧
    (m.contains keq h k = true →
      (Table.emplace keq h m.table_ x).2.2.nodeAddr keq (Table.emplace keq h m.table_ x).2.1 k
        = m.table_.nodeAddr keq h k) := by
  have hw1 : (Table.emplace keq h m.table_ x).2.2.WF keq (Table.emplace keq h m.table_ x).2.1 :=
    emplace_impl_WF keq hk h m.table_ _ _ rfl hw
  by_cases hx : m.table_.hasKey keq h x.1
  · -- the key of `x` is present: nothing changes
    have e : Table.emplace keq h m.table_ x = ((m.table_.find keq h x.1, false), h, m.table_) :=
      emplace_impl_present keq h m.table_ _ _ hx
    rw [e]
    by_cases hc : m.contains keq h k = true
    · refine ⟨hw, ?_, ?_, fun _ => rfl⟩
      · show m.contains keq h k = _
        rw [hc]; rfl
      · show m.mapped keq h k = _
        rw [if_pos hc]
    · have hkx : keq k x.1 = false := by
        cases hkx : keq k x.1
        · rfl
        · exact absurd ((contains_eq_true_iff keq h m k).mpr
            ((hasKey_congr_key keq hk h m.table_ k x.1 hkx).mpr hx)) hc
      have hcf : m.contains keq h k = false := by
        cases hcv : m.contains keq h k
        · rfl
        · exact absurd hcv hc
      refine ⟨hw, ?_, ?_, fun hct => absurd hct hc⟩
      · show m.contains keq h k = _
        rw [hcf, hkx]; rfl
      · show m.mapped keq h k = _
        rw [if_neg hc, hkx]
        exact mapped_eq_none_of_absent keq hk h m hw k
          ((contains_eq_false_iff keq h m k).mp hcf)
  · -- the key of `x` is absent: `x` is inserted
    obtain ⟨_, _, i3', ⟨p, _, i4', _, _⟩, i5', _, _⟩ :=
      emplace_impl_inserted keq hk h m hw x.1 x.2 hx
    have i7 := hw1
    have i3 : unordered_node_map.mapped keq (Table.emplace keq h m.table_ x).2.1
        ⟨(Table.emplace keq h m.table_ x).2.2⟩ x.1 = some x.2 := i3'
    have i4 : (Table.emplace keq h m.table_ x).2.2.nodeAddr keq
        (Table.emplace keq h m.table_ x).2.1 x.1 = some p := i4'
    have i5 : ∀ k2, keq k2 x.1 = false →
        (Table.emplace keq h m.table_ x).2.2.nodeAddr keq
            (Table.emplace keq h m.table_ x).2.1 k2 = m.table_.nodeAddr keq h k2 ∧
        unordered_node_map.mapped keq (Table.emplace keq h m.table_ x).2.1
            ⟨(Table.emplace keq h m.table_ x).2.2⟩ k2 = m.mapped keq h k2 := i5'
    by_cases hkx : keq k x.1 = true
    · have hcf : m.contains keq h k = false := by
        rw [contains_eq_false_iff]
        exact fun hp => hx ((hasKey_congr_key keq hk h m.table_ k x.1 hkx).mp hp)
      refine ⟨hw1, ?_, ?_, fun hct => ?_⟩
      · rw [hcf, hkx]
        show unordered_node_map.contains keq _ _ k = true
        rw [contains_eq_true_iff]
        exact (hasKey_iff_nodeAddr keq hk _ _ i7 k).mpr
          ⟨p, (nodeAddr_congr_key keq hk _ _ i7 k x.1 hkx).trans i4⟩
      · rw [hcf]
        simp only [Bool.false_eq_true, if_false, hkx, if_true]
        exact (mapped_congr_key keq hk _ _ i7 k x.1 hkx).trans i3
      · rw [hcf] at hct; cases hct
    · have hkf : keq k x.1 = false := by
        cases hv : keq k x.1
        · rfl
        · exact absurd hv hkx
      obtain ⟨j1, j2⟩ := i5 k hkf
      refine ⟨hw1, ?_, ?_, fun _ => j1⟩
      · rw [hkf, Bool.or_false]
        cases hc : m.contains keq h k
        · rw [contains_eq_false_iff, ← nodeAddr_eq_none_iff keq hk _ _ i7]
          show Table.nodeAddr keq _ _ k = none
          rw [j1]
          exact (nodeAddr_eq_none_iff keq hk h m.table_ hw k).mpr
            ((contains_eq_false_iff keq h m k).mp hc)
        · rw [contains_eq_true_iff, hasKey_iff_nodeAddr keq hk _ _ i7]
          obtain ⟨q, hq⟩ := (hasKey_iff_nodeAddr keq hk h m.table_ hw k).mp
            ((contains_eq_true_iff keq h m k).mp hc)
          exact ⟨q, j1.trans hq⟩
      · show unordered_node_map.mapped keq _ _ k = _
        rw [j2]
        by_cases hc : m.contains keq h k = true
        · rw [if_pos hc]
        · rw [if_neg hc, hkf]
          simp only [Bool.false_eq_true, if_false]
          have hcf : m.contains keq h k = false := by
            cases hcv : m.contains keq h k
            · rfl
            · exact absurd hcv hc
          exact mapped_eq_none_of_absent keq hk h m hw k
            ((contains_eq_false_iff keq h m k).mp hcf)

theorem insert_range_eq_foldl (keq : K → K → Bool) (xs : List (K × V)) :
    ∀ (h : Heap K V) (m : unordered_node_map),
      m.insert_range keq h xs
        = xs.foldl (fun s x => (unordered_node_map.insert keq s.1 s.2 x).2) (h, m) := by
  induction xs with
  | nil => intro h m; rfl
  | cons x rest ih =>
    intro h m
    exact ih _ _

theorem insert_range_mapped (keq : K → K → Bool) (hk : KeyEquiv keq) (xs : List (K × V)) :
    ∀ (h : Heap K V) (m : unordered_node_map), m.table_.WF keq h → ∀ k : K,
      ((m.insert_range keq h xs).2.mapped keq (m.insert_range keq h xs).1 k
        = if m.contains keq h k = true then m.mapped keq h k
          else (xs.find? (fun p => keq k p.1)).map Prod.snd) ∧
      (m.contains keq h k = true →
        (m.insert_range keq h xs).2.table_.nodeAddr keq (m.insert_range keq h xs).1 k
          = m.table_.nodeAddr keq h k) := by
  induction xs with
  | nil =>
    intro h m hw k
    refine ⟨?_, fun _ => rfl⟩
    show m.mapped keq h k = _
    by_cases hc : m.contains keq h k = true
    · rw [if_pos hc]
    · rw [if_neg hc]
      have hcf : m.contains keq h k = false := by
        cases hcv : m.contains keq h k
        · rfl
        · exact absurd hcv hc
      exact mapped_eq_none_of_absent keq hk h m hw k ((contains_eq_false_iff keq h m k).mp hcf)
  | cons x rest ih =>
    intro h m hw k
    obtain ⟨s1, s2, s3, s4⟩ := emplace_step keq hk h m hw x k
    obtain ⟨i1, i2⟩ := ih (Table.emplace keq h m.table_ x).2.1
      ⟨(Table.emplace keq h m.table_ x).2.2⟩ s1 k
    have e : m.insert_range keq h (x :: rest)
        = unordered_node_map.insert_range keq (Table.emplace keq h m.table_ x).2.1
            ⟨(Table.emplace keq h m.table_ x).2.2⟩ rest := rfl
    rw [e]
    constructor
    · rw [i1, s2, s3]
      by_cases hc : m.contains keq h k = true
      · simp [hc]
      · have hcf : m.contains keq h k = false := by
          cases hcv : m.contains keq h k
          · rfl
          · exact absurd hcv hc
        by_cases hkx : keq k x.1 = true
        · simp [hcf, hkx, List.find?_cons]
        · have hkf : keq k x.1 = false := by
            cases hv : keq k x.1
            · rfl
            · exact absurd hv hkx
          simp [hcf, hkf, List.find?_cons]
    · intro hc
      have hc1 : unordered_node_map.contains keq (Table.emplace keq h m.table_ x).2.1
          ⟨(Table.emplace keq h m.table_ x).2.2⟩ k = true := by
        rw [s2, hc]; rfl
      rw [i2 hc1]
      exact s4 hc

/-- C23. `insert(first, last)` over the sequence `xs` leaves the allocator
memory and the container as inserting the pairs of `xs` one at a time, in
order, with `insert(value)` does, and so does `insert(ilist)`. On a
well-formed container the mapped value of every key `k` afterwards is its old
mapped value when `k` was in the container (still in its old Node), and
otherwise the value of the first pair of `xs` whose key equals `k` (none when
there is no such pair); the container stays well-formed. -/
theorem C23_insert_range (keq : K → K → Bool) (hk : KeyEquiv keq) (h : Heap K V)
    (m : unordered_node_map) (hw : m.table_.WF keq h) (xs : List (K × V)) :
    m.insert_range keq h xs
      = xs.foldl (fun s x => (unordered_node_map.insert keq s.1 s.2 x).2) (h, m) ∧
    m.insert_ilist keq h xs = m.insert_range keq h xs ∧
    (∀ k : K,
      (m.insert_range keq h xs).2.mapped keq (m.insert_range keq h xs).1 k
        = if m.contains keq h k = true then m.mapped keq h k
          else (xs.find? (fun p => keq k p.1)).map Prod.snd) ∧
    (∀ k : K, m.contains keq h k = true →
      (m.insert_range keq h xs).2.table_.nodeAddr keq (m.insert_range keq h xs).1 k
        = m.table_.nodeAddr keq h k) ∧
    (m.insert_range keq h xs).2.table_.WF keq (m.insert_range keq h xs).1 :=
  ⟨insert_range_eq_foldl keq xs h m, rfl,
    fun k => (insert_range_mapped keq hk xs h m hw k).1,
    fun k => (insert_range_mapped keq hk xs h m hw k).2,
    (insert_range_spec keq hk xs h m).2.2 hw⟩

/-- Witness of C23: inserting `[(2, "q"), (5, "u"), (5, "w")]` into
`A = {1:"a", 2:"b"}` keeps `2:"b"` and stores `5:"u"`. -/
theorem C23_insert_range_witness :
    KeyEquiv Example.keqNat ∧
    Example.world.a.table_.WF Example.keqNat Example.world.heap ∧
    ((Example.world.a.insert_range Example.keqNat Example.world.heap
        [(2, "q"), (5, "u"), (5, "w")]).2.elements
      (Example.world.a.insert_range Example.keqNat Example.world.heap
        [(2, "q"), (5, "u"), (5, "w")]).1).map (fun n => (n.first, n.second))
      = [(1, "a"), (2, "b"), (5, "u")] ∧
    Example.world.a.insert_range Example.keqNat Example.world.heap [(2, "q"), (5, "u"), (5, "w")]
      = [(2, "q"), (5, "u"), (5, "w")].foldl
          (fun s x => (unordered_node_map.insert Example.keqNat s.1 s.2 x).2)
          (Example.world.heap, Example.world.a) :=
  ⟨keqNat_equiv, WF_example_world.1, by decide,
    (C23_insert_range Example.keqNat keqNat_equiv Example.world.heap Example.world.a
      WF_example_world.1 [(2, "q"), (5, "u"), (5, "w")]).1⟩

end ClaimC23

end NodeMap
